import Mathlib

/-!
Shallow embedding of the `QBittorrentConfig` component of the
qbittorrent-operator charm (src/charm.py), together with the parts of the
Python 3.11 standard library it builds on: `configparser.ConfigParser`
(with `optionxform = str`, i.e. case-sensitive option names, the default
`BasicInterpolation`, strict mode, delimiters `=`/`:`, comment prefixes
`#`/`;`, no inline comments, `empty_lines_in_values=True`), `base64.b64encode`,
`hashlib.pbkdf2_hmac("sha512", ...)` and `str`/`int` conversions.

Strings are modelled as `List Char`; bytes as `Nat` (with values < 256).
Python whitespace handling is modelled for the ASCII whitespace characters.
-/

/-- Python strings, modelled as lists of characters. -/
abbrev Str := List Char

/-- ASCII whitespace as recognised by `str.strip` / `\s` / `str.isspace`. -/
def pyIsSpace (c : Char) : Bool :=
  c = ' ' || c = '\t' || c = '\n' || c = '\r' || c = '\x0B' || c = '\x0C'

/-- Python `str.lstrip()`. -/
def lstrip (s : Str) : Str := s.dropWhile pyIsSpace

/-- Python `str.rstrip()`. -/
def rstrip (s : Str) : Str := (s.reverse.dropWhile pyIsSpace).reverse

/-- Python `str.strip()`. -/
def pstrip (s : Str) : Str := rstrip (lstrip s)

/-- Ordered-dict assignment `d[k] = v`: overwrite in place, else append. -/
def dSet {α : Type} (d : List (Str × α)) (k : Str) (v : α) : List (Str × α) :=
  match d with
  | [] => [(k, v)]
  | (k0, v0) :: rest => if k0 = k then (k, v) :: rest else (k0, v0) :: dSet rest k v

/-- Ordered-dict lookup `d[k]` (first matching key). -/
def dGet {α : Type} (d : List (Str × α)) (k : Str) : Option α :=
  match d with
  | [] => none
  | (k0, v0) :: rest => if k0 = k then some v0 else dGet rest k

/-- In-memory state of a `configparser.ConfigParser`:
`self._defaults` (the special DEFAULT section) and `self._sections`,
both insertion-ordered dicts with case-sensitive string keys
(`optionxform = str`). -/
structure CP where
  defaults : List (Str × Str)
  sections : List (Str × List (Str × Str))
deriving DecidableEq, Repr

/-- A freshly constructed parser (also the result of reading a missing file). -/
def CP.empty : CP := ⟨[], []⟩

/-- Exceptions raised by the modelled configparser operations. -/
inductive PyErr where
  /-- `ValueError('Invalid section name')` from `add_section("DEFAULT")`. -/
  | invalidSectionName
  /-- `DuplicateSectionError`. -/
  | duplicateSection
  /-- `NoSectionError`. -/
  | noSection
  /-- `ValueError('invalid interpolation syntax ...')` from
  `BasicInterpolation.before_set`. -/
  | interpolationSyntax
  /-- `MissingSectionHeaderError` from `_read`. -/
  | missingSectionHeader
  /-- `ParsingError` collected during `_read` and raised at its end. -/
  | parsingFailed
  /-- `DuplicateOptionError`. -/
  | duplicateOption
  /-- `ValueError` from `int(...)` on a non-numeric string. -/
  | intValueError
deriving DecidableEq, Repr

instance {ε α : Type} [DecidableEq ε] [DecidableEq α] : DecidableEq (Except ε α) :=
  fun a b =>
  match a, b with
  | .ok x, .ok y =>
      if h : x = y then .isTrue (by rw [h]) else .isFalse (fun hh => h (Except.ok.inj hh))
  | .error x, .error y =>
      if h : x = y then .isTrue (by rw [h]) else .isFalse (fun hh => h (Except.error.inj hh))
  | .ok _, .error _ => .isFalse (fun hh => Except.noConfusion hh)
  | .error _, .ok _ => .isFalse (fun hh => Except.noConfusion hh)

/-- `value.replace('%%', '')` — drop escaped percent pairs, scanning left to
right (first step of `BasicInterpolation.before_set`). -/
def stripPercentPercent : Str → Str
  | [] => []
  | [c] => [c]
  | c1 :: c2 :: rest =>
      if c1 = '%' ∧ c2 = '%' then stripPercentPercent rest
      else c1 :: stripPercentPercent (c2 :: rest)

/-- One attempted match of `_KEYCRE = %\(([^)]+)\)s` immediately after a
`%(` was consumed: greedily take non-`)` characters, then require `)s`.
Returns the remainder after the match, or `none`. -/
def keyRefEnd (l : Str) : Option Str :=
  match l.dropWhile (fun c => !(c == ')')) with
  | ')' :: 's' :: rest =>
      if (l.takeWhile (fun c => !(c == ')'))).isEmpty then none else some rest
  | _ => none

/-- `_KEYCRE.sub('', value)`: delete every occurrence of `%(...)s`,
scanning left to right.  Fuel-indexed so that the kernel can evaluate it;
`fuel ≥ l.length` always suffices. -/
def stripKeyRefsGo : Nat → Str → Str
  | 0, l => l
  | _ + 1, [] => []
  | fuel + 1, c :: rest =>
      if c = '%' ∧ rest.headD ' ' = '(' then
        match keyRefEnd rest.tail with
        | some tail => stripKeyRefsGo fuel tail
        | none => c :: stripKeyRefsGo fuel rest
      else c :: stripKeyRefsGo fuel rest

/-- `_KEYCRE.sub('', value)` with enough fuel. -/
def stripKeyRefs (l : Str) : Str := stripKeyRefsGo l.length l

/-- `BasicInterpolation.before_set`: after removing `%%` pairs and
`%(...)s` references, any leftover `%` is a `ValueError`. -/
def beforeSetOk (value : Str) : Bool :=
  !(stripKeyRefs (stripPercentPercent value)).contains '%'

/-- `RawConfigParser.has_section` — membership in `self._sections`
(the DEFAULT section is not acknowledged). -/
def CP.has_section (cp : CP) (sec : Str) : Bool :=
  (cp.sections.map Prod.fst).contains sec

/-- `RawConfigParser.add_section`: `ValueError` on the DEFAULT name,
`DuplicateSectionError` on an existing section, otherwise append an empty
section at the end. -/
def CP.add_section (cp : CP) (sec : Str) : Except PyErr CP :=
  if sec = "DEFAULT".toList then throw PyErr.invalidSectionName
  else if cp.has_section sec then throw PyErr.duplicateSection
  else pure { cp with sections := cp.sections ++ [(sec, [])] }

/-- Update the (first-occurrence unique in reachable states) section `sec`
in place: `self._sections[section][option] = value`. -/
def sectUpdate (ss : List (Str × List (Str × Str))) (sec opt value : Str) :
    List (Str × List (Str × Str)) :=
  ss.map (fun p => if p.1 = sec then (p.1, dSet p.2 opt value) else p)

/-- `ConfigParser.set(section, option, value)` (Python 3.11): validate the
value through `before_set` when it is truthy (non-empty); an empty or
DEFAULT section name targets `self._defaults`; a missing section raises
`NoSectionError`; otherwise assign into the section dict. -/
def cpSet (cp : CP) (sec opt value : Str) : Except PyErr CP :=
  if value ≠ [] ∧ beforeSetOk value = false then throw PyErr.interpolationSyntax
  else if sec = [] ∨ sec = "DEFAULT".toList then
    pure { cp with defaults := dSet cp.defaults opt value }
  else
    match dGet cp.sections sec with
    | none => throw PyErr.noSection
    | some _ => pure { cp with sections := sectUpdate cp.sections sec opt value }

namespace QBittorrentConfig

/-- `QBittorrentConfig.set`: create the section if absent, then set. -/
def set (cp : CP) (sec opt value : Str) : Except PyErr CP := do
  let cp ← if !cp.has_section sec then cp.add_section sec else pure cp
  cpSet cp sec opt value

/-- `QBittorrentConfig.setup`. -/
def setup (cp : CP) : Except PyErr CP := do
  let cp ← set cp "LegalNotice".toList "Accepted".toList "true".toList
  let cp ← set cp "Meta".toList "MigrationVersion".toList "3".toList
  let cp ← set cp "Preferences".toList "WebUI\\Address".toList "*".toList
  let cp ← set cp "BitTorrent".toList
      "Session\\AddExtensionToIncompleteFiles".toList "true".toList
  set cp "BitTorrent".toList "Session\\DefaultSavePath".toList "/srv".toList

/-- Decimal digits of a natural number (fuel-indexed; `fuel > 0` and
`fuel ≥ number of digits` suffices, as with `natStr`). -/
def natStrAux : Nat → Nat → Str
  | 0, _ => []
  | fuel + 1, n =>
      if n < 10 then [Char.ofNat (48 + n)]
      else natStrAux fuel (n / 10) ++ [Char.ofNat (48 + n % 10)]

/-- Python `str(n)` for a non-negative `int`. -/
def natStr (n : Nat) : Str := natStrAux (n + 1) n

/-- Python `str(i)` for an `int`: decimal digits, `-`-prefixed when
negative. -/
def intStr (i : Int) : Str :=
  match i with
  | .ofNat n => natStr n
  | .negSucc n => '-' :: natStr (n + 1)

/-- `QBittorrentConfig.set_web_port` (the file-saving step is modelled
separately by the serializer). -/
def set_web_port (cp : CP) (port : Int) : Except PyErr CP :=
  set cp "Preferences".toList "WebUI\\Port".toList (intStr port)

/-- `QBittorrentConfig.set_web_username`. -/
def set_web_username (cp : CP) (username : Str) : Except PyErr CP :=
  set cp "Preferences".toList "WebUI\\Username".toList username

/-- `QBittorrentConfig.set_bittorrent_interface`. -/
def set_bittorrent_interface (cp : CP) (iface : Str) : Except PyErr CP := do
  let cp ← set cp "BitTorrent".toList "Session\\Interface".toList iface
  set cp "BitTorrent".toList "Session\\InterfaceName".toList iface

end QBittorrentConfig

/-- Digit-string parsing of Python `int(str)`: digits with single
underscores allowed between digits. -/
def digitsGo (acc : Nat) : Str → Option Nat
  | [] => some acc
  | '_' :: d :: rest =>
      if d.isDigit then digitsGo (acc * 10 + (d.toNat - 48)) rest else none
  | '_' :: [] => none
  | d :: rest =>
      if d.isDigit then digitsGo (acc * 10 + (d.toNat - 48)) rest else none

/-- Unsigned part of Python `int(str)`: at least one leading digit. -/
def pyIntNat (l : Str) : Option Nat :=
  match l with
  | d :: rest => if d.isDigit then digitsGo (d.toNat - 48) rest else none
  | [] => none

/-- Python `int(str)`: strip whitespace, optional sign, digits (with
underscore separators).  `none` models the `ValueError`. -/
def pyInt (s : Str) : Option Int :=
  match pstrip s with
  | '+' :: rest => (pyIntNat rest).map (fun n => (n : Int))
  | '-' :: rest => (pyIntNat rest).map (fun n => -(n : Int))
  | rest => (pyIntNat rest).map (fun n => (n : Int))

/-- The port-handling slice of `QbittorrentOperatorCharm._on_config_changed`:
`config.set_web_port(int(self.config["port"]))`.  A non-numeric port string
makes `int` raise before the setter is reached. -/
def onConfigChangedPort (cp : CP) (portVal : Str) : Except PyErr CP :=
  match pyInt portVal with
  | none => throw PyErr.intValueError
  | some p => QBittorrentConfig.set_web_port cp p

/-- Convenience lookup: the stored value at `(section, key)`. -/
def CP.get (cp : CP) (sec opt : Str) : Option Str :=
  (dGet cp.sections sec).bind (fun es => dGet es opt)

/-! ### The serializer: `RawConfigParser.write` -/

/-- `str(value).replace('\n', '\n\t')` in `_write_section`. -/
def replaceNlTab : Str → Str
  | [] => []
  | c :: rest =>
      if c = '\n' then '\n' :: '\t' :: replaceNlTab rest
      else c :: replaceNlTab rest

/-- One `key{delimiter}value\n` line group of `_write_section`. -/
def writeEntryText (d : Str) (e : Str × Str) : Str :=
  e.1 ++ d ++ replaceNlTab e.2 ++ ['\n']

/-- `_write_section`: bracketed header, the entries, a trailing blank line. -/
def writeSectionText (d : Str) (name : Str) (items : List (Str × Str)) : Str :=
  '[' :: (name ++ ']' :: '\n' :: ((items.map (writeEntryText d)).flatten ++ ['\n']))

/-- `RawConfigParser.write(fp, space_around_delimiters)`: delimiter is
`" = "` when padding is requested, else `"="`; a non-empty DEFAULT section
is emitted first, then every section in order. -/
def writeCfg (cp : CP) (spaceAround : Bool) : Str :=
  let d : Str := if spaceAround then " = ".toList else "=".toList
  (if cp.defaults ≠ [] then writeSectionText d "DEFAULT".toList cp.defaults else [])
    ++ (cp.sections.map (fun s => writeSectionText d s.1 s.2)).flatten

/-- `QBittorrentConfig.save` serialization: `space_around_delimiters=False`. -/
def QBittorrentConfig.save (cp : CP) : Str := writeCfg cp false

/-- File-opening modes used when writing. -/
inductive WriteMode where
  | truncate
  | append

/-- Contents of a file after writing `new` to it: `"w+"` truncates,
`"a"` would append. -/
def fileWrite (mode : WriteMode) (prior new : Str) : Str :=
  match mode with
  | .truncate => new
  | .append => prior ++ new

/-- `QBittorrentConfig.save`: `self.file.open("w+")` then `config.write`. -/
def QBittorrentConfig.saveToFile (prior : Str) (cp : CP) : Str :=
  fileWrite .truncate prior (QBittorrentConfig.save cp)

/-! ### The reader: `RawConfigParser._read`

The parser state mirrors the local variables of `_read`: `cursect` (a
pointer to `self._defaults`, to one entry of `self._sections`, or unset),
`sectname`, `optname` (where Python's `None` and `""` behave identically in
every use — both are falsy and `optname` is only used as an index when
freshly assigned — and are merged into `[]`), `indent_level`, the strict-mode
`elements_added` set (split by type), and the deferred `ParsingError` flag.
Option values are accumulated as lists of line pieces and joined at the end
by `_join_multiline_values`. -/

/-- What `cursect` points at. -/
inductive Cur where
  | nothing
  | dflt
  | sect (name : Str)
deriving DecidableEq, Repr

/-- State of `_read` between lines. -/
structure RS where
  dflts : List (Str × List Str)
  sects : List (Str × List (Str × List Str))
  cur : Cur
  sectname : Str
  optname : Str
  indent : Nat
  addedS : List Str
  addedO : List (Str × Str)
  err : Bool
deriving DecidableEq, Repr

/-- Initial `_read` state of a fresh parser. -/
def RS.init : RS := ⟨[], [], .nothing, [], [], 0, [], [], false⟩

/-- `cursect[optname].append(piece)` on the ordered dict `cursect` points to
(no-op on an absent key, which the control flow never reaches). -/
def dAppend (d : List (Str × List Str)) (k : Str) (piece : Str) :
    List (Str × List Str) :=
  d.map (fun e => if e.1 = k then (e.1, e.2 ++ [piece]) else e)

/-- `cursect[optname].append(piece)`. -/
def RS.curAppend (rs : RS) (piece : Str) : RS :=
  match rs.cur with
  | .nothing => rs
  | .dflt => { rs with dflts := dAppend rs.dflts rs.optname piece }
  | .sect n =>
      { rs with sects :=
          rs.sects.map (fun p => if p.1 = n then (p.1, dAppend p.2 rs.optname piece) else p) }

/-- `cursect[optname] = pieces`. -/
def RS.curAssign (rs : RS) (k : Str) (pieces : List Str) : RS :=
  match rs.cur with
  | .nothing => rs
  | .dflt => { rs with dflts := dSet rs.dflts k pieces }
  | .sect n =>
      { rs with sects :=
          rs.sects.map (fun p => if p.1 = n then (p.1, dSet p.2 k pieces) else p) }

/-- `line.strip().startswith(prefix)` for the comment prefixes `#` and `;`. -/
def startsWithComment (l : Str) : Bool :=
  match pstrip l with
  | [] => false
  | c :: _ => c = '#' || c = ';'

/-- `NONSPACECRE.search(line)`: index of the first non-whitespace character
(`0` when there is none). -/
def indentOf (line : Str) : Nat :=
  if line.all pyIsSpace then 0 else (line.takeWhile pyIsSpace).length

/-- The characters before the last occurrence of `c`, if `c` occurs. -/
def beforeLast (l : Str) (c : Char) : Option Str :=
  if l.contains c then some ((l.reverse.dropWhile (fun x => !(x == c))).tail.reverse)
  else none

/-- `SECTCRE.match(value)` for `\[(?P<header>.+)\]` (re.match, greedy `.+`):
matches when the line starts with `[` and a `]` occurs at index ≥ 2; the
header is everything between the leading `[` and the *last* `]`. -/
def sectMatch : Str → Option Str
  | [] => none
  | c :: rest =>
      if c = '[' then
        match beforeLast rest ']' with
        | some pre => if pre = [] then none else some pre
        | none => none
      else none

/-- `OPTCRE.match(value)` for
`(?P<option>.*?)\s*(?P<vi>=|:)\s*(?P<value>.*)$` followed by the `.rstrip()`
of the option and `.strip()` of the value that `_read` applies: the option
is everything before the first `=`/`:` (right-stripped), the value is the
rest (stripped).  `none` when the line has no delimiter. -/
def optMatch (value : Str) : Option (Str × Str) :=
  match value.dropWhile (fun c => !(c == '=' || c == ':')) with
  | _ :: rest =>
      some (rstrip (value.takeWhile (fun c => !(c == '=' || c == ':'))), pstrip rest)
  | [] => none

/-- One iteration of the `_read` line loop. -/
def readLine (rs : RS) (line : Str) : Except PyErr RS :=
  let isComment := startsWithComment line
  let value := if isComment then [] else pstrip line
  if value = [] then
    if ¬ isComment ∧ rs.cur ≠ .nothing ∧ rs.optname ≠ [] then
      pure (rs.curAppend [])
    else pure rs
  else
    let curIndent := indentOf line
    if rs.cur ≠ .nothing ∧ rs.optname ≠ [] ∧ rs.indent < curIndent then
      pure (rs.curAppend value)
    else
      let rs := { rs with indent := curIndent }
      match sectMatch value with
      | some header =>
          if (rs.sects.map Prod.fst).contains header then
            if rs.addedS.contains header then throw PyErr.duplicateSection
            else pure { rs with cur := .sect header, sectname := header,
                                optname := [], addedS := rs.addedS ++ [header] }
          else if header = "DEFAULT".toList then
            pure { rs with cur := .dflt, sectname := header, optname := [] }
          else
            pure { rs with sects := rs.sects ++ [(header, [])],
                           cur := .sect header, sectname := header,
                           optname := [], addedS := rs.addedS ++ [header] }
      | none =>
          if rs.cur = .nothing then throw PyErr.missingSectionHeader
          else
            match optMatch value with
            | some (optname, optval) =>
                let rs := if optname = [] then { rs with err := true } else rs
                if rs.addedO.contains (rs.sectname, optname) then
                  throw PyErr.duplicateOption
                else
                  pure (({ rs with addedO := rs.addedO ++ [(rs.sectname, optname)],
                                   optname := optname }).curAssign optname [optval])
            | none => pure { rs with err := true }

/-- Split on `'\n'` (always returns at least one piece). -/
def splitNl : Str → List Str
  | [] => [[]]
  | c :: rest =>
      if c = '\n' then [] :: splitNl rest
      else
        match splitNl rest with
        | p :: ps => (c :: p) :: ps
        | [] => [[c]]

/-- `'\n'.join(pieces)`. -/
def joinNl : List Str → Str
  | [] => []
  | [p] => p
  | p :: ps => p ++ '\n' :: joinNl ps

/-- The lines a Python text file iterator yields (modulo the trailing
newline each kept line carries, which `_read` never looks at). -/
def fileLines (s : Str) : List Str :=
  if s = [] then []
  else
    let l := splitNl s
    if l.getLastD [] = [] then l.dropLast else l

/-- `_join_multiline_values` on one accumulated option value. -/
def joinPieces (ps : List Str) : Str := rstrip (joinNl ps)

/-- End of `_read`: join the multiline values, raise a deferred
`ParsingError` if any line was bogus. -/
def finishRead (rs : RS) : Except PyErr CP :=
  if rs.err then throw PyErr.parsingFailed
  else
    pure ⟨rs.dflts.map (fun e => (e.1, joinPieces e.2)),
          rs.sects.map (fun s => (s.1, s.2.map (fun e => (e.1, joinPieces e.2))))⟩

/-- `_read` over a list of lines, from a fresh parser. -/
def readLines (lines : List Str) : Except PyErr RS :=
  lines.foldlM readLine RS.init

/-- Parse a whole file's text (`configparser` reading one file into a fresh
parser, as `QBittorrentConfig.__init__` does). -/
def loadCfg (s : Str) : Except PyErr CP := do
  finishRead (← readLines (fileLines s))

/-- `QBittorrentConfig.__init__`: `config.read(file)` silently skips a file
that cannot be opened (`OSError`), leaving the parser empty. -/
def loadFromFile : Option Str → Except PyErr CP
  | none => pure CP.empty
  | some content => loadCfg content

/-! ### Well-formedness of parsed documents and line decomposition

`WFcp` captures exactly the shape invariants that `_read` guarantees for a
successfully parsed document, and that make the written form of a document
parse back to it. -/

/-- The (stripped) string does not begin with a comment prefix. -/
def notCommentStart (l : Str) : Bool :=
  match l with
  | [] => true
  | c :: _ => !(c == '#' || c == ';')

/-- Shape of an option key produced by `_read`. -/
def WFkey (k : Str) : Prop :=
  k ≠ [] ∧ pstrip k = k ∧ notCommentStart k = true ∧
  ∀ c ∈ k, c ≠ '\n' ∧ c ≠ '=' ∧ c ≠ ':'

/-- Shape of an option value produced by `_read` (under its key `k`):
right-stripped; each newline-separated piece is stripped; continuation
pieces do not begin with a comment prefix; and the written first line
`k=piece₀` does not match the section-header pattern. -/
def WFval (k v : Str) : Prop :=
  rstrip v = v ∧
  (∀ q ∈ splitNl v, pstrip q = q) ∧
  (∀ q ∈ (splitNl v).tail, notCommentStart q = true) ∧
  sectMatch (k ++ '=' :: (splitNl v).headD []) = none

/-- Shape of one section's (or the DEFAULT section's) entries. -/
def WFentries (es : List (Str × Str)) : Prop :=
  (es.map Prod.fst).Nodup ∧ ∀ e ∈ es, WFkey e.1 ∧ WFval e.1 e.2

/-- Shape invariants of a successfully parsed document. -/
def WFcp (cp : CP) : Prop :=
  (cp.sections.map Prod.fst).Nodup ∧
  (∀ s ∈ cp.sections, s.1 ≠ [] ∧ '\n' ∉ s.1 ∧ s.1 ≠ "DEFAULT".toList ∧ WFentries s.2) ∧
  WFentries cp.defaults

/-- The lines `_write_section` emits for one entry. -/
def entryLines (e : Str × Str) : List Str :=
  (e.1 ++ '=' :: (splitNl e.2).headD []) :: (splitNl e.2).tail.map (fun q => '\t' :: q)

/-- The text of the newline-terminated, tab-indented continuation lines of
a multi-line value. -/
def pieceLines : List Str → Str
  | [] => []
  | q :: qs => '\t' :: (q ++ '\n' :: pieceLines qs)

/-- The lines `_write_section` emits for one section. -/
def sectionLines (name : Str) (es : List (Str × Str)) : List Str :=
  ('[' :: (name ++ [']'])) :: ((es.map entryLines).flatten ++ [[]])

/-- All lines `write` emits. -/
def saveLines (cp : CP) : List Str :=
  (if cp.defaults = [] then [] else sectionLines "DEFAULT".toList cp.defaults)
    ++ (cp.sections.map (fun s => sectionLines s.1 s.2)).flatten

/-- Drop trailing empty pieces. -/
def trimTrail : List Str → List Str
  | [] => []
  | p :: ps =>
      if trimTrail ps = [] then (if p = [] then [] else [p])
      else p :: trimTrail ps

/-- `_read` appends `''` to the last assigned option when it meets the
blank separator line after a section; this is that effect on the section's
accumulated dict. -/
def appendBlankLast : List (Str × List Str) → List (Str × List Str)
  | [] => []
  | e :: rest =>
      if rest = [] then [(e.1, e.2 ++ [[]])] else e :: appendBlankLast rest

/-- The document produced by `setup()` from an empty document: exactly the
five bootstrap keys, in insertion order. -/
def setupDoc : CP :=
  ⟨[], [("LegalNotice".toList, [("Accepted".toList, "true".toList)]),
        ("Meta".toList, [("MigrationVersion".toList, "3".toList)]),
        ("Preferences".toList, [("WebUI\\Address".toList, "*".toList)]),
        ("BitTorrent".toList,
          [("Session\\AddExtensionToIncompleteFiles".toList, "true".toList),
           ("Session\\DefaultSavePath".toList, "/srv".toList)])]⟩

/-- The file text `save()` writes for `setupDoc`. -/
def setupFileText : Str :=
  ("[LegalNotice]\nAccepted=true\n\n[Meta]\nMigrationVersion=3\n\n[Preferences]\n"
    ++ "WebUI\\Address=*\n\n[BitTorrent]\nSession\\AddExtensionToIncompleteFiles=true\n"
    ++ "Session\\DefaultSavePath=/srv\n\n").toList

/-! ### `str.encode()` — UTF-8 -/

/-- UTF-8 encoding of one code point. -/
def utf8Char (c : Char) : List Nat :=
  let n := c.toNat
  if n < 0x80 then [n]
  else if n < 0x800 then [0xC0 + n / 64, 0x80 + n % 64]
  else if n < 0x10000 then [0xE0 + n / 4096, 0x80 + n / 64 % 64, 0x80 + n % 64]
  else [0xF0 + n / 262144, 0x80 + n / 4096 % 64, 0x80 + n / 64 % 64, 0x80 + n % 64]

/-- `password.encode()`. -/
def utf8Encode (s : Str) : List Nat := (s.map utf8Char).flatten

/-! ### `base64.b64encode` (standard alphabet, with padding) -/

/-- The standard base64 alphabet. -/
def b64alphabet : Str :=
  "ABCDEFGHIJKLMNOPQRSTUVWXYZabcdefghijklmnopqrstuvwxyz0123456789+/".toList

/-- The base64 character for a 6-bit value. -/
def b64char (n : Nat) : Char := b64alphabet.getD n 'A'

/-- `base64.b64encode`, three input bytes to four output characters, with
`=` padding on a final group of one or two bytes. -/
def b64encode : List Nat → Str
  | [] => []
  | [a] => [b64char (a / 4), b64char (a % 4 * 16), '=', '=']
  | [a, b] => [b64char (a / 4), b64char (a % 4 * 16 + b / 16), b64char (b % 16 * 4), '=']
  | a :: b :: c :: rest =>
      b64char (a / 4) :: b64char (a % 4 * 16 + b / 16) ::
        b64char (b % 16 * 4 + c / 64) :: b64char (c % 64) :: b64encode rest

/-- The 6-bit value of a base64 character. -/
def b64val (c : Char) : Option Nat := b64alphabet.indexOf? c

/-- Modelled from the spec: standard (strict) base64 decoding — four
characters to three bytes, `=`-padding only at the end — used to state the
spec's "decodes to exactly N bytes" requirements.  (The source only ever
encodes; `base64.b64decode` itself lives outside the repository.) -/
def b64decode : Str → Option (List Nat)
  | [] => some []
  | c0 :: c1 :: c2 :: c3 :: rest =>
      match b64val c0, b64val c1 with
      | some v0, some v1 =>
          if c2 = '=' then
            if c3 = '=' ∧ rest = [] then some [v0 * 4 + v1 / 16] else none
          else
            match b64val c2 with
            | some v2 =>
                if c3 = '=' then
                  if rest = [] then some [v0 * 4 + v1 / 16, v1 % 16 * 16 + v2 / 4]
                  else none
                else
                  match b64val c3 with
                  | some v3 =>
                      (b64decode rest).map
                        (fun bs => (v0 * 4 + v1 / 16) :: (v1 % 16 * 16 + v2 / 4) ::
                                   (v2 % 4 * 64 + v3) :: bs)
                  | none => none
            | none => none
      | _, _ => none
  | _ => none

/-! ### `hashlib.sha512` (FIPS 180-4) -/

/-- Addition modulo 2^64. -/
def add64 (x y : Nat) : Nat := (x + y) % 18446744073709551616

/-- Right rotation of a 64-bit word. -/
def rotr64 (n x : Nat) : Nat := ((x >>> n) ||| (x <<< (64 - n))) % 18446744073709551616

/-- Bitwise complement of a 64-bit word. -/
def not64 (x : Nat) : Nat := x ^^^ 18446744073709551615

/-- The SHA-512 round constants. -/
def sha512K : List Nat := [
  4794697086780616226, 8158064640168781261, 13096744586834688815,
  16840607885511220156, 4131703408338449720, 6480981068601479193,
  10538285296894168987, 12329834152419229976, 15566598209576043074,
  1334009975649890238, 2608012711638119052, 6128411473006802146,
  8268148722764581231, 9286055187155687089, 11230858885718282805,
  13951009754708518548, 16472876342353939154, 17275323862435702243,
  1135362057144423861, 2597628984639134821, 3308224258029322869,
  5365058923640841347, 6679025012923562964, 8573033837759648693,
  10970295158949994411, 12119686244451234320, 12683024718118986047,
  13788192230050041572, 14330467153632333762, 15395433587784984357,
  489312712824947311, 1452737877330783856, 2861767655752347644,
  3322285676063803686, 5560940570517711597, 5996557281743188959,
  7280758554555802590, 8532644243296465576, 9350256976987008742,
  10552545826968843579, 11727347734174303076, 12113106623233404929,
  14000437183269869457, 14369950271660146224, 15101387698204529176,
  15463397548674623760, 17586052441742319658, 1182934255886127544,
  1847814050463011016, 2177327727835720531, 2830643537854262169,
  3796741975233480872, 4115178125766777443, 5681478168544905931,
  6601373596472566643, 7507060721942968483, 8399075790359081724,
  8693463985226723168, 9568029438360202098, 10144078919501101548,
  10430055236837252648, 11840083180663258601, 13761210420658862357,
  14299343276471374635, 14566680578165727644, 15097957966210449927,
  16922976911328602910, 17689382322260857208, 500013540394364858,
  748580250866718886, 1242879168328830382, 1977374033974150939,
  2944078676154940804, 3659926193048069267, 4368137639120453308,
  4836135668995329356, 5532061633213252278, 6448918945643986474,
  6902733635092675308, 7801388544844847127]

/-- The SHA-512 hash state: eight 64-bit words. -/
structure H8 where
  a : Nat
  b : Nat
  c : Nat
  d : Nat
  e : Nat
  f : Nat
  g : Nat
  h : Nat

/-- The SHA-512 initial hash value. -/
def sha512H0 : H8 :=
  ⟨0x6a09e667f3bcc908, 0xbb67ae8584caa73b, 0x3c6ef372fe94f82b, 0xa54ff53a5f1d36f1,
   0x510e527fade682d1, 0x9b05688c2b3e6c1f, 0x1f83d9abfb41bd6b, 0x5be0cd19137e2179⟩

/-- Big-endian bytes of a 64-bit word. -/
def word64Bytes (w : Nat) : List Nat :=
  [w / 72057594037927936 % 256, w / 281474976710656 % 256,
   w / 1099511627776 % 256, w / 4294967296 % 256,
   w / 16777216 % 256, w / 65536 % 256, w / 256 % 256, w % 256]

/-- A big-endian 64-bit word from bytes. -/
def bytesToWord (bs : List Nat) : Nat := bs.foldl (fun acc b => acc * 256 + b) 0

/-- SHA-512 message padding: `0x80`, zeros, 16-byte big-endian bit length. -/
def sha512Pad (msg : List Nat) : List Nat :=
  let l := msg.length
  msg ++ 0x80 :: (List.replicate ((240 - (l + 1) % 128) % 128) 0
    ++ (List.range 16).map (fun i => l * 8 / 2 ^ (8 * (15 - i)) % 256))

/-- Split into chunks of `n` (fuel-indexed; `fuel ≥ l.length` suffices). -/
def chunksGo (n : Nat) : Nat → List Nat → List (List Nat)
  | 0, _ => []
  | _ + 1, [] => []
  | fuel + 1, l => l.take n :: chunksGo n fuel (l.drop n)

/-- Split into chunks of `n`. -/
def chunksOf (n : Nat) (l : List Nat) : List (List Nat) := chunksGo n l.length l

/-- Extend a message schedule by `n` further words. -/
def schedExtend : Nat → List Nat → List Nat
  | 0, w => w
  | n + 1, w =>
      let s0w := w.getD (w.length - 15) 0
      let s1w := w.getD (w.length - 2) 0
      let s0 := rotr64 1 s0w ^^^ rotr64 8 s0w ^^^ (s0w >>> 7)
      let s1 := rotr64 19 s1w ^^^ rotr64 61 s1w ^^^ (s1w >>> 6)
      schedExtend n
        (w ++ [add64 (add64 (w.getD (w.length - 16) 0) s0) (add64 (w.getD (w.length - 7) 0) s1)])

/-- One SHA-512 compression round. -/
def sha512Round (w k : Nat) (st : H8) : H8 :=
  let S1 := rotr64 14 st.e ^^^ rotr64 18 st.e ^^^ rotr64 41 st.e
  let ch := (st.e &&& st.f) ^^^ (not64 st.e &&& st.g)
  let t1 := add64 (add64 (add64 st.h S1) (add64 ch k)) w
  let S0 := rotr64 28 st.a ^^^ rotr64 34 st.a ^^^ rotr64 39 st.a
  let mj := (st.a &&& st.b) ^^^ (st.a &&& st.c) ^^^ (st.b &&& st.c)
  let t2 := add64 S0 mj
  ⟨add64 t1 t2, st.a, st.b, st.c, add64 st.d t1, st.e, st.f, st.g⟩

/-- Process one 128-byte block. -/
def sha512Block (st : H8) (block : List Nat) : H8 :=
  let w := schedExtend 64 ((chunksOf 8 block).map bytesToWord)
  let r := (List.range 80).foldl
      (fun s i => sha512Round (w.getD i 0) (sha512K.getD i 0) s) st
  ⟨add64 st.a r.a, add64 st.b r.b, add64 st.c r.c, add64 st.d r.d,
   add64 st.e r.e, add64 st.f r.f, add64 st.g r.g, add64 st.h r.h⟩

/-- The digest bytes of a final hash state. -/
def h8Bytes (st : H8) : List Nat :=
  word64Bytes st.a ++ word64Bytes st.b ++ word64Bytes st.c ++ word64Bytes st.d ++
  word64Bytes st.e ++ word64Bytes st.f ++ word64Bytes st.g ++ word64Bytes st.h

/-- `hashlib.sha512(msg).digest()`. -/
def sha512 (msg : List Nat) : List Nat :=
  h8Bytes ((chunksOf 128 (sha512Pad msg)).foldl sha512Block sha512H0)

/-! ### `hmac` over SHA-512 and `hashlib.pbkdf2_hmac` -/

/-- Byte-wise xor (RFC 2104 key whitening / PBKDF2 block accumulation). -/
def xorBytes (x y : List Nat) : List Nat := List.zipWith (fun a b => a ^^^ b) x y

/-- HMAC-SHA512 (RFC 2104, block size 128). -/
def hmacSha512 (key msg : List Nat) : List Nat :=
  let k0 := if 128 < key.length then sha512 key else key
  let k1 := k0 ++ List.replicate (128 - k0.length) 0
  sha512 ((k1.map (fun b => b ^^^ 0x5c)) ++ sha512 ((k1.map (fun b => b ^^^ 0x36)) ++ msg))

/-- A 32-bit big-endian block index. -/
def int32BE (i : Nat) : List Nat :=
  [i / 16777216 % 256, i / 65536 % 256, i / 256 % 256, i % 256]

/-- The U-chain of PBKDF2: iterate `U ← PRF(pw, U)`, xor into `T`. -/
def pbkdf2Iter (pw : List Nat) : Nat → List Nat × List Nat → List Nat × List Nat
  | 0, ut => ut
  | n + 1, (u, t) =>
      let u2 := hmacSha512 pw u
      pbkdf2Iter pw n (u2, xorBytes t u2)

/-- One PBKDF2 output block `F(pw, salt, iters, blockIdx)`. -/
def pbkdf2Block (pw salt : List Nat) (iters blockIdx : Nat) : List Nat :=
  let u1 := hmacSha512 pw (salt ++ int32BE blockIdx)
  (pbkdf2Iter pw (iters - 1) (u1, u1)).2

/-- `hashlib.pbkdf2_hmac('sha512', pw, salt, iters, dklen)` (RFC 2898). -/
def pbkdf2HmacSha512 (pw salt : List Nat) (iters dklen : Nat) : List Nat :=
  (((List.range ((dklen + 63) / 64)).map
      (fun i => pbkdf2Block pw salt iters (i + 1))).flatten).take dklen

namespace QBittorrentConfig

/-- The `WebUI\Password_PBKDF2` value built by `set_web_password`:
`f"@ByteArray({base64.b64encode(salt).decode()}:{base64.b64encode(hash).decode()})"`
with `hash = hashlib.pbkdf2_hmac("sha512", password.encode(), salt, 100_000)`
(the omitted `dklen` defaults to SHA-512's 64-byte digest size). -/
def passwordValue (password : Str) (salt : List Nat) : Str :=
  "@ByteArray(".toList ++ b64encode salt ++
    ':' :: (b64encode (pbkdf2HmacSha512 (utf8Encode password) salt 100000 64) ++ [')'])

/-- `QBittorrentConfig.set_web_password`.  The salt — drawn by the source
from `secrets.token_bytes(16)` — is passed explicitly, making the random
choice an argument of the embedding. -/
def set_web_password (cp : CP) (password : Str) (salt : List Nat) : Except PyErr CP :=
  set cp "Preferences".toList "WebUI\\Password_PBKDF2".toList (passwordValue password salt)

end QBittorrentConfig

/-- Shape of the accumulated piece list of one option while `_read` runs. -/
def PiecesOK (k : Str) (ps : List Str) : Prop :=
  ps ≠ [] ∧ (∀ q ∈ ps, pstrip q = q ∧ '\n' ∉ q) ∧
  (∀ q ∈ ps.tail, notCommentStart q = true) ∧
  sectMatch (k ++ '=' :: ps.headD []) = none

/-- Shape of one accumulated option dict while `_read` runs. -/
def DictOK (d : List (Str × List Str)) : Prop :=
  (d.map Prod.fst).Nodup ∧ ∀ e ∈ d, WFkey e.1 ∧ PiecesOK e.1 e.2

/-- Invariant of the `_read` state over a parse from a fresh parser. -/
def RInv (rs : RS) : Prop :=
  (rs.sects.map Prod.fst).Nodup ∧
  (∀ s ∈ rs.sects, s.1 ≠ [] ∧ '\n' ∉ s.1 ∧ s.1 ≠ "DEFAULT".toList) ∧
  (rs.cur = Cur.dflt → rs.sectname = "DEFAULT".toList) ∧
  (∀ n, rs.cur = Cur.sect n → rs.sectname = n ∧ n ∈ rs.sects.map Prod.fst) ∧
  (∀ e ∈ rs.dflts, ("DEFAULT".toList, e.1) ∈ rs.addedO) ∧
  (∀ s ∈ rs.sects, ∀ e ∈ s.2, (s.1, e.1) ∈ rs.addedO) ∧
  (rs.err = false → DictOK rs.dflts ∧ ∀ s ∈ rs.sects, DictOK s.2)

/-! ## Theorems

First, characterizations of the ordered-dict operations and of the setter. -/


theorem dGet_eq_none {α : Type} {d : List (Str × α)} {k : Str}
    (h : k ∉ d.map Prod.fst) : dGet d k = none := by
  induction d with
  | nil => rfl
  | cons e rest ih =>
      simp only [List.map_cons, List.mem_cons, not_or] at h
      have he : ¬(e.1 = k) := fun hh => h.1 hh.symm
      simp only [dGet, if_neg he]
      exact ih h.2

theorem dGet_of_not_mem_left {α : Type} {d1 : List (Str × α)} (d2 : List (Str × α))
    {k : Str} (h : k ∉ d1.map Prod.fst) : dGet (d1 ++ d2) k = dGet d2 k := by
  induction d1 with
  | nil => rfl
  | cons e rest ih =>
      simp only [List.map_cons, List.mem_cons, not_or] at h
      have he : ¬(e.1 = k) := fun hh => h.1 hh.symm
      simp only [List.cons_append, dGet, if_neg he]
      exact ih h.2

theorem dSet_not_mem {α : Type} {d : List (Str × α)} {k : Str} (v : α)
    (h : k ∉ d.map Prod.fst) : dSet d k v = d ++ [(k, v)] := by
  induction d with
  | nil => rfl
  | cons e rest ih =>
      simp only [List.map_cons, List.mem_cons, not_or] at h
      have he : ¬(e.1 = k) := fun hh => h.1 hh.symm
      simp only [dSet, if_neg he, List.cons_append]
      rw [ih h.2]

theorem dSet_mem_split {α : Type} (e1 e2 : List (Str × α)) (k : Str) (w v : α)
    (h : k ∉ e1.map Prod.fst) : dSet (e1 ++ (k, w) :: e2) k v = e1 ++ (k, v) :: e2 := by
  induction e1 with
  | nil => simp [dSet]
  | cons e rest ih =>
      simp only [List.map_cons, List.mem_cons, not_or] at h
      have he : ¬(e.1 = k) := fun hh => h.1 hh.symm
      simp only [List.cons_append, dSet, if_neg he]
      exact congrArg (e :: ·) (ih h.2)

theorem dGet_dSet {α : Type} (d : List (Str × α)) (k : Str) (v : α) :
    dGet (dSet d k v) k = some v := by
  induction d with
  | nil => simp [dSet, dGet]
  | cons e rest ih =>
      by_cases h : e.1 = k
      · simp [dSet, dGet, h]
      · simp only [dSet, if_neg h, dGet, if_neg h]
        exact ih

theorem sectUpdate_cons (e : Str × List (Str × Str)) (l : List (Str × List (Str × Str)))
    (s k v : Str) :
    sectUpdate (e :: l) s k v =
      (if e.1 = s then (e.1, dSet e.2 k v) else e) :: sectUpdate l s k v := rfl

theorem sectUpdate_not_mem {ss : List (Str × List (Str × Str))} {s : Str}
    (k v : Str) (h : s ∉ ss.map Prod.fst) : sectUpdate ss s k v = ss := by
  induction ss with
  | nil => rfl
  | cons e rest ih =>
      simp only [List.map_cons, List.mem_cons, not_or] at h
      have he : ¬(e.1 = s) := fun hh => h.1 hh.symm
      rw [sectUpdate_cons, if_neg he, ih h.2]

theorem sectUpdate_decomp (pre post : List (Str × List (Str × Str)))
    (s : Str) (ent : List (Str × Str)) (k v : Str)
    (h1 : s ∉ pre.map Prod.fst) (h2 : s ∉ post.map Prod.fst) :
    sectUpdate (pre ++ (s, ent) :: post) s k v = pre ++ (s, dSet ent k v) :: post := by
  induction pre with
  | nil =>
      rw [List.nil_append, sectUpdate_cons, if_pos rfl, sectUpdate_not_mem k v h2,
        List.nil_append]
  | cons e rest ih =>
      simp only [List.map_cons, List.mem_cons, not_or] at h1
      have he : ¬(e.1 = s) := fun hh => h1.1 hh.symm
      rw [List.cons_append, sectUpdate_cons, if_neg he, ih h1.2, List.cons_append]

theorem exceptOk_bind {ε α β : Type} (a : α) (f : α → Except ε β) :
    (Except.ok a : Except ε α) >>= f = f a := rfl

theorem contains_eq_false_of_not_mem {l : List Str} {s : Str} (h : s ∉ l) :
    l.contains s = false := by
  cases hc : l.contains s
  · rfl
  · exact absurd (List.mem_of_elem_eq_true hc) h

theorem dGet_isSome_of_mem {α : Type} {d : List (Str × α)} {k : Str}
    (h : k ∈ d.map Prod.fst) : ∃ v, dGet d k = some v := by
  induction d with
  | nil => simp at h
  | cons e rest ih =>
      by_cases he : e.1 = k
      · exact ⟨e.2, by simp [dGet, he]⟩
      · simp only [List.map_cons, List.mem_cons] at h
        rcases h with h | h
        · exact absurd h.symm he
        · simpa [dGet, he] using ih h

theorem cpSet_ok_sect (cp : CP) (s k v : Str) {ent : List (Str × Str)}
    (hv : v = [] ∨ beforeSetOk v = true)
    (hs0 : s ≠ []) (hsD : s ≠ "DEFAULT".toList)
    (hg : dGet cp.sections s = some ent) :
    cpSet cp s k v = .ok { cp with sections := sectUpdate cp.sections s k v } := by
  have hval : ¬(v ≠ [] ∧ beforeSetOk v = false) := by
    rcases hv with h | h <;> simp [h]
  have hsec : ¬(s = [] ∨ s = "DEFAULT".toList) := by
    intro hc
    rcases hc with hc | hc
    · exact hs0 hc
    · exact hsD hc
  rw [cpSet, if_neg hval, if_neg hsec, hg]
  rfl

theorem cpSet_ok_dflt {cp : CP} {s k v : Str}
    (hv : v = [] ∨ beforeSetOk v = true)
    (hs : s = [] ∨ s = "DEFAULT".toList) :
    cpSet cp s k v = .ok { cp with defaults := dSet cp.defaults k v } := by
  have hval : ¬(v ≠ [] ∧ beforeSetOk v = false) := by
    rcases hv with h | h <;> simp [h]
  rw [cpSet, if_neg hval, if_pos hs]
  rfl

theorem set_eq_new_section {cp : CP} {s k v : Str}
    (hv : v = [] ∨ beforeSetOk v = true)
    (hs0 : s ≠ []) (hsD : s ≠ "DEFAULT".toList)
    (hmem : s ∉ cp.sections.map Prod.fst) :
    QBittorrentConfig.set cp s k v =
      .ok ⟨cp.defaults, cp.sections ++ [(s, [(k, v)])]⟩ := by
  have hhs : cp.has_section s = false := contains_eq_false_of_not_mem hmem
  have hadd : cp.add_section s = .ok ⟨cp.defaults, cp.sections ++ [(s, [])]⟩ := by
    rw [CP.add_section, if_neg hsD, hhs]
    simp only [Bool.false_eq_true, if_false]
    rfl
  have hget : dGet (cp.sections ++ [(s, [])]) s = some [] := by
    rw [dGet_of_not_mem_left _ hmem]
    simp [dGet]
  have hstep := cpSet_ok_sect ⟨cp.defaults, cp.sections ++ [(s, [])]⟩ s k v
      hv hs0 hsD hget
  have hupd : sectUpdate (cp.sections ++ [(s, [])]) s k v
      = cp.sections ++ [(s, [(k, v)])] := by
    have h2 := sectUpdate_decomp cp.sections [] s [] k v hmem (by simp)
    simpa [dSet] using h2
  rw [QBittorrentConfig.set, hhs]
  show (cp.add_section s >>= fun cp2 => cpSet cp2 s k v) = _
  rw [hadd, exceptOk_bind, hstep, hupd]

theorem set_eq_existing {cp : CP} {s k v : Str} {ent : List (Str × Str)}
    (hv : v = [] ∨ beforeSetOk v = true)
    (hs0 : s ≠ []) (hsD : s ≠ "DEFAULT".toList)
    (hg : dGet cp.sections s = some ent) (hmem : s ∈ cp.sections.map Prod.fst) :
    QBittorrentConfig.set cp s k v =
      .ok ⟨cp.defaults, sectUpdate cp.sections s k v⟩ := by
  have hhs : cp.has_section s = true := List.elem_eq_true_of_mem hmem
  have hstep := cpSet_ok_sect cp s k v hv hs0 hsD hg
  rw [QBittorrentConfig.set, hhs]
  show ((pure cp : Except PyErr CP) >>= fun cp2 => cpSet cp2 s k v) = _
  rw [show (pure cp : Except PyErr CP) = .ok cp from rfl, exceptOk_bind, hstep]

theorem stripPercentPercent_no_pct {l : Str} (h : '%' ∉ l) : stripPercentPercent l = l := by
  induction l using stripPercentPercent.induct with
  | case1 => rfl
  | case2 c => rfl
  | case3 c1 c2 rest hpp ih =>
      simp only [List.mem_cons, not_or] at h
      exact absurd hpp.1.symm h.1
  | case4 c1 c2 rest hpp ih =>
      rw [stripPercentPercent, if_neg hpp]
      simp only [List.mem_cons, not_or] at h
      rw [ih (by simp [h.2.1, h.2.2])]

theorem stripKeyRefsGo_no_pct (fuel : Nat) {l : Str} (h : '%' ∉ l) :
    stripKeyRefsGo fuel l = l := by
  induction fuel generalizing l with
  | zero => rfl
  | succ fuel ih =>
      cases l with
      | nil => rfl
      | cons c rest =>
          simp only [List.mem_cons, not_or] at h
          have hc : ¬(c = '%' ∧ rest.headD ' ' = '(') := by
            intro hx
            exact h.1 hx.1.symm
          rw [stripKeyRefsGo, if_neg hc, ih h.2]

theorem charContains_eq_false_of_not_mem {l : Str} {c : Char} (h : c ∉ l) :
    l.contains c = false := by
  cases hc : l.contains c
  · rfl
  · exact absurd (List.mem_of_elem_eq_true hc) h

theorem beforeSetOk_no_pct {v : Str} (h : '%' ∉ v) : beforeSetOk v = true := by
  rw [beforeSetOk, stripKeyRefs, stripPercentPercent_no_pct h,
    stripKeyRefsGo_no_pct _ h]
  rw [charContains_eq_false_of_not_mem h]
  rfl

theorem digitChar_ne_pct {m : Nat} (hm : m < 10) : Char.ofNat (48 + m) ≠ '%' := by
  interval_cases m <;> decide

theorem natStrAux_no_pct (fuel n : Nat) : '%' ∉ QBittorrentConfig.natStrAux fuel n := by
  induction fuel generalizing n with
  | zero => simp [QBittorrentConfig.natStrAux]
  | succ fuel ih =>
      rw [QBittorrentConfig.natStrAux]
      by_cases h : n < 10
      · rw [if_pos h]
        intro hc
        rcases List.mem_singleton.mp hc with hc
        exact digitChar_ne_pct h hc.symm
      · rw [if_neg h]
        intro hc
        rcases List.mem_append.mp hc with hc | hc
        · exact ih (n / 10) hc
        · rcases List.mem_singleton.mp hc with hc
          exact digitChar_ne_pct (Nat.mod_lt n (by omega)) hc.symm

theorem intStr_no_pct (i : Int) : '%' ∉ QBittorrentConfig.intStr i := by
  cases i with
  | ofNat n => exact natStrAux_no_pct (n + 1) n
  | negSucc n =>
      rw [QBittorrentConfig.intStr]
      intro hc
      rcases List.mem_cons.mp hc with hc | hc
      · exact absurd hc.symm (by decide)
      · exact natStrAux_no_pct (n + 2) (n + 1) hc

theorem dGet_sectUpdate_self {ss : List (Str × List (Str × Str))} {s : Str}
    {ent : List (Str × Str)} (k v : Str) (hg : dGet ss s = some ent) :
    dGet (sectUpdate ss s k v) s = some (dSet ent k v) := by
  induction ss with
  | nil => simp [dGet] at hg
  | cons e rest ih =>
      by_cases he : e.1 = s
      · rw [dGet, if_pos he] at hg
        cases hg
        rw [sectUpdate_cons, if_pos he, dGet, if_pos he]
      · rw [dGet, if_neg he] at hg
        rw [sectUpdate_cons, if_neg he, dGet, if_neg he]
        exact ih hg

theorem set_get (cp : CP) (s k v : Str)
    (hv : v = [] ∨ beforeSetOk v = true)
    (hs0 : s ≠ []) (hsD : s ≠ "DEFAULT".toList) :
    ∃ cp', QBittorrentConfig.set cp s k v = .ok cp' ∧
      cp'.get s k = some v ∧ cp'.defaults = cp.defaults := by
  by_cases hmem : s ∈ cp.sections.map Prod.fst
  · obtain ⟨ent, hg⟩ := dGet_isSome_of_mem hmem
    refine ⟨_, set_eq_existing hv hs0 hsD hg hmem, ?_, rfl⟩
    show (dGet (sectUpdate cp.sections s k v) s).bind (fun es => dGet es k) = _
    rw [dGet_sectUpdate_self k v hg]
    show dGet (dSet ent k v) k = some v
    exact dGet_dSet ent k v
  · refine ⟨_, set_eq_new_section hv hs0 hsD hmem, ?_, rfl⟩
    show (dGet (cp.sections ++ [(s, [(k, v)])]) s).bind (fun es => dGet es k) = _
    rw [dGet_of_not_mem_left _ hmem]
    show (dGet [(s, [(k, v)])] s).bind (fun es => dGet es k) = _
    rw [dGet, if_pos rfl]
    show dGet [(k, v)] k = some v
    rw [dGet, if_pos rfl]

/-- C6 (amended): `set` (and hence every semantic setter with `save=False`)
succeeds on any in-memory document for every key and every section name
other than `DEFAULT`, provided the value passes interpolation validation
(empty, or no bare `%` after removing `%%` pairs and `%(...)s` references);
only `load` of a malformed file and `save` I/O can otherwise fail. -/
theorem claim_C6_set_infallible (cp : CP) (s k v : Str)
    (hsD : s ≠ "DEFAULT".toList) (hv : v = [] ∨ beforeSetOk v = true) :
    ∃ cp', QBittorrentConfig.set cp s k v = .ok cp' := by
  by_cases hs0 : s = []
  · subst hs0
    by_cases hmem : ([] : Str) ∈ cp.sections.map Prod.fst
    · have hhs : cp.has_section [] = true := List.elem_eq_true_of_mem hmem
      refine ⟨{ cp with defaults := dSet cp.defaults k v }, ?_⟩
      rw [QBittorrentConfig.set, hhs]
      show ((pure cp : Except PyErr CP) >>= fun cp2 => cpSet cp2 [] k v) = _
      rw [show (pure cp : Except PyErr CP) = .ok cp from rfl, exceptOk_bind]
      exact cpSet_ok_dflt hv (Or.inl rfl)
    · have hhs : cp.has_section [] = false := contains_eq_false_of_not_mem hmem
      have hadd : cp.add_section [] = .ok ⟨cp.defaults, cp.sections ++ [([], [])]⟩ := by
        rw [CP.add_section, if_neg (by decide), hhs]
        simp only [Bool.false_eq_true, if_false]
        rfl
      refine ⟨⟨dSet cp.defaults k v, cp.sections ++ [([], [])]⟩, ?_⟩
      rw [QBittorrentConfig.set, hhs]
      show (cp.add_section [] >>= fun cp2 => cpSet cp2 [] k v) = _
      rw [hadd, exceptOk_bind]
      exact cpSet_ok_dflt hv (Or.inl rfl)
  · obtain ⟨cp', h1, _, _⟩ := set_get cp s k v hv hs0 hsD
    exact ⟨cp', h1⟩

/-- Witness for the amended C6. -/
theorem claim_C6_set_infallible_witness :
    (∃ cp', QBittorrentConfig.set CP.empty "S".toList "k".toList "v".toList = .ok cp') ∧
    (∃ cp', QBittorrentConfig.set CP.empty "S".toList "k".toList "a %% b".toList
        = .ok cp') := by
  constructor
  · exact claim_C6_set_infallible CP.empty "S".toList "k".toList "v".toList
      (by decide) (Or.inr (by decide))
  · exact claim_C6_set_infallible CP.empty "S".toList "k".toList "a %% b".toList
      (by decide) (Or.inr (by decide))

/-- Counterexample to C6 as stated: on a perfectly well-formed in-memory
document, `set` with the value `"%"` raises `ValueError` (invalid
interpolation syntax) from `BasicInterpolation.before_set`. -/
theorem claim_C6_counterexample :
    QBittorrentConfig.set CP.empty "S".toList "k".toList "%".toList =
      .error PyErr.interpolationSyntax := by decide

/-- C5 (amended): in `_on_config_changed`, a non-numeric port string makes
`int()` raise `ValueError` before the setter is reached; a numeric one is
passed to `set_web_port`, which stores `str(port)` — the decimal string of
the given integer — under the `Preferences` / `WebUI\Port` key for *every*
integer: no 1–65535 range validation happens anywhere. -/
theorem claim_C5_web_port (cp : CP) (portVal : Str) :
    (pyInt portVal = none → onConfigChangedPort cp portVal = .error PyErr.intValueError) ∧
    (∀ p, pyInt portVal = some p →
        onConfigChangedPort cp portVal = QBittorrentConfig.set_web_port cp p) ∧
    (∀ p : Int, ∃ cp', QBittorrentConfig.set_web_port cp p = .ok cp' ∧
        cp'.get "Preferences".toList "WebUI\\Port".toList =
          some (QBittorrentConfig.intStr p)) := by
  refine ⟨?_, ?_, ?_⟩
  · intro h
    rw [onConfigChangedPort, h]
    rfl
  · intro p h
    rw [onConfigChangedPort, h]
  · intro p
    obtain ⟨cp', h1, h2, _⟩ := set_get cp "Preferences".toList "WebUI\\Port".toList
      (QBittorrentConfig.intStr p)
      (Or.inr (beforeSetOk_no_pct (intStr_no_pct p))) (by decide) (by decide)
    exact ⟨cp', h1, h2⟩

/-- Witness for the amended C5. -/
theorem claim_C5_web_port_witness :
    (onConfigChangedPort CP.empty "x1".toList = .error PyErr.intValueError) ∧
    (onConfigChangedPort CP.empty " 8080 ".toList =
      QBittorrentConfig.set_web_port CP.empty 8080) ∧
    (∃ cp', QBittorrentConfig.set_web_port CP.empty 70000 = .ok cp' ∧
      cp'.get "Preferences".toList "WebUI\\Port".toList =
        some (QBittorrentConfig.intStr 70000)) :=
  ⟨(claim_C5_web_port CP.empty "x1".toList).1 (by decide),
   (claim_C5_web_port CP.empty " 8080 ".toList).2.1 8080 (by decide),
   (claim_C5_web_port CP.empty "x1".toList).2.2 70000⟩

/-- Counterexample to C5 as stated: the out-of-range port 65536 is not
rejected anywhere — `int("65536")` parses it and `set_web_port` stores its
decimal string. -/
theorem claim_C5_counterexample :
    onConfigChangedPort CP.empty "65536".toList =
      .ok ⟨[], [("Preferences".toList, [("WebUI\\Port".toList, "65536".toList)])]⟩ ∧
    (65535 : Nat) < 65536 := by decide

set_option maxRecDepth 4000 in
/-- C7: from an empty document, `setup()` produces exactly the five
bootstrap keys with their literal values (and nothing else), and saving
writes exactly the corresponding file text, which parses back to the same
five keys. -/
theorem claim_C7_setup :
    QBittorrentConfig.setup CP.empty = .ok setupDoc ∧
    QBittorrentConfig.save setupDoc = setupFileText ∧
    loadCfg setupFileText = .ok setupDoc := by decide

/-- C8: loading from a missing file yields an empty document without an
error, and saving that empty document writes an empty file (truncating
whatever was there). -/
theorem claim_C8_missing_file :
    loadFromFile none = .ok CP.empty ∧
    (∀ prior, QBittorrentConfig.saveToFile prior CP.empty = []) ∧
    QBittorrentConfig.save CP.empty = [] :=
  ⟨rfl, fun _ => rfl, rfl⟩

/-- C2 (amended): for a section name other than `DEFAULT` and `""` (where
`configparser` raises `ValueError` or redirects to the defaults dict) and a
value accepted by interpolation validation, `set(section, key, value)`
overwrites an existing key's value in place without reordering, appends a
new key at the end of its section, and appends a brand-new section at the
end of the document, leaving the rest of the document unchanged. -/
theorem claim_C2_set_placement (cp : CP) (s k v : Str)
    (hsD : s ≠ "DEFAULT".toList) (hs0 : s ≠ [])
    (hv : v = [] ∨ beforeSetOk v = true) :
    ∃ cp', QBittorrentConfig.set cp s k v = .ok cp' ∧ cp'.defaults = cp.defaults ∧
      (s ∉ cp.sections.map Prod.fst →
          cp'.sections = cp.sections ++ [(s, [(k, v)])]) ∧
      (∀ pre ent post, cp.sections = pre ++ (s, ent) :: post →
          s ∉ pre.map Prod.fst → s ∉ post.map Prod.fst →
          (k ∉ ent.map Prod.fst →
              cp'.sections = pre ++ (s, ent ++ [(k, v)]) :: post) ∧
          (∀ e1 w e2, ent = e1 ++ (k, w) :: e2 → k ∉ e1.map Prod.fst →
              cp'.sections = pre ++ (s, e1 ++ (k, v) :: e2) :: post)) := by
  by_cases hmem : s ∈ cp.sections.map Prod.fst
  · obtain ⟨ent0, hg⟩ := dGet_isSome_of_mem hmem
    refine ⟨_, set_eq_existing hv hs0 hsD hg hmem, rfl, ?_, ?_⟩
    · intro hn
      exact absurd hmem hn
    · intro pre ent post hdec hpre hpost
      have hupd : sectUpdate cp.sections s k v = pre ++ (s, dSet ent k v) :: post := by
        rw [hdec]
        exact sectUpdate_decomp pre post s ent k v hpre hpost
      constructor
      · intro hk
        show sectUpdate cp.sections s k v = _
        rw [hupd, dSet_not_mem v hk]
      · intro e1 w e2 hent hke1
        show sectUpdate cp.sections s k v = _
        rw [hupd, hent, dSet_mem_split e1 e2 k w v hke1]
  · refine ⟨_, set_eq_new_section hv hs0 hsD hmem, rfl, fun _ => rfl, ?_⟩
    intro pre ent post hdec hpre hpost
    exfalso
    apply hmem
    rw [hdec]
    simp

/-- Witness for the amended C2, covering all three placement cases on a
concrete document. -/
theorem claim_C2_set_placement_witness :
    (∃ cp', QBittorrentConfig.set
        ⟨[], [("A".toList, [("x".toList, "1".toList)]),
              ("B".toList, [("k".toList, "1".toList), ("m".toList, "2".toList)])]⟩
        "C".toList "k".toList "v".toList = .ok cp' ∧
      cp'.sections = [("A".toList, [("x".toList, "1".toList)]),
              ("B".toList, [("k".toList, "1".toList), ("m".toList, "2".toList)]),
              ("C".toList, [("k".toList, "v".toList)])]) ∧
    (∃ cp', QBittorrentConfig.set
        ⟨[], [("A".toList, [("x".toList, "1".toList)]),
              ("B".toList, [("k".toList, "1".toList), ("m".toList, "2".toList)])]⟩
        "A".toList "y".toList "2".toList = .ok cp' ∧
      cp'.sections = [("A".toList, [("x".toList, "1".toList), ("y".toList, "2".toList)]),
              ("B".toList, [("k".toList, "1".toList), ("m".toList, "2".toList)])]) ∧
    (∃ cp', QBittorrentConfig.set
        ⟨[], [("A".toList, [("x".toList, "1".toList)]),
              ("B".toList, [("k".toList, "1".toList), ("m".toList, "2".toList)])]⟩
        "B".toList "k".toList "9".toList = .ok cp' ∧
      cp'.sections = [("A".toList, [("x".toList, "1".toList)]),
              ("B".toList, [("k".toList, "9".toList), ("m".toList, "2".toList)])]) := by
  refine ⟨?_, ?_, ?_⟩
  · obtain ⟨cp', heq, hd, h1, h2⟩ := claim_C2_set_placement
      ⟨[], [("A".toList, [("x".toList, "1".toList)]),
            ("B".toList, [("k".toList, "1".toList), ("m".toList, "2".toList)])]⟩
      "C".toList "k".toList "v".toList (by decide) (by decide) (Or.inr (by decide))
    exact ⟨cp', heq, h1 (by decide)⟩
  · obtain ⟨cp', heq, hd, h1, h2⟩ := claim_C2_set_placement
      ⟨[], [("A".toList, [("x".toList, "1".toList)]),
            ("B".toList, [("k".toList, "1".toList), ("m".toList, "2".toList)])]⟩
      "A".toList "y".toList "2".toList (by decide) (by decide) (Or.inr (by decide))
    have h3 := h2 [] [("x".toList, "1".toList)]
      [("B".toList, [("k".toList, "1".toList), ("m".toList, "2".toList)])]
      rfl (by decide) (by decide)
    exact ⟨cp', heq, h3.1 (by decide)⟩
  · obtain ⟨cp', heq, hd, h1, h2⟩ := claim_C2_set_placement
      ⟨[], [("A".toList, [("x".toList, "1".toList)]),
            ("B".toList, [("k".toList, "1".toList), ("m".toList, "2".toList)])]⟩
      "B".toList "k".toList "9".toList (by decide) (by decide) (Or.inr (by decide))
    have h3 := h2 [("A".toList, [("x".toList, "1".toList)])]
      [("k".toList, "1".toList), ("m".toList, "2".toList)] [] rfl (by decide) (by decide)
    exact ⟨cp', heq, h3.2 [] "1".toList [("m".toList, "2".toList)] rfl (by decide)⟩

/-- Counterexample to C2 as stated: for the section name `DEFAULT`, which
does not exist in the (empty) document, `set` does not create an appended
section holding the key — it raises `ValueError` from `add_section`. -/
theorem claim_C2_counterexample :
    QBittorrentConfig.set CP.empty "DEFAULT".toList "k".toList "v".toList =
      .error PyErr.invalidSectionName := by decide

/-! ### Writer line decomposition, claim C9 -/

theorem splitNl_ne_nil (v : Str) : splitNl v ≠ [] := by
  induction v with
  | nil => simp [splitNl]
  | cons c rest ih =>
      rw [splitNl]
      by_cases h : c = '\n'
      · simp [h]
      · rw [if_neg h]
        cases hs : splitNl rest with
        | nil => simp
        | cons p ps => simp

theorem replaceNlTab_pieces (v : Str) :
    replaceNlTab v ++ ['\n'] =
      (splitNl v).headD [] ++ '\n' :: pieceLines (splitNl v).tail := by
  induction v with
  | nil => rfl
  | cons c rest ih =>
      by_cases h : c = '\n'
      · subst h
        rw [replaceNlTab, if_pos rfl, splitNl, if_pos rfl]
        cases hs : splitNl rest with
        | nil => exact absurd hs (splitNl_ne_nil rest)
        | cons p ps =>
            rw [hs] at ih
            simp only [List.headD_cons, List.tail_cons] at ih
            simp only [List.cons_append, ih, List.headD_cons, List.tail_cons,
              List.nil_append, pieceLines]
      · rw [replaceNlTab, if_neg h, splitNl, if_neg h]
        cases hs : splitNl rest with
        | nil => exact absurd hs (splitNl_ne_nil rest)
        | cons p ps =>
            rw [hs] at ih
            simp only [List.headD_cons, List.tail_cons] at ih
            simp only [List.cons_append, ih, List.headD_cons, List.tail_cons]

theorem pieceLines_eq_flatten (qs : List Str) :
    ((qs.map (fun q => '\t' :: q)).map (fun l => l ++ ['\n'])).flatten = pieceLines qs := by
  induction qs with
  | nil => rfl
  | cons q rest ih =>
      simp only [List.map_cons, List.flatten_cons, ih, pieceLines]
      simp

theorem writeEntryText_lines (e : Str × Str) :
    writeEntryText "=".toList e = ((entryLines e).map (fun l => l ++ ['\n'])).flatten := by
  obtain ⟨k, v⟩ := e
  rw [writeEntryText, entryLines]
  simp only [List.map_cons, List.flatten_cons, pieceLines_eq_flatten]
  have h := replaceNlTab_pieces v
  calc k ++ "=".toList ++ replaceNlTab v ++ ['\n']
      = k ++ '=' :: (replaceNlTab v ++ ['\n']) := by simp
    _ = k ++ '=' :: ((splitNl v).headD [] ++ '\n' :: pieceLines (splitNl v).tail) := by
        rw [h]
    _ = (k ++ '=' :: (splitNl v).headD [] ++ ['\n']) ++ pieceLines (splitNl v).tail := by
        simp

theorem entries_lines (es : List (Str × Str)) :
    (es.map (writeEntryText "=".toList)).flatten =
      (((es.map entryLines).flatten).map (fun l => l ++ ['\n'])).flatten := by
  induction es with
  | nil => rfl
  | cons e rest ih =>
      simp only [List.map_cons, List.flatten_cons, List.map_append, List.flatten_append, ih,
        writeEntryText_lines e]

theorem writeSectionText_lines (name : Str) (items : List (Str × Str)) :
    writeSectionText "=".toList name items =
      ((sectionLines name items).map (fun l => l ++ ['\n'])).flatten := by
  rw [writeSectionText, sectionLines]
  simp only [List.map_cons, List.flatten_cons, List.map_append, List.flatten_append,
    entries_lines]
  simp

theorem writeCfg_false (cp : CP) :
    writeCfg cp false =
      (if cp.defaults = [] then []
       else writeSectionText "=".toList "DEFAULT".toList cp.defaults)
        ++ (cp.sections.map (fun s => writeSectionText "=".toList s.1 s.2)).flatten := by
  rw [writeCfg]
  rw [show (if (false : Bool) = true then " = ".toList else "=".toList) = "=".toList
    from rfl]
  by_cases h : cp.defaults = []
  · rw [if_neg (fun hc => hc h), if_pos h]
  · rw [if_pos h, if_neg h]

theorem save_eq_lines (cp : CP) :
    QBittorrentConfig.save cp = ((saveLines cp).map (fun l => l ++ ['\n'])).flatten := by
  rw [QBittorrentConfig.save, writeCfg_false, saveLines]
  have hsects : ∀ ss : List (Str × List (Str × Str)),
      (ss.map (fun s => writeSectionText "=".toList s.1 s.2)).flatten =
      ((ss.map (fun s => sectionLines s.1 s.2)).flatten.map (fun l => l ++ ['\n'])).flatten := by
    intro ss
    induction ss with
    | nil => rfl
    | cons s rest ih =>
        simp only [List.map_cons, List.flatten_cons, List.map_append, List.flatten_append]
        rw [writeSectionText_lines, ih]
  by_cases h : cp.defaults = []
  · simp only [if_pos h, List.nil_append]
    exact hsects cp.sections
  · simp only [if_neg h, List.map_append, List.flatten_append]
    rw [writeSectionText_lines, hsects cp.sections]

/-- C9: `save` rewrites the backing file with truncate semantics (the prior
content is irrelevant); the serialized text is exactly the emitted lines,
each newline-terminated; every section header is emitted bracketed as
`[name]`; and every entry is emitted as `key=` immediately followed by its
(newline-escaped) value — no whitespace around the delimiter. -/
theorem claim_C9_save_format (prior : Str) (cp : CP) (s : Str)
    (ents : List (Str × Str)) (k v : Str)
    (hsec : (s, ents) ∈ cp.sections) (hent : (k, v) ∈ ents) :
    QBittorrentConfig.saveToFile prior cp = QBittorrentConfig.save cp ∧
    QBittorrentConfig.save cp = ((saveLines cp).map (fun l => l ++ ['\n'])).flatten ∧
    (∃ pre post, QBittorrentConfig.save cp =
        pre ++ ('[' :: (s ++ [']'])) ++ ['\n'] ++ post) ∧
    (∃ pre post, QBittorrentConfig.save cp =
        pre ++ (k ++ '=' :: replaceNlTab v) ++ ['\n'] ++ post) := by
  obtain ⟨l1, l2, hdec⟩ := List.append_of_mem hsec
  obtain ⟨m1, m2, hedec⟩ := List.append_of_mem hent
  have hsave : QBittorrentConfig.save cp =
      (if cp.defaults = [] then []
       else writeSectionText "=".toList "DEFAULT".toList cp.defaults)
        ++ (cp.sections.map (fun x => writeSectionText "=".toList x.1 x.2)).flatten :=
    writeCfg_false cp
  refine ⟨rfl, save_eq_lines cp, ?_, ?_⟩
  · refine ⟨(if cp.defaults = [] then []
       else writeSectionText "=".toList "DEFAULT".toList cp.defaults)
        ++ (l1.map (fun x => writeSectionText "=".toList x.1 x.2)).flatten,
      ((ents.map (writeEntryText "=".toList)).flatten ++ ['\n'])
        ++ (l2.map (fun x => writeSectionText "=".toList x.1 x.2)).flatten, ?_⟩
    rw [hsave, hdec]
    simp only [List.map_append, List.map_cons, List.flatten_append, List.flatten_cons,
      writeSectionText]
    simp [List.append_assoc]
  · refine ⟨(if cp.defaults = [] then []
       else writeSectionText "=".toList "DEFAULT".toList cp.defaults)
        ++ (l1.map (fun x => writeSectionText "=".toList x.1 x.2)).flatten
        ++ ('[' :: (s ++ [']'])) ++ ['\n']
        ++ (m1.map (writeEntryText "=".toList)).flatten,
      (m2.map (writeEntryText "=".toList)).flatten ++ ['\n']
        ++ (l2.map (fun x => writeSectionText "=".toList x.1 x.2)).flatten, ?_⟩
    rw [hsave, hdec, hedec]
    simp only [List.map_append, List.map_cons, List.flatten_append, List.flatten_cons,
      writeSectionText, writeEntryText]
    simp [List.append_assoc]

/-- Witness for C9 on the setup document. -/
theorem claim_C9_save_format_witness :
    QBittorrentConfig.saveToFile "old".toList setupDoc = QBittorrentConfig.save setupDoc ∧
    QBittorrentConfig.save setupDoc =
      ((saveLines setupDoc).map (fun l => l ++ ['\n'])).flatten ∧
    (∃ pre post, QBittorrentConfig.save setupDoc =
        pre ++ ('[' :: ("Preferences".toList ++ [']'])) ++ ['\n'] ++ post) ∧
    (∃ pre post, QBittorrentConfig.save setupDoc =
        pre ++ ("WebUI\\Address".toList ++ '=' :: replaceNlTab "*".toList) ++ ['\n'] ++ post) :=
  claim_C9_save_format "old".toList setupDoc "Preferences".toList
    [("WebUI\\Address".toList, "*".toList)] "WebUI\\Address".toList "*".toList
    (by decide) (by decide)

/-! ### Base64 and PBKDF2 facts, claims C1 and C10 -/

theorem b64val_b64char : ∀ n < 64, b64val (b64char n) = some n := by decide

theorem b64char_ne_eq : ∀ n < 64, b64char n ≠ '=' := by decide

theorem b64char_mem (n : Nat) : b64char n ∈ b64alphabet := by
  by_cases h : n < 64
  · revert n
    decide
  · rw [b64char, List.getD_eq_default]
    · decide
    · rw [show b64alphabet.length = 64 from rfl]
      omega

theorem b64encode_mem {bs : List Nat} {c : Char} (hc : c ∈ b64encode bs) :
    c ∈ b64alphabet ∨ c = '=' := by
  induction bs using b64encode.induct with
  | case1 => simp [b64encode] at hc
  | case2 a =>
      rw [b64encode] at hc
      simp only [List.mem_cons, List.not_mem_nil, or_false] at hc
      rcases hc with h | h | h | h
      · exact Or.inl (h ▸ b64char_mem _)
      · exact Or.inl (h ▸ b64char_mem _)
      · exact Or.inr h
      · exact Or.inr h
  | case3 a b =>
      rw [b64encode] at hc
      simp only [List.mem_cons, List.not_mem_nil, or_false] at hc
      rcases hc with h | h | h | h
      · exact Or.inl (h ▸ b64char_mem _)
      · exact Or.inl (h ▸ b64char_mem _)
      · exact Or.inl (h ▸ b64char_mem _)
      · exact Or.inr h
  | case4 a b c2 rest ih =>
      rw [b64encode] at hc
      simp only [List.mem_cons] at hc
      rcases hc with h | h | h | h | h
      · exact Or.inl (h ▸ b64char_mem _)
      · exact Or.inl (h ▸ b64char_mem _)
      · exact Or.inl (h ▸ b64char_mem _)
      · exact Or.inl (h ▸ b64char_mem _)
      · exact ih h

theorem b64encode_no_pct (bs : List Nat) : '%' ∉ b64encode bs := by
  intro hc
  rcases b64encode_mem hc with h | h
  · revert h
    decide
  · exact absurd h (by decide)

theorem b64encode_length (bs : List Nat) :
    (b64encode bs).length = 4 * ((bs.length + 2) / 3) := by
  induction bs using b64encode.induct with
  | case1 => rfl
  | case2 a => simp [b64encode]
  | case3 a b => simp [b64encode]
  | case4 a b c rest ih =>
      rw [b64encode]
      simp only [List.length_cons, ih]
      omega

theorem b64decode_b64encode {bs : List Nat} (hb : ∀ b ∈ bs, b < 256) :
    b64decode (b64encode bs) = some bs := by
  induction bs using b64encode.induct with
  | case1 => rfl
  | case2 a =>
      have ha : a < 256 := hb a (by simp)
      have h0 := b64val_b64char (a / 4) (by omega)
      have h1 := b64val_b64char (a % 4 * 16) (by omega)
      simp only [b64encode, b64decode, h0, h1, if_pos rfl, and_true, and_self, if_true,
        Option.some.injEq, List.cons.injEq, and_true]
      omega
  | case3 a b =>
      have ha : a < 256 := hb a (by simp)
      have hbb : b < 256 := hb b (by simp)
      have h0 := b64val_b64char (a / 4) (by omega)
      have h1 := b64val_b64char (a % 4 * 16 + b / 16) (by omega)
      have h2 := b64val_b64char (b % 16 * 4) (by omega)
      have hne2 := b64char_ne_eq (b % 16 * 4) (by omega)
      simp only [b64encode, b64decode, h0, h1, h2, hne2, if_false, if_pos rfl, and_self,
        if_true, Option.some.injEq, List.cons.injEq, and_true]
      omega
  | case4 a b c rest ih =>
      have ha : a < 256 := hb a (by simp)
      have hbb : b < 256 := hb b (by simp)
      have hcc : c < 256 := hb c (by simp)
      have hrest : ∀ x ∈ rest, x < 256 := fun x hx => hb x (by simp [hx])
      have h0 := b64val_b64char (a / 4) (by omega)
      have h1 := b64val_b64char (a % 4 * 16 + b / 16) (by omega)
      have h2 := b64val_b64char (b % 16 * 4 + c / 64) (by omega)
      have h3 := b64val_b64char (c % 64) (by omega)
      have hne2 := b64char_ne_eq (b % 16 * 4 + c / 64) (by omega)
      have hne3 := b64char_ne_eq (c % 64) (by omega)
      simp only [b64encode, b64decode, h0, h1, h2, h3, hne2, hne3, if_false, ih hrest,
        Option.map_some', Option.some.injEq, List.cons.injEq]
      refine ⟨by omega, by omega, by omega, trivial⟩

theorem word64Bytes_lt (w : Nat) : ∀ b ∈ word64Bytes w, b < 256 := by
  intro b hb
  simp only [word64Bytes, List.mem_cons, List.not_mem_nil, or_false] at hb
  rcases hb with h | h | h | h | h | h | h | h <;> subst h <;> omega

theorem h8Bytes_length (st : H8) : (h8Bytes st).length = 64 := by
  simp [h8Bytes, word64Bytes]

theorem h8Bytes_lt (st : H8) : ∀ b ∈ h8Bytes st, b < 256 := by
  intro b hb
  simp only [h8Bytes, List.mem_append] at hb
  rcases hb with ((((((h | h) | h) | h) | h) | h) | h) | h <;>
    exact word64Bytes_lt _ b h

theorem sha512_length (msg : List Nat) : (sha512 msg).length = 64 := h8Bytes_length _

theorem sha512_lt (msg : List Nat) : ∀ b ∈ sha512 msg, b < 256 := h8Bytes_lt _

theorem hmacSha512_length (key msg : List Nat) : (hmacSha512 key msg).length = 64 :=
  sha512_length _

theorem hmacSha512_lt (key msg : List Nat) : ∀ b ∈ hmacSha512 key msg, b < 256 :=
  sha512_lt _

theorem xorBytes_length (x y : List Nat) : (xorBytes x y).length = min x.length y.length :=
  List.length_zipWith _ x y

theorem xorBytes_lt {x y : List Nat} (hx : ∀ b ∈ x, b < 256) (hy : ∀ b ∈ y, b < 256) :
    ∀ b ∈ xorBytes x y, b < 256 := by
  induction x generalizing y with
  | nil => simp [xorBytes]
  | cons a rest ih =>
      cases y with
      | nil => simp [xorBytes]
      | cons c ys =>
          intro b hb
          rcases List.mem_cons.mp hb with h | h
          · subst h
            have h1 : a < 2 ^ 8 := hx a (by simp)
            have h2 : c < 2 ^ 8 := hy c (by simp)
            exact Nat.xor_lt_two_pow h1 h2
          · exact ih (fun z hz => hx z (by simp [hz])) (fun z hz => hy z (by simp [hz])) b h

theorem pbkdf2Iter_spec (pw : List Nat) (n : Nat) :
    ∀ u t : List Nat, t.length = 64 → (∀ b ∈ t, b < 256) →
      ((pbkdf2Iter pw n (u, t)).2.length = 64 ∧
        ∀ b ∈ (pbkdf2Iter pw n (u, t)).2, b < 256) := by
  induction n with
  | zero => exact fun u t hl hb => ⟨hl, hb⟩
  | succ n ih =>
      intro u t hl hb
      rw [pbkdf2Iter]
      apply ih
      · rw [xorBytes_length, hl, hmacSha512_length]
        omega
      · exact xorBytes_lt hb (hmacSha512_lt pw _)

theorem pbkdf2_64_spec (pw salt : List Nat) (iters : Nat) :
    (pbkdf2HmacSha512 pw salt iters 64).length = 64 ∧
      ∀ b ∈ pbkdf2HmacSha512 pw salt iters 64, b < 256 := by
  have hblock := pbkdf2Iter_spec pw (iters - 1)
    (hmacSha512 pw (salt ++ int32BE 1)) (hmacSha512 pw (salt ++ int32BE 1))
    (hmacSha512_length _ _) (hmacSha512_lt _ _)
  have hres : pbkdf2HmacSha512 pw salt iters 64 =
      (pbkdf2Block pw salt iters 1).take 64 := by
    rw [pbkdf2HmacSha512]
    rw [show ((64 + 63) / 64) = 1 from rfl, show List.range 1 = [0] from rfl]
    simp
  rw [hres, pbkdf2Block]
  constructor
  · rw [List.length_take, hblock.1]
    omega
  · intro b hb
    exact hblock.2 b (List.mem_of_mem_take hb)

theorem passwordValue_no_pct (password : Str) (salt : List Nat) :
    '%' ∉ QBittorrentConfig.passwordValue password salt := by
  intro hc
  rw [QBittorrentConfig.passwordValue] at hc
  rcases List.mem_append.mp hc with h | h
  · rcases List.mem_append.mp h with h2 | h2
    · exact absurd h2 (by decide)
    · exact b64encode_no_pct _ h2
  · rcases List.mem_cons.mp h with h2 | h2
    · exact absurd h2 (by decide)
    · rcases List.mem_append.mp h2 with h3 | h3
      · exact b64encode_no_pct _ h3
      · exact absurd h3 (by decide)

/-- C1: for every password and every 16-byte salt, `set_web_password`
stores at `("Preferences", "WebUI\Password_PBKDF2")` exactly the string
`@ByteArray(` ++ base64(salt) ++ `:` ++ base64(PBKDF2-HMAC-SHA512(utf-8
password, salt, 100000 iterations, 64-byte output)) ++ `)`, where both
base64 blocks use the standard alphabet with padding, the first decodes to
exactly the 16 salt bytes and the second to the exactly-64-byte digest. -/
theorem claim_C1_password_format (cp : CP) (password : Str) (salt : List Nat)
    (hlen : salt.length = 16) (hbytes : ∀ b ∈ salt, b < 256) :
    ∃ cp', QBittorrentConfig.set_web_password cp password salt = .ok cp' ∧
      cp'.get "Preferences".toList "WebUI\\Password_PBKDF2".toList =
        some ("@ByteArray(".toList ++ b64encode salt ++
          ':' :: (b64encode (pbkdf2HmacSha512 (utf8Encode password) salt 100000 64)
            ++ [')'])) ∧
      b64decode (b64encode salt) = some salt ∧ salt.length = 16 ∧
      b64decode (b64encode (pbkdf2HmacSha512 (utf8Encode password) salt 100000 64)) =
        some (pbkdf2HmacSha512 (utf8Encode password) salt 100000 64) ∧
      (pbkdf2HmacSha512 (utf8Encode password) salt 100000 64).length = 64 := by
  obtain ⟨cp', h1, h2, _⟩ := set_get cp "Preferences".toList
    "WebUI\\Password_PBKDF2".toList (QBittorrentConfig.passwordValue password salt)
    (Or.inr (beforeSetOk_no_pct (passwordValue_no_pct password salt)))
    (by decide) (by decide)
  exact ⟨cp', h1, h2, b64decode_b64encode hbytes, hlen,
    b64decode_b64encode (pbkdf2_64_spec (utf8Encode password) salt 100000).2,
    (pbkdf2_64_spec (utf8Encode password) salt 100000).1⟩

/-- Witness for C1 at a concrete password and the all-zero 16-byte salt. -/
theorem claim_C1_password_format_witness :
    ∃ cp', QBittorrentConfig.set_web_password CP.empty "hunter2".toList
        (List.replicate 16 0) = .ok cp' ∧
      cp'.get "Preferences".toList "WebUI\\Password_PBKDF2".toList =
        some ("@ByteArray(".toList ++ b64encode (List.replicate 16 0) ++
          ':' :: (b64encode (pbkdf2HmacSha512 (utf8Encode "hunter2".toList)
            (List.replicate 16 0) 100000 64) ++ [')'])) ∧
      b64decode (b64encode (List.replicate 16 0)) = some (List.replicate 16 0) ∧
      (List.replicate 16 0).length = 16 ∧
      b64decode (b64encode (pbkdf2HmacSha512 (utf8Encode "hunter2".toList)
          (List.replicate 16 0) 100000 64)) =
        some (pbkdf2HmacSha512 (utf8Encode "hunter2".toList)
          (List.replicate 16 0) 100000 64) ∧
      (pbkdf2HmacSha512 (utf8Encode "hunter2".toList)
        (List.replicate 16 0) 100000 64).length = 64 :=
  claim_C1_password_format CP.empty "hunter2".toList (List.replicate 16 0)
    (by decide) (by decide)

/-- C10 (formal reading offered by the claim): whenever the two freshly
drawn salts differ, the two values stored by `set_web_password` for the
same password differ. -/
theorem claim_C10_distinct_salts (cp1 cp2 : CP) (password : Str)
    (s1 s2 : List Nat) (h1 : s1.length = 16) (h2 : s2.length = 16)
    (hb1 : ∀ b ∈ s1, b < 256) (hb2 : ∀ b ∈ s2, b < 256) (hne : s1 ≠ s2) :
    QBittorrentConfig.passwordValue password s1 ≠
      QBittorrentConfig.passwordValue password s2 ∧
    (∀ cp1' cp2', QBittorrentConfig.set_web_password cp1 password s1 = .ok cp1' →
        QBittorrentConfig.set_web_password cp2 password s2 = .ok cp2' →
        cp1'.get "Preferences".toList "WebUI\\Password_PBKDF2".toList ≠
          cp2'.get "Preferences".toList "WebUI\\Password_PBKDF2".toList) := by
  have hval : QBittorrentConfig.passwordValue password s1 ≠
      QBittorrentConfig.passwordValue password s2 := by
    intro heq
    rw [QBittorrentConfig.passwordValue, QBittorrentConfig.passwordValue] at heq
    rw [List.append_assoc, List.append_assoc] at heq
    have heq2 := List.append_cancel_left heq
    have hlen12 : (b64encode s1).length = (b64encode s2).length := by
      rw [b64encode_length, b64encode_length, h1, h2]
    have henc := (List.append_inj heq2 hlen12).1
    have hds := b64decode_b64encode hb1
    rw [henc, b64decode_b64encode hb2] at hds
    exact hne (Option.some.inj hds).symm
  refine ⟨hval, ?_⟩
  intro cp1' cp2' e1 e2
  obtain ⟨w1, hw1, hg1, _⟩ := set_get cp1 "Preferences".toList
    "WebUI\\Password_PBKDF2".toList (QBittorrentConfig.passwordValue password s1)
    (Or.inr (beforeSetOk_no_pct (passwordValue_no_pct password s1)))
    (by decide) (by decide)
  obtain ⟨w2, hw2, hg2, _⟩ := set_get cp2 "Preferences".toList
    "WebUI\\Password_PBKDF2".toList (QBittorrentConfig.passwordValue password s2)
    (Or.inr (beforeSetOk_no_pct (passwordValue_no_pct password s2)))
    (by decide) (by decide)
  have hc1 : w1 = cp1' := Except.ok.inj (hw1.symm.trans e1)
  have hc2 : w2 = cp2' := Except.ok.inj (hw2.symm.trans e2)
  rw [← hc1, ← hc2, hg1, hg2]
  intro hc
  exact hval (Option.some.inj hc)

/-- Witness for C10 at two concrete distinct salts. -/
theorem claim_C10_distinct_salts_witness :
    QBittorrentConfig.passwordValue "hunter2".toList (List.replicate 16 0) ≠
      QBittorrentConfig.passwordValue "hunter2".toList (List.replicate 16 1) :=
  (claim_C10_distinct_salts CP.empty CP.empty "hunter2".toList
    (List.replicate 16 0) (List.replicate 16 1)
    (by decide) (by decide) (by decide) (by decide) (by decide)).1

/-! ### Round trip: basic string facts -/

theorem lstrip_cons_of_not_space {c : Char} (l : Str) (hc : pyIsSpace c = false) :
    lstrip (c :: l) = c :: l := by
  rw [lstrip, List.dropWhile_cons, hc]
  simp

theorem rstrip_concat_of_not_space (l : Str) {c : Char} (hc : pyIsSpace c = false) :
    rstrip (l ++ [c]) = l ++ [c] := by
  rw [rstrip, List.reverse_append, List.reverse_singleton, List.singleton_append,
    List.dropWhile_cons, hc]
  simp

theorem lstrip_length (l : Str) : (lstrip l).length ≤ l.length :=
  List.Sublist.length_le (List.dropWhile_sublist _)

theorem rstrip_length (l : Str) : (rstrip l).length ≤ l.length := by
  rw [rstrip]
  have h := lstrip_length l.reverse
  rw [lstrip] at h
  simp only [List.length_reverse] at h ⊢
  exact h

theorem head_not_space_of_lstrip {c : Char} {rest : Str} (h : lstrip (c :: rest) = c :: rest) :
    pyIsSpace c = false := by
  by_cases hc : pyIsSpace c = true
  · rw [lstrip, List.dropWhile_cons, hc, if_pos rfl] at h
    have h2 : (List.dropWhile pyIsSpace rest).length ≤ rest.length :=
      List.Sublist.length_le (List.dropWhile_sublist _)
    have hlen := congrArg List.length h
    have hd : (c :: rest).length = rest.length + 1 := by simp
    rw [hd] at hlen
    omega
  · simpa using hc

theorem last_not_space_of_rstrip {as : Str} {a : Char} (h : rstrip (as ++ [a]) = as ++ [a]) :
    pyIsSpace a = false := by
  by_cases hc : pyIsSpace a = true
  · rw [rstrip, List.reverse_append, List.reverse_singleton, List.singleton_append,
      List.dropWhile_cons, hc, if_pos rfl] at h
    have h2 : (List.dropWhile pyIsSpace as.reverse).length ≤ as.reverse.length :=
      List.Sublist.length_le (List.dropWhile_sublist _)
    have hlen := congrArg List.length h
    simp only [List.length_reverse, List.length_append, List.length_singleton] at hlen h2
    omega
  · simpa using hc

theorem pstrip_eq_self_split {l : Str} (h : pstrip l = l) :
    lstrip l = l ∧ rstrip l = l := by
  rw [pstrip] at h
  have h1 : (lstrip l).length ≤ l.length := lstrip_length l
  have h2 : (rstrip (lstrip l)).length ≤ (lstrip l).length := rstrip_length (lstrip l)
  have hlen := congrArg List.length h
  have hll : lstrip l = l := by
    have hlen2 : (lstrip l).length = l.length := by omega
    exact List.Sublist.eq_of_length (List.dropWhile_sublist _) hlen2
  rw [hll] at h
  exact ⟨hll, h⟩

theorem dropWhile_head_false {α : Type} {p : α → Bool} {l : List α} {c : α} {rest : List α}
    (h : l.dropWhile p = c :: rest) : p c = false := by
  induction l with
  | nil => simp at h
  | cons a as ih =>
      rw [List.dropWhile_cons] at h
      by_cases ha : p a = true
      · rw [ha, if_pos rfl] at h
        exact ih h
      · rw [if_neg ha] at h
        rcases List.cons.inj h with ⟨h1, h2⟩
        rw [← h1]
        simpa using ha

theorem dropWhile_idem {α : Type} (p : α → Bool) (l : List α) :
    (l.dropWhile p).dropWhile p = l.dropWhile p := by
  cases h : l.dropWhile p with
  | nil => rfl
  | cons c rest =>
      rw [List.dropWhile_cons, dropWhile_head_false h]
      simp

theorem lstrip_idem (l : Str) : lstrip (lstrip l) = lstrip l := dropWhile_idem _ _

theorem rstrip_idem (l : Str) : rstrip (rstrip l) = rstrip l := by
  rw [rstrip, rstrip, List.reverse_reverse, dropWhile_idem]

theorem rstrip_isPrefix (l : Str) : rstrip l <+: l := by
  rw [rstrip]
  have h : l.reverse.dropWhile pyIsSpace <:+ l.reverse := List.dropWhile_suffix _
  have h2 := List.reverse_prefix.mpr h
  rwa [List.reverse_reverse] at h2

theorem lstrip_rstrip_comm (l : Str) : lstrip (rstrip (lstrip l)) = rstrip (lstrip l) := by
  cases hm : rstrip (lstrip l) with
  | nil => rfl
  | cons c rest =>
      have hpre : rstrip (lstrip l) <+: lstrip l := rstrip_isPrefix _
      rw [hm] at hpre
      obtain ⟨t, ht⟩ := hpre
      cases hl : lstrip l with
      | nil =>
          rw [hl] at ht
          simp at ht
      | cons d ds =>
          have hd : pyIsSpace d = false := by
            have h5 : lstrip (d :: ds) = d :: ds := by rw [← hl, lstrip_idem]
            exact head_not_space_of_lstrip h5
          rw [hl, List.cons_append] at ht
          rcases List.cons.inj ht with ⟨h1, h2⟩
          rw [← h1] at hd
          exact lstrip_cons_of_not_space rest hd

theorem pstrip_idem (l : Str) : pstrip (pstrip l) = pstrip l := by
  rw [pstrip, pstrip, lstrip_rstrip_comm, rstrip_idem]


theorem joinNl_cons {qs : List Str} (p : Str) (h : qs ≠ []) :
    joinNl (p :: qs) = p ++ '\n' :: joinNl qs := by
  cases qs with
  | nil => exact absurd rfl h
  | cons q t => rfl

theorem splitNl_no_nl {v q : Str} (h : q ∈ splitNl v) : '\n' ∉ q := by
  induction v generalizing q with
  | nil =>
      simp only [splitNl, List.mem_singleton] at h
      simp [h]
  | cons c rest ih =>
      rw [splitNl] at h
      by_cases hc : c = '\n'
      · rw [if_pos hc] at h
        rcases List.mem_cons.mp h with h2 | h2
        · simp [h2]
        · exact ih h2
      · rw [if_neg hc] at h
        cases hs : splitNl rest with
        | nil => exact absurd hs (splitNl_ne_nil rest)
        | cons p ps =>
            rw [hs] at h
            rcases List.mem_cons.mp h with h2 | h2
            · subst h2
              intro hmem
              rcases List.mem_cons.mp hmem with h3 | h3
              · exact hc h3.symm
              · exact ih (hs ▸ List.mem_cons_self p ps) h3
            · exact ih (hs ▸ List.mem_cons_of_mem p h2)

theorem joinNl_splitNl (v : Str) : joinNl (splitNl v) = v := by
  induction v with
  | nil => rfl
  | cons c rest ih =>
      rw [splitNl]
      by_cases hc : c = '\n'
      · rw [if_pos hc, joinNl_cons _ (splitNl_ne_nil rest), ih, hc]
        rfl
      · rw [if_neg hc]
        cases hs : splitNl rest with
        | nil => exact absurd hs (splitNl_ne_nil rest)
        | cons p ps =>
            rw [hs] at ih
            cases ps with
            | nil =>
                simp only [joinNl] at ih ⊢
                rw [ih]
            | cons p2 ps2 =>
                rw [joinNl_cons _ (by simp), List.cons_append,
                  ← joinNl_cons _ (by simp), ih]

theorem splitNl_of_no_nl {q : Str} (h : '\n' ∉ q) : splitNl q = [q] := by
  induction q with
  | nil => rfl
  | cons c rest ih =>
      simp only [List.mem_cons, not_or] at h
      rw [splitNl, if_neg (fun hh => h.1 hh.symm), ih h.2]

theorem splitNl_append_nl {q R : Str} (h : '\n' ∉ q) :
    splitNl (q ++ '\n' :: R) = q :: splitNl R := by
  induction q with
  | nil =>
      rw [List.nil_append, splitNl, if_pos rfl]
  | cons c rest ih =>
      simp only [List.mem_cons, not_or] at h
      rw [List.cons_append, splitNl, if_neg (fun hh => h.1 hh.symm), ih h.2]

theorem splitNl_joinNl {qs : List Str} (hne : qs ≠ []) (hnl : ∀ q ∈ qs, '\n' ∉ q) :
    splitNl (joinNl qs) = qs := by
  induction qs with
  | nil => exact absurd rfl hne
  | cons q rest ih =>
      cases rest with
      | nil => exact splitNl_of_no_nl (hnl q (by simp))
      | cons r t =>
          rw [joinNl_cons _ (by simp), splitNl_append_nl (hnl q (by simp)),
            ih (by simp) (fun z hz => hnl z (by simp [hz]))]

theorem splitNl_flatten_lines {lines : List Str} (h : ∀ l ∈ lines, '\n' ∉ l) :
    splitNl ((lines.map (fun l => l ++ ['\n'])).flatten) = lines ++ [[]] := by
  induction lines with
  | nil => rfl
  | cons l rest ih =>
      simp only [List.map_cons, List.flatten_cons]
      rw [List.append_assoc, List.singleton_append,
        splitNl_append_nl (h l (by simp)), ih (fun z hz => h z (by simp [hz]))]
      rfl

theorem fileLines_flatten {lines : List Str} (h : ∀ l ∈ lines, '\n' ∉ l) :
    fileLines ((lines.map (fun l => l ++ ['\n'])).flatten) = lines := by
  cases lines with
  | nil => rfl
  | cons l rest =>
      rw [fileLines]
      have hne : ((l :: rest).map (fun l => l ++ ['\n'])).flatten ≠ [] := by
        simp
      rw [if_neg hne, splitNl_flatten_lines h]
      rw [if_pos (List.getLastD_concat _ _ _), List.dropLast_concat]

theorem rstrip_append_space {l : Str} {c : Char} (hc : pyIsSpace c = true) :
    rstrip (l ++ [c]) = rstrip l := by
  rw [rstrip, rstrip, List.reverse_append, List.reverse_singleton, List.singleton_append,
    List.dropWhile_cons, hc, if_pos rfl]

theorem joinNl_concat_empty {ps : List Str} (h : ps ≠ []) :
    joinNl (ps ++ [[]]) = joinNl ps ++ ['\n'] := by
  induction ps with
  | nil => exact absurd rfl h
  | cons p rest ih =>
      cases rest with
      | nil => rfl
      | cons r t =>
          rw [List.cons_append, joinNl_cons _ (by simp), joinNl_cons _ (by simp),
            ih (by simp)]
          simp

theorem joinPieces_concat_empty {ps : List Str} (h : ps ≠ []) :
    joinPieces (ps ++ [[]]) = joinPieces ps := by
  rw [joinPieces, joinPieces, joinNl_concat_empty h, rstrip_append_space (by decide)]

theorem joinPieces_splitNl {v : Str} (h : rstrip v = v) :
    joinPieces (splitNl v) = v := by
  rw [joinPieces, joinNl_splitNl, h]

theorem beforeLast_concat (xs : Str) (c : Char) : beforeLast (xs ++ [c]) c = some xs := by
  rw [beforeLast, if_pos (by simp)]
  rw [List.reverse_append, List.reverse_singleton, List.singleton_append,
    List.dropWhile_cons]
  simp

theorem sectMatch_header {name : Str} (h : name ≠ []) :
    sectMatch ('[' :: (name ++ [']'])) = some name := by
  rw [sectMatch, if_pos rfl, beforeLast_concat]
  simp only [if_neg h]

theorem dropWhile_append_all {α : Type} {p : α → Bool} {k : List α} (t : List α)
    (hk : ∀ c ∈ k, p c = true) : (k ++ t).dropWhile p = t.dropWhile p := by
  induction k with
  | nil => rfl
  | cons c rest ih =>
      rw [List.cons_append, List.dropWhile_cons, hk c (by simp), if_pos rfl]
      exact ih (fun z hz => hk z (by simp [hz]))

theorem takeWhile_append_all {α : Type} {p : α → Bool} {k : List α} (t : List α)
    (hk : ∀ c ∈ k, p c = true) : (k ++ t).takeWhile p = k ++ t.takeWhile p := by
  induction k with
  | nil => rfl
  | cons c rest ih =>
      rw [List.cons_append, List.takeWhile_cons, hk c (by simp), if_pos rfl,
        ih (fun z hz => hk z (by simp [hz])), List.cons_append]

theorem optMatch_entry {k q0 : Str} (hkr : rstrip k = k) (hq0 : pstrip q0 = q0)
    (hkd : ∀ c ∈ k, c ≠ '=' ∧ c ≠ ':') :
    optMatch (k ++ '=' :: q0) = some (k, q0) := by
  have hall : ∀ c ∈ k, (!(c == '=' || c == ':')) = true := by
    intro c hc
    have := hkd c hc
    simp [this.1, this.2]
  rw [optMatch, dropWhile_append_all _ hall, takeWhile_append_all _ hall]
  rw [List.dropWhile_cons]
  simp only [show (!('=' == '=' || '=' == ':')) = false by decide, Bool.false_eq_true,
    if_false]
  rw [List.takeWhile_cons]
  simp only [show (!('=' == '=' || '=' == ':')) = false by decide, Bool.false_eq_true,
    if_false, List.append_nil]
  rw [hkr, hq0]

theorem pstrip_header (name : Str) :
    pstrip ('[' :: (name ++ [']'])) = '[' :: (name ++ [']']) := by
  rw [pstrip, lstrip_cons_of_not_space _ (by decide)]
  rw [show ('[' :: (name ++ [']']) : Str) = ('[' :: name) ++ [']'] by simp]
  exact rstrip_concat_of_not_space _ (by decide)

theorem indentOf_cons_not_space {c : Char} (l : Str) (hc : pyIsSpace c = false) :
    indentOf (c :: l) = 0 := by
  rw [indentOf, if_neg]
  · rw [List.takeWhile_cons, hc]
    simp
  · intro hall
    have := List.all_eq_true.mp hall c (by simp)
    rw [hc] at this
    simp at this

theorem readLine_header (rs : RS) (name : Str) (hne : name ≠ [])
    (hns : name ∉ rs.sects.map Prod.fst) (hnd : name ≠ "DEFAULT".toList) :
    readLine rs ('[' :: (name ++ [']'])) =
      .ok ({ rs with
             sects := rs.sects ++ [(name, [])]
             cur := Cur.sect name
             sectname := name
             optname := []
             indent := 0
             addedS := rs.addedS ++ [name] } : RS) := by
  have hcm : startsWithComment ('[' :: (name ++ [']'])) = false := by
    rw [startsWithComment, pstrip_header]
    rfl
  have hps := pstrip_header name
  have hio : indentOf ('[' :: (name ++ [']'])) = 0 :=
    indentOf_cons_not_space _ (by decide)
  rw [readLine]
  simp only [hcm, Bool.false_eq_true, if_false, hps, hio]
  rw [if_neg (by simp)]
  rw [if_neg (by intro hc; exact Nat.not_lt_zero _ hc.2.2)]
  rw [sectMatch_header hne]
  simp only [contains_eq_false_of_not_mem hns, Bool.false_eq_true, if_false, if_neg hnd]
  rfl

theorem readLine_header_dflt (rs : RS)
    (hns : "DEFAULT".toList ∉ rs.sects.map Prod.fst) :
    readLine rs ('[' :: ("DEFAULT".toList ++ [']'])) =
      .ok ({ rs with
             cur := Cur.dflt
             sectname := "DEFAULT".toList
             optname := []
             indent := 0 } : RS) := by
  have hcm : startsWithComment ('[' :: ("DEFAULT".toList ++ [']'])) = false := by
    rw [startsWithComment, pstrip_header]
    rfl
  have hps := pstrip_header "DEFAULT".toList
  have hio : indentOf ('[' :: ("DEFAULT".toList ++ [']'])) = 0 :=
    indentOf_cons_not_space _ (by decide)
  rw [readLine]
  simp only [hcm, Bool.false_eq_true, if_false, hps, hio]
  rw [if_neg (by simp)]
  rw [if_neg (by intro hc; exact Nat.not_lt_zero _ hc.2.2)]
  rw [sectMatch_header (by decide)]
  simp only [contains_eq_false_of_not_mem hns, Bool.false_eq_true, if_false, if_pos rfl]
  rfl

theorem readLine_blank (rs : RS) (hcur : rs.cur ≠ .nothing) (hopt : rs.optname ≠ []) :
    readLine rs [] = .ok (rs.curAppend []) := by
  rw [readLine]
  simp only [show startsWithComment [] = false from rfl, Bool.false_eq_true, if_false]
  rw [if_pos (show pstrip [] = ([] : Str) from rfl)]
  rw [if_pos (show ¬False ∧ rs.cur ≠ Cur.nothing ∧ rs.optname ≠ [] from
    ⟨not_false, hcur, hopt⟩)]
  rfl

theorem readLine_blank_noopt (rs : RS) (h : rs.optname = [] ∨ rs.cur = .nothing) :
    readLine rs [] = .ok rs := by
  rw [readLine]
  simp only [show startsWithComment [] = false from rfl, Bool.false_eq_true, if_false]
  rw [if_pos (show pstrip [] = ([] : Str) from rfl)]
  rw [if_neg]
  · rfl
  · intro hc
    rcases h with h | h
    · exact hc.2.2 h
    · exact hc.2.1 h

theorem readLine_blankTab (rs : RS) (hcur : rs.cur ≠ .nothing) (hopt : rs.optname ≠ []) :
    readLine rs ['\t'] = .ok (rs.curAppend []) := by
  rw [readLine]
  simp only [show startsWithComment ['\t'] = false from rfl, Bool.false_eq_true, if_false]
  rw [if_pos (show pstrip ['\t'] = ([] : Str) from rfl)]
  rw [if_pos (show ¬False ∧ rs.cur ≠ Cur.nothing ∧ rs.optname ≠ [] from
    ⟨not_false, hcur, hopt⟩)]
  rfl

theorem readLine_cont (rs : RS) (q : Str) (hq : pstrip q = q) (hqne : q ≠ [])
    (hnc : notCommentStart q = true) (hcur : rs.cur ≠ .nothing)
    (hopt : rs.optname ≠ []) (hind : rs.indent = 0) :
    readLine rs ('\t' :: q) = .ok (rs.curAppend q) := by
  obtain ⟨hql, hqr⟩ := pstrip_eq_self_split hq
  have hps : pstrip ('\t' :: q) = q := by
    rw [pstrip, lstrip, List.dropWhile_cons, show pyIsSpace '\t' = true from rfl,
      if_pos rfl]
    rw [show q.dropWhile pyIsSpace = lstrip q from rfl, hql, hqr]
  have hcm : startsWithComment ('\t' :: q) = false := by
    rw [startsWithComment, hps]
    cases q with
    | nil => rfl
    | cons c t =>
        rw [notCommentStart] at hnc
        simpa using hnc
  have hhd : pyIsSpace (q.headD ' ') = false := by
    cases q with
    | nil => exact absurd rfl hqne
    | cons c t =>
        rw [List.headD_cons]
        exact head_not_space_of_lstrip hql
  have hio : indentOf ('\t' :: q) = 1 := by
    rw [indentOf, if_neg]
    · rw [List.takeWhile_cons, show pyIsSpace '\t' = true from rfl, if_pos rfl]
      cases q with
      | nil => exact absurd rfl hqne
      | cons c t =>
          rw [List.takeWhile_cons, List.headD_cons] at *
          rw [hhd]
          simp
    · intro hall
      cases q with
      | nil => exact absurd rfl hqne
      | cons c t =>
          have := List.all_eq_true.mp hall c (by simp)
          rw [List.headD_cons] at hhd
          rw [hhd] at this
          simp at this
  rw [readLine]
  simp only [hcm, Bool.false_eq_true, if_false, hps, if_neg hqne, hio]
  rw [if_pos ⟨hcur, hopt, by omega⟩]
  rfl

theorem pstrip_optline {k q0 : Str} (hkp : pstrip k = k) (hkne : k ≠ [])
    (hq0 : pstrip q0 = q0) :
    pstrip (k ++ '=' :: q0) = k ++ '=' :: q0 := by
  obtain ⟨hkl, hkr⟩ := pstrip_eq_self_split hkp
  have hl : lstrip (k ++ '=' :: q0) = k ++ '=' :: q0 := by
    cases k with
    | nil => exact absurd rfl hkne
    | cons c t =>
        have hc := head_not_space_of_lstrip hkl
        rw [List.cons_append]
        exact lstrip_cons_of_not_space _ hc
  have hr : rstrip (k ++ '=' :: q0) = k ++ '=' :: q0 := by
    cases hq0e : q0 with
    | nil =>
        rw [show (k ++ '=' :: ([] : Str)) = k ++ ['='] from rfl]
        exact rstrip_concat_of_not_space _ (by decide)
    | cons c t =>
        have hq0ne : q0 ≠ [] := by rw [hq0e]; simp
        have hq0r : rstrip q0 = q0 := (pstrip_eq_self_split hq0).2
        have hdec : q0 = q0.dropLast ++ [q0.getLast hq0ne] :=
          (List.dropLast_append_getLast hq0ne).symm
        have hla : pyIsSpace (q0.getLast hq0ne) = false := by
          have hr0 : rstrip (q0.dropLast ++ [q0.getLast hq0ne]) =
              q0.dropLast ++ [q0.getLast hq0ne] := by
            rw [← hdec]
            exact hq0r
          exact last_not_space_of_rstrip hr0
        rw [← hq0e, hdec,
          show (k ++ '=' :: (q0.dropLast ++ [q0.getLast hq0ne])) =
            (k ++ '=' :: q0.dropLast) ++ [q0.getLast hq0ne] by simp]
        exact rstrip_concat_of_not_space _ hla
  rw [pstrip, hl, hr]

theorem readLine_optline (rs : RS) (k q0 : Str) (hk : WFkey k) (hq0 : pstrip q0 = q0)
    (hsm : sectMatch (k ++ '=' :: q0) = none) (hcur : rs.cur ≠ .nothing)
    (hdup : (rs.sectname, k) ∉ rs.addedO) :
    readLine rs (k ++ '=' :: q0) =
      .ok (({ rs with
              indent := 0
              addedO := rs.addedO ++ [(rs.sectname, k)]
              optname := k } : RS).curAssign k [q0]) := by
  obtain ⟨hkne, hkp, hknc, hkd⟩ := hk
  obtain ⟨hkl, hkr⟩ := pstrip_eq_self_split hkp
  have hps := pstrip_optline hkp hkne hq0
  have hcm : startsWithComment (k ++ '=' :: q0) = false := by
    rw [startsWithComment, hps]
    cases k with
    | nil => exact absurd rfl hkne
    | cons c t =>
        rw [notCommentStart] at hknc
        simpa using hknc
  have hio : indentOf (k ++ '=' :: q0) = 0 := by
    cases k with
    | nil => exact absurd rfl hkne
    | cons c t =>
        have hc := head_not_space_of_lstrip hkl
        rw [List.cons_append]
        exact indentOf_cons_not_space _ hc
  have hom : optMatch (k ++ '=' :: q0) = some (k, q0) :=
    optMatch_entry hkr hq0 (fun c hc => ⟨(hkd c hc).2.1, (hkd c hc).2.2⟩)
  have hdupc : rs.addedO.contains (rs.sectname, k) = false := by
    cases hc : rs.addedO.contains (rs.sectname, k)
    · rfl
    · exact absurd (List.mem_of_elem_eq_true hc) hdup
  rw [readLine]
  simp only [hcm, Bool.false_eq_true, if_false, hps, hio]
  rw [if_neg (show ¬ (k ++ '=' :: q0) = [] by simp)]
  rw [if_neg (by intro hc; exact Nat.not_lt_zero _ hc.2.2)]
  simp only [hsm]
  rw [if_neg (show ¬ ({ rs with indent := 0 } : RS).cur = Cur.nothing from hcur)]
  simp only [hom]
  rw [if_neg hkne]
  simp only [hdupc, Bool.false_eq_true, if_false]
  rfl

theorem map_upd_last {α : Type} (S : List (Str × α)) (n : Str) (d : α) (g : α → α)
    (hnS : n ∉ S.map Prod.fst) :
    (S ++ [(n, d)]).map (fun p => if p.1 = n then (p.1, g p.2) else p) =
      S ++ [(n, g d)] := by
  induction S with
  | nil => simp
  | cons e rest ih =>
      simp only [List.map_cons, List.mem_cons, not_or] at hnS
      have he : ¬(e.1 = n) := fun hh => hnS.1 hh.symm
      simp only [List.cons_append, List.map_cons, if_neg he]
      rw [ih hnS.2]

theorem dAppend_append_fresh {d : List (Str × List Str)} {k : Str} (ps : List Str)
    (q : Str) (h : k ∉ d.map Prod.fst) :
    dAppend (d ++ [(k, ps)]) k q = d ++ [(k, ps ++ [q])] := by
  rw [dAppend]
  exact map_upd_last d k ps (fun x => x ++ [q]) h

theorem readLine_fold_cont (D : List (Str × List Str))
    (S : List (Str × List (Str × List Str))) (n : Str) (d : List (Str × List Str))
    (k : Str) (AS : List Str) (AO : List (Str × Str)) (qs ps : List Str)
    (hqs : ∀ q ∈ qs, pstrip q = q ∧ notCommentStart q = true)
    (hnS : n ∉ S.map Prod.fst) (hkd : k ∉ d.map Prod.fst) (hkne : k ≠ []) :
    (qs.map (fun q => '\t' :: q)).foldlM readLine
      (⟨D, S ++ [(n, d ++ [(k, ps)])], .sect n, n, k, 0, AS, AO, false⟩ : RS) =
    .ok (⟨D, S ++ [(n, d ++ [(k, ps ++ qs)])], .sect n, n, k, 0, AS, AO, false⟩ : RS) := by
  induction qs generalizing ps with
  | nil => simp only [List.map_nil, List.foldlM_nil, List.append_nil]; rfl
  | cons q qs ih =>
      have hcur : (⟨D, S ++ [(n, d ++ [(k, ps)])], .sect n, n, k, 0, AS, AO, false⟩ : RS).cur
          ≠ Cur.nothing := fun h => Cur.noConfusion h
      have hopt : (⟨D, S ++ [(n, d ++ [(k, ps)])], .sect n, n, k, 0, AS, AO, false⟩ : RS).optname
          ≠ [] := hkne
      have hstep : readLine
          (⟨D, S ++ [(n, d ++ [(k, ps)])], .sect n, n, k, 0, AS, AO, false⟩ : RS)
          ('\t' :: q) =
          .ok ((⟨D, S ++ [(n, d ++ [(k, ps)])], .sect n, n, k, 0, AS, AO, false⟩ :
            RS).curAppend q) := by
        by_cases hq : q = []
        · subst hq
          exact readLine_blankTab _ hcur hopt
        · exact readLine_cont _ q (hqs q (by simp)).1 hq (hqs q (by simp)).2 hcur hopt rfl
      have hca : (⟨D, S ++ [(n, d ++ [(k, ps)])], .sect n, n, k, 0, AS, AO, false⟩ :
          RS).curAppend q =
          (⟨D, S ++ [(n, d ++ [(k, ps ++ [q])])], .sect n, n, k, 0, AS, AO, false⟩ : RS) := by
        rw [RS.curAppend]
        simp only []
        rw [map_upd_last S n (d ++ [(k, ps)]) (fun x => dAppend x k q) hnS,
          dAppend_append_fresh ps q hkd]
      rw [List.map_cons, List.foldlM_cons, hstep, exceptOk_bind, hca]
      have := ih (ps ++ [q]) (fun q2 h2 => hqs q2 (by simp [h2]))
      rw [List.append_assoc] at this
      simpa using this

theorem readLine_fold_cont_dflt (D : List (Str × List Str))
    (S : List (Str × List (Str × List Str)))
    (k : Str) (AS : List Str) (AO : List (Str × Str)) (qs ps : List Str)
    (hqs : ∀ q ∈ qs, pstrip q = q ∧ notCommentStart q = true)
    (hkd : k ∉ D.map Prod.fst) (hkne : k ≠ []) :
    (qs.map (fun q => '\t' :: q)).foldlM readLine
      (⟨D ++ [(k, ps)], S, .dflt, "DEFAULT".toList, k, 0, AS, AO, false⟩ : RS) =
    .ok (⟨D ++ [(k, ps ++ qs)], S, .dflt, "DEFAULT".toList, k, 0, AS, AO, false⟩ : RS) := by
  induction qs generalizing ps with
  | nil => simp only [List.map_nil, List.foldlM_nil, List.append_nil]; rfl
  | cons q qs ih =>
      have hcur : (⟨D ++ [(k, ps)], S, .dflt, "DEFAULT".toList, k, 0, AS, AO, false⟩ : RS).cur
          ≠ Cur.nothing := fun h => Cur.noConfusion h
      have hopt : (⟨D ++ [(k, ps)], S, .dflt, "DEFAULT".toList, k, 0, AS, AO,
          false⟩ : RS).optname ≠ [] := hkne
      have hstep : readLine
          (⟨D ++ [(k, ps)], S, .dflt, "DEFAULT".toList, k, 0, AS, AO, false⟩ : RS)
          ('\t' :: q) =
          .ok ((⟨D ++ [(k, ps)], S, .dflt, "DEFAULT".toList, k, 0, AS, AO, false⟩ :
            RS).curAppend q) := by
        by_cases hq : q = []
        · subst hq
          exact readLine_blankTab _ hcur hopt
        · exact readLine_cont _ q (hqs q (by simp)).1 hq (hqs q (by simp)).2 hcur hopt rfl
      have hca : (⟨D ++ [(k, ps)], S, .dflt, "DEFAULT".toList, k, 0, AS, AO, false⟩ :
          RS).curAppend q =
          (⟨D ++ [(k, ps ++ [q])], S, .dflt, "DEFAULT".toList, k, 0, AS, AO, false⟩ : RS) := by
        rw [RS.curAppend]
        simp only []
        rw [dAppend_append_fresh ps q hkd]
      rw [List.map_cons, List.foldlM_cons, hstep, exceptOk_bind, hca]
      have := ih (ps ++ [q]) (fun q2 h2 => hqs q2 (by simp [h2]))
      rw [List.append_assoc] at this
      simpa using this

theorem readLine_fold_entry (D : List (Str × List Str))
    (S : List (Str × List (Str × List Str))) (n : Str) (d : List (Str × List Str))
    (k v o : Str) (AS : List Str) (AO : List (Str × Str))
    (hk : WFkey k) (hv : WFval k v)
    (hnS : n ∉ S.map Prod.fst) (hkd : k ∉ d.map Prod.fst) (hAO : (n, k) ∉ AO) :
    (entryLines (k, v)).foldlM readLine
      (⟨D, S ++ [(n, d)], .sect n, n, o, 0, AS, AO, false⟩ : RS) =
    .ok (⟨D, S ++ [(n, d ++ [(k, splitNl v)])], .sect n, n, k, 0, AS,
         AO ++ [(n, k)], false⟩ : RS) := by
  obtain ⟨hvr, hvp, hvc, hvs⟩ := hv
  cases hsp : splitNl v with
  | nil => exact absurd hsp (splitNl_ne_nil v)
  | cons q0 qs =>
      have hq0 : pstrip q0 = q0 := hvp q0 (by rw [hsp]; simp)
      have hsm : sectMatch (k ++ '=' :: q0) = none := by
        rw [hsp] at hvs
        simpa using hvs
      have hstep := readLine_optline
        (⟨D, S ++ [(n, d)], .sect n, n, o, 0, AS, AO, false⟩ : RS) k q0 hk hq0 hsm
        (fun h => Cur.noConfusion h) hAO
      have hca : (({ (⟨D, S ++ [(n, d)], .sect n, n, o, 0, AS, AO, false⟩ : RS) with
              indent := 0
              addedO := AO ++ [(n, k)]
              optname := k } : RS).curAssign k [q0]) =
          (⟨D, S ++ [(n, d ++ [(k, [q0])])], .sect n, n, k, 0, AS,
            AO ++ [(n, k)], false⟩ : RS) := by
        rw [RS.curAssign]
        simp only []
        rw [map_upd_last S n d (fun x => dSet x k [q0]) hnS, dSet_not_mem [q0] hkd]
      rw [entryLines]
      simp only [hsp, List.headD_cons, List.tail_cons]
      rw [List.foldlM_cons, hstep, exceptOk_bind, hca]
      have hqs2 : ∀ q ∈ qs, pstrip q = q ∧ notCommentStart q = true := by
        intro q hq
        refine ⟨hvp q (by rw [hsp]; simp [hq]), hvc q (by rw [hsp]; simpa using hq)⟩
      have := readLine_fold_cont D S n d k AS (AO ++ [(n, k)]) qs [q0] hqs2 hnS hkd hk.1
      simpa using this

theorem readLine_fold_entry_dflt (D : List (Str × List Str))
    (S : List (Str × List (Str × List Str)))
    (k v o : Str) (AS : List Str) (AO : List (Str × Str))
    (hk : WFkey k) (hv : WFval k v)
    (hkd : k ∉ D.map Prod.fst) (hAO : ("DEFAULT".toList, k) ∉ AO) :
    (entryLines (k, v)).foldlM readLine
      (⟨D, S, .dflt, "DEFAULT".toList, o, 0, AS, AO, false⟩ : RS) =
    .ok (⟨D ++ [(k, splitNl v)], S, .dflt, "DEFAULT".toList, k, 0, AS,
         AO ++ [("DEFAULT".toList, k)], false⟩ : RS) := by
  obtain ⟨hvr, hvp, hvc, hvs⟩ := hv
  cases hsp : splitNl v with
  | nil => exact absurd hsp (splitNl_ne_nil v)
  | cons q0 qs =>
      have hq0 : pstrip q0 = q0 := hvp q0 (by rw [hsp]; simp)
      have hsm : sectMatch (k ++ '=' :: q0) = none := by
        rw [hsp] at hvs
        simpa using hvs
      have hstep := readLine_optline
        (⟨D, S, .dflt, "DEFAULT".toList, o, 0, AS, AO, false⟩ : RS) k q0 hk hq0 hsm
        (fun h => Cur.noConfusion h) hAO
      have hca : (({ (⟨D, S, .dflt, "DEFAULT".toList, o, 0, AS, AO, false⟩ : RS) with
              indent := 0
              addedO := AO ++ [("DEFAULT".toList, k)]
              optname := k } : RS).curAssign k [q0]) =
          (⟨D ++ [(k, [q0])], S, .dflt, "DEFAULT".toList, k, 0, AS,
            AO ++ [("DEFAULT".toList, k)], false⟩ : RS) := by
        rw [RS.curAssign]
        simp only []
        rw [dSet_not_mem [q0] hkd]
      rw [entryLines]
      simp only [hsp, List.headD_cons, List.tail_cons]
      rw [List.foldlM_cons, hstep, exceptOk_bind, hca]
      have hqs2 : ∀ q ∈ qs, pstrip q = q ∧ notCommentStart q = true := by
        intro q hq
        refine ⟨hvp q (by rw [hsp]; simp [hq]), hvc q (by rw [hsp]; simpa using hq)⟩
      have := readLine_fold_cont_dflt D S k AS (AO ++ [("DEFAULT".toList, k)]) qs [q0]
        hqs2 hkd hk.1
      simpa using this

theorem readLine_fold_entries (D : List (Str × List Str))
    (S : List (Str × List (Str × List Str))) (n : Str) (d : List (Str × List Str))
    (es : List (Str × Str)) (o : Str) (AS : List Str) (AO : List (Str × Str))
    (hWF : WFentries es)
    (hnS : n ∉ S.map Prod.fst)
    (hdis : ∀ e ∈ es, e.1 ∉ d.map Prod.fst)
    (hAO : ∀ e ∈ es, (n, e.1) ∉ AO) :
    ((es.map entryLines).flatten).foldlM readLine
      (⟨D, S ++ [(n, d)], .sect n, n, o, 0, AS, AO, false⟩ : RS) =
    .ok (⟨D, S ++ [(n, d ++ es.map (fun e => (e.1, splitNl e.2)))], .sect n, n,
         (es.map Prod.fst).getLastD o, 0, AS,
         AO ++ es.map (fun e => (n, e.1)), false⟩ : RS) := by
  induction es generalizing d o AO with
  | nil => simp only [List.map_nil, List.flatten_nil, List.foldlM_nil, List.append_nil,
      List.getLastD_nil]; rfl
  | cons e es ih =>
      obtain ⟨k, v⟩ := e
      obtain ⟨hnd, hwf⟩ := hWF
      simp only [List.map_cons, List.flatten_cons]
      rw [List.foldlM_append]
      rw [readLine_fold_entry D S n d k v o AS AO (hwf (k, v) (by simp)).1
        (hwf (k, v) (by simp)).2 hnS (hdis (k, v) (by simp)) (hAO (k, v) (by simp))]
      rw [exceptOk_bind]
      have hknotes : k ∉ es.map Prod.fst := by
        simp only [List.map_cons] at hnd
        exact (List.nodup_cons.mp hnd).1
      have hdis2 : ∀ e2 ∈ es, e2.1 ∉ (d ++ [(k, splitNl v)]).map Prod.fst := by
        intro e2 h2
        simp only [List.map_append, List.map_cons, List.map_nil, List.mem_append,
          List.mem_cons, List.not_mem_nil, or_false, not_or]
        refine ⟨hdis e2 (by simp [h2]), fun hc => hknotes ?_⟩
        rw [← hc]
        exact List.mem_map_of_mem Prod.fst h2
      have hAO2 : ∀ e2 ∈ es, (n, e2.1) ∉ AO ++ [(n, k)] := by
        intro e2 h2
        simp only [List.mem_append, List.mem_cons, List.not_mem_nil, or_false, not_or]
        refine ⟨hAO e2 (by simp [h2]), fun hc => hknotes ?_⟩
        have : e2.1 = k := (Prod.mk.injEq _ _ _ _ ▸ hc).2
        rw [← this]
        exact List.mem_map_of_mem Prod.fst h2
      have hWF2 : WFentries es := by
        refine ⟨?_, fun e2 h2 => hwf e2 (by simp [h2])⟩
        simp only [List.map_cons] at hnd
        exact (List.nodup_cons.mp hnd).2
      have := ih (d ++ [(k, splitNl v)]) k (AO ++ [(n, k)]) hWF2 hdis2 hAO2
      simp only [List.map_cons, List.getLastD_cons, List.append_assoc, List.cons_append,
        List.nil_append] at this ⊢
      exact this

theorem readLine_fold_entries_dflt (D : List (Str × List Str))
    (S : List (Str × List (Str × List Str)))
    (es : List (Str × Str)) (o : Str) (AS : List Str) (AO : List (Str × Str))
    (hWF : WFentries es)
    (hdis : ∀ e ∈ es, e.1 ∉ D.map Prod.fst)
    (hAO : ∀ e ∈ es, ("DEFAULT".toList, e.1) ∉ AO) :
    ((es.map entryLines).flatten).foldlM readLine
      (⟨D, S, .dflt, "DEFAULT".toList, o, 0, AS, AO, false⟩ : RS) =
    .ok (⟨D ++ es.map (fun e => (e.1, splitNl e.2)), S, .dflt, "DEFAULT".toList,
         (es.map Prod.fst).getLastD o, 0, AS,
         AO ++ es.map (fun e => ("DEFAULT".toList, e.1)), false⟩ : RS) := by
  induction es generalizing D o AO with
  | nil => simp only [List.map_nil, List.flatten_nil, List.foldlM_nil, List.append_nil,
      List.getLastD_nil]; rfl
  | cons e es ih =>
      obtain ⟨k, v⟩ := e
      obtain ⟨hnd, hwf⟩ := hWF
      simp only [List.map_cons, List.flatten_cons]
      rw [List.foldlM_append]
      rw [readLine_fold_entry_dflt D S k v o AS AO (hwf (k, v) (by simp)).1
        (hwf (k, v) (by simp)).2 (hdis (k, v) (by simp)) (hAO (k, v) (by simp))]
      rw [exceptOk_bind]
      have hknotes : k ∉ es.map Prod.fst := by
        simp only [List.map_cons] at hnd
        exact (List.nodup_cons.mp hnd).1
      have hdis2 : ∀ e2 ∈ es, e2.1 ∉ (D ++ [(k, splitNl v)]).map Prod.fst := by
        intro e2 h2
        simp only [List.map_append, List.map_cons, List.map_nil, List.mem_append,
          List.mem_cons, List.not_mem_nil, or_false, not_or]
        refine ⟨hdis e2 (by simp [h2]), fun hc => hknotes ?_⟩
        rw [← hc]
        exact List.mem_map_of_mem Prod.fst h2
      have hAO2 : ∀ e2 ∈ es, ("DEFAULT".toList, e2.1) ∉ AO ++ [("DEFAULT".toList, k)] := by
        intro e2 h2
        simp only [List.mem_append, List.mem_cons, List.not_mem_nil, or_false, not_or]
        refine ⟨hAO e2 (by simp [h2]), fun hc => hknotes ?_⟩
        have : e2.1 = k := (Prod.mk.injEq _ _ _ _ ▸ hc).2
        rw [← this]
        exact List.mem_map_of_mem Prod.fst h2
      have hWF2 : WFentries es := by
        refine ⟨?_, fun e2 h2 => hwf e2 (by simp [h2])⟩
        simp only [List.map_cons] at hnd
        exact (List.nodup_cons.mp hnd).2
      have := ih (D ++ [(k, splitNl v)]) k (AO ++ [("DEFAULT".toList, k)]) hWF2 hdis2 hAO2
      simp only [List.map_cons, List.getLastD_cons, List.append_assoc, List.cons_append,
        List.nil_append] at this ⊢
      exact this

theorem dAppend_getLast {d : List (Str × List Str)} (hne : d ≠ [])
    (hnd : (d.map Prod.fst).Nodup) (o : Str) :
    dAppend d ((d.map Prod.fst).getLastD o) [] = appendBlankLast d := by
  induction d generalizing o with
  | nil => exact absurd rfl hne
  | cons e rest ih =>
      cases hr : rest with
      | nil =>
          simp only [hr, List.map_cons, List.map_nil, List.getLastD_cons, List.getLastD_nil]
          rw [dAppend, appendBlankLast]
          simp
      | cons e2 rest2 =>
          rw [← hr]
          have hrne : rest ≠ [] := by rw [hr]; simp
          rw [List.map_cons] at hnd
          have hnd' := List.nodup_cons.mp hnd
          simp only [List.map_cons, List.getLastD_cons]
          have hnd2 : (rest.map Prod.fst).Nodup := hnd'.2
          have hlast : (rest.map Prod.fst).getLastD e.1 ∈ rest.map Prod.fst := by
            have hmne : rest.map Prod.fst ≠ [] := by
              rw [hr]; simp
            rw [List.getLastD_eq_getLast?, List.getLast?_eq_getLast _ hmne, Option.getD_some]
            exact List.getLast_mem hmne
          have hne1 : ¬(e.1 = (rest.map Prod.fst).getLastD e.1) := by
            intro hc
            have h1 := hnd'.1
            rw [hc] at h1
            exact h1 hlast
          rw [dAppend]
          simp only [List.map_cons, if_neg hne1]
          rw [show rest.map (fun x => if x.1 = (rest.map Prod.fst).getLastD e.1
                then (x.1, x.2 ++ [[]]) else x) =
              dAppend rest ((rest.map Prod.fst).getLastD e.1) [] from rfl]
          rw [ih hrne hnd2 e.1, appendBlankLast, if_neg hrne]

theorem map_fst_map_split (es : List (Str × Str)) :
    (es.map (fun e => (e.1, splitNl e.2))).map Prod.fst = es.map Prod.fst := by
  induction es with
  | nil => rfl
  | cons e rest ih => simp [ih]

theorem getLastD_mem {l : List Str} (hne : l ≠ []) (o : Str) : l.getLastD o ∈ l := by
  rw [List.getLastD_eq_getLast?, List.getLast?_eq_getLast _ hne, Option.getD_some]
  exact List.getLast_mem hne

theorem lastKey_ne_nil {es : List (Str × Str)} (hne : es ≠ [])
    (hwf : ∀ e ∈ es, WFkey e.1 ∧ WFval e.1 e.2) :
    (es.map Prod.fst).getLastD [] ≠ [] := by
  have hmne : es.map Prod.fst ≠ [] := by
    intro hc
    exact hne (List.map_eq_nil_iff.mp hc)
  have hmem := getLastD_mem hmne []
  obtain ⟨e, he, heq⟩ := List.mem_map.mp hmem
  rw [← heq]
  exact (hwf e he).1.1

theorem readLine_fold_section (D : List (Str × List Str))
    (S : List (Str × List (Str × List Str))) (n : Str) (es : List (Str × Str))
    (c0 : Cur) (sn0 o0 : Str) (i0 : Nat) (AS : List Str) (AO : List (Str × Str))
    (hne : n ≠ []) (hnd : n ≠ "DEFAULT".toList) (hnS : n ∉ S.map Prod.fst)
    (hWF : WFentries es) (hAO : ∀ k, (n, k) ∉ AO) :
    (sectionLines n es).foldlM readLine
      (⟨D, S, c0, sn0, o0, i0, AS, AO, false⟩ : RS) =
    .ok (⟨D, S ++ [(n, appendBlankLast (es.map (fun e => (e.1, splitNl e.2))))],
         .sect n, n, (es.map Prod.fst).getLastD [], 0, AS ++ [n],
         AO ++ es.map (fun e => (n, e.1)), false⟩ : RS) := by
  have hstep : readLine (⟨D, S, c0, sn0, o0, i0, AS, AO, false⟩ : RS)
      ('[' :: (n ++ [']'])) =
      .ok (⟨D, S ++ [(n, [])], Cur.sect n, n, [], 0, AS ++ [n], AO, false⟩ : RS) :=
    readLine_header _ n hne hnS hnd
  rw [sectionLines, List.foldlM_cons, hstep, exceptOk_bind, List.foldlM_append]
  have hentries := readLine_fold_entries D S n [] es [] (AS ++ [n]) AO hWF hnS
    (fun e _ => by simp) (fun e he => hAO e.1)
  simp only [List.nil_append] at hentries
  rw [hentries, exceptOk_bind]
  by_cases hes : es = []
  · subst hes
    rw [List.foldlM_cons,
      readLine_blank_noopt _ (Or.inl rfl), exceptOk_bind, List.foldlM_nil]
    rfl
  · have hopt : ((⟨D, S ++ [(n, es.map (fun e => (e.1, splitNl e.2)))], .sect n, n,
        (es.map Prod.fst).getLastD [], 0, AS ++ [n],
        AO ++ es.map (fun e => (n, e.1)), false⟩ : RS)).optname ≠ [] :=
      lastKey_ne_nil hes hWF.2
    rw [List.foldlM_cons,
      readLine_blank _ (fun h => Cur.noConfusion h) hopt, exceptOk_bind, List.foldlM_nil]
    have hca : ((⟨D, S ++ [(n, es.map (fun e => (e.1, splitNl e.2)))], .sect n, n,
        (es.map Prod.fst).getLastD [], 0, AS ++ [n],
        AO ++ es.map (fun e => (n, e.1)), false⟩ : RS)).curAppend [] =
        (⟨D, S ++ [(n, appendBlankLast (es.map (fun e => (e.1, splitNl e.2))))],
         .sect n, n, (es.map Prod.fst).getLastD [], 0, AS ++ [n],
         AO ++ es.map (fun e => (n, e.1)), false⟩ : RS) := by
      rw [RS.curAppend]
      simp only []
      rw [map_upd_last S n (es.map (fun e => (e.1, splitNl e.2)))
        (fun x => dAppend x ((es.map Prod.fst).getLastD []) []) hnS]
      have hdne : es.map (fun e => (e.1, splitNl e.2)) ≠ [] := by
        intro hc
        exact hes (List.map_eq_nil_iff.mp hc)
      have hdnd : ((es.map (fun e => (e.1, splitNl e.2))).map Prod.fst).Nodup := by
        rw [map_fst_map_split]
        exact hWF.1
      have := dAppend_getLast hdne hdnd []
      rw [map_fst_map_split] at this
      rw [this]
    rw [hca]
    rfl

theorem readLine_fold_section_dflt (es : List (Str × Str)) (hWF : WFentries es) :
    (sectionLines "DEFAULT".toList es).foldlM readLine RS.init =
    .ok (⟨appendBlankLast (es.map (fun e => (e.1, splitNl e.2))), [], .dflt,
         "DEFAULT".toList, (es.map Prod.fst).getLastD [], 0, [],
         es.map (fun e => ("DEFAULT".toList, e.1)), false⟩ : RS) := by
  have hstep : readLine RS.init ('[' :: ("DEFAULT".toList ++ [']'])) =
      .ok (⟨[], [], Cur.dflt, "DEFAULT".toList, [], 0, [], [], false⟩ : RS) :=
    readLine_header_dflt _ (by simp [RS.init])
  rw [sectionLines, List.foldlM_cons]
  rw [show RS.init = (⟨[], [], Cur.nothing, [], [], 0, [], [], false⟩ : RS) from rfl] at hstep ⊢
  rw [hstep, exceptOk_bind, List.foldlM_append]
  have hentries := readLine_fold_entries_dflt [] [] es [] [] [] hWF
    (fun e _ => by simp) (fun e _ => by simp)
  simp only [List.nil_append] at hentries
  rw [hentries, exceptOk_bind]
  by_cases hes : es = []
  · subst hes
    rw [List.foldlM_cons,
      readLine_blank_noopt _ (Or.inl rfl), exceptOk_bind, List.foldlM_nil]
    rfl
  · have hopt : ((⟨es.map (fun e => (e.1, splitNl e.2)), [], .dflt, "DEFAULT".toList,
        (es.map Prod.fst).getLastD [], 0, [],
        es.map (fun e => ("DEFAULT".toList, e.1)), false⟩ : RS)).optname ≠ [] :=
      lastKey_ne_nil hes hWF.2
    rw [List.foldlM_cons,
      readLine_blank _ (fun h => Cur.noConfusion h) hopt, exceptOk_bind, List.foldlM_nil]
    have hca : ((⟨es.map (fun e => (e.1, splitNl e.2)), [], .dflt, "DEFAULT".toList,
        (es.map Prod.fst).getLastD [], 0, [],
        es.map (fun e => ("DEFAULT".toList, e.1)), false⟩ : RS)).curAppend [] =
        (⟨appendBlankLast (es.map (fun e => (e.1, splitNl e.2))), [], .dflt,
         "DEFAULT".toList, (es.map Prod.fst).getLastD [], 0, [],
         es.map (fun e => ("DEFAULT".toList, e.1)), false⟩ : RS) := by
      rw [RS.curAppend]
      simp only []
      have hdne : es.map (fun e => (e.1, splitNl e.2)) ≠ [] := by
        intro hc
        exact hes (List.map_eq_nil_iff.mp hc)
      have hdnd : ((es.map (fun e => (e.1, splitNl e.2))).map Prod.fst).Nodup := by
        rw [map_fst_map_split]
        exact hWF.1
      have := dAppend_getLast hdne hdnd []
      rw [map_fst_map_split] at this
      rw [this]
    rw [hca]
    rfl

theorem readLine_fold_sections (D : List (Str × List Str))
    (S : List (Str × List (Str × List Str))) (ss : List (Str × List (Str × Str)))
    (c0 : Cur) (sn0 o0 : Str) (i0 : Nat) (AS : List Str) (AO : List (Str × Str))
    (hWF : ∀ s ∈ ss, s.1 ≠ [] ∧ s.1 ≠ "DEFAULT".toList ∧ WFentries s.2)
    (hnd : (ss.map Prod.fst).Nodup)
    (hdisj : ∀ s ∈ ss, s.1 ∉ S.map Prod.fst)
    (hAO : ∀ s ∈ ss, ∀ k, (s.1, k) ∉ AO) :
    ∃ (c : Cur) (sn o : Str) (i : Nat) (AS2 : List Str) (AO2 : List (Str × Str)),
    ((ss.map (fun s => sectionLines s.1 s.2)).flatten).foldlM readLine
      (⟨D, S, c0, sn0, o0, i0, AS, AO, false⟩ : RS) =
    .ok (⟨D, S ++ ss.map (fun s =>
           (s.1, appendBlankLast (s.2.map (fun e => (e.1, splitNl e.2))))),
         c, sn, o, i, AS2, AO2, false⟩ : RS) ∧
    (∀ p ∈ AO2, p ∈ AO ∨ p.1 ∈ ss.map Prod.fst) := by
  induction ss generalizing S c0 sn0 o0 i0 AS AO with
  | nil =>
      refine ⟨c0, sn0, o0, i0, AS, AO, ?_, fun p hp => Or.inl hp⟩
      simp only [List.map_nil, List.flatten_nil, List.foldlM_nil, List.append_nil]
      rfl
  | cons s ss ih =>
      obtain ⟨n, es⟩ := s
      simp only [List.map_cons, List.flatten_cons]
      rw [List.foldlM_append]
      have hsec := readLine_fold_section D S n es c0 sn0 o0 i0 AS AO
        (hWF (n, es) (by simp)).1 (hWF (n, es) (by simp)).2.1 (hdisj (n, es) (by simp))
        (hWF (n, es) (by simp)).2.2 (fun k => hAO (n, es) (by simp) k)
      rw [hsec, exceptOk_bind]
      have hknotss : n ∉ ss.map Prod.fst := by
        rw [List.map_cons] at hnd
        exact (List.nodup_cons.mp hnd).1
      have hWF2 : ∀ s2 ∈ ss, s2.1 ≠ [] ∧ s2.1 ≠ "DEFAULT".toList ∧ WFentries s2.2 :=
        fun s2 h2 => hWF s2 (by simp [h2])
      have hnd2 : (ss.map Prod.fst).Nodup := by
        rw [List.map_cons] at hnd
        exact (List.nodup_cons.mp hnd).2
      have hdisj2 : ∀ s2 ∈ ss, s2.1 ∉
          (S ++ [(n, appendBlankLast (es.map (fun e => (e.1, splitNl e.2))))]).map
            Prod.fst := by
        intro s2 h2
        simp only [List.map_append, List.map_cons, List.map_nil, List.mem_append,
          List.mem_cons, List.not_mem_nil, or_false, not_or]
        refine ⟨hdisj s2 (by simp [h2]), fun hc => hknotss ?_⟩
        rw [← hc]
        exact List.mem_map_of_mem Prod.fst h2
      have hAO2 : ∀ s2 ∈ ss, ∀ k, (s2.1, k) ∉ AO ++ es.map (fun e => (n, e.1)) := by
        intro s2 h2 k
        simp only [List.mem_append, not_or]
        refine ⟨hAO s2 (by simp [h2]) k, fun hc => hknotss ?_⟩
        obtain ⟨e, he, heq⟩ := List.mem_map.mp hc
        have hs2 : s2.1 = n := ((Prod.mk.injEq _ _ _ _).mp heq).1.symm
        exact hs2 ▸ List.mem_map_of_mem Prod.fst h2
      obtain ⟨c, sn, o, i, AS2, AO2, hfold, hmem⟩ :=
        ih (S ++ [(n, appendBlankLast (es.map (fun e => (e.1, splitNl e.2))))])
          (Cur.sect n) n ((es.map Prod.fst).getLastD []) 0 (AS ++ [n])
          (AO ++ es.map (fun e => (n, e.1))) hWF2 hnd2 hdisj2 hAO2
      refine ⟨c, sn, o, i, AS2, AO2, ?_, ?_⟩
      · rw [hfold]
        simp [List.append_assoc]
      · intro p hp
        rcases hmem p hp with hin | hin
        · rcases List.mem_append.mp hin with h1 | h1
          · exact Or.inl h1
          · obtain ⟨e, he, heq⟩ := List.mem_map.mp h1
            refine Or.inr ?_
            rw [← heq]
            simp
        · refine Or.inr ?_
          simp [hin]

theorem appendBlankLast_join (es : List (Str × Str))
    (hwf : ∀ e ∈ es, rstrip e.2 = e.2) :
    (appendBlankLast (es.map (fun e => (e.1, splitNl e.2)))).map
      (fun e => (e.1, joinPieces e.2)) = es := by
  induction es with
  | nil => rfl
  | cons e rest ih =>
      cases hr : rest with
      | nil =>
          simp only [hr, List.map_cons, List.map_nil]
          rw [appendBlankLast, if_pos rfl, List.map_cons, List.map_nil]
          rw [joinPieces_concat_empty (splitNl_ne_nil e.2),
            joinPieces_splitNl (hwf e (by simp))]
      | cons e2 rest2 =>
          rw [← hr]
          have hrne : rest.map (fun e => (e.1, splitNl e.2)) ≠ [] := by
            rw [hr]; simp
          rw [List.map_cons, appendBlankLast, if_neg hrne, List.map_cons]
          rw [joinPieces_splitNl (hwf e (by simp))]
          rw [ih (fun e2 h2 => hwf e2 (by simp [h2]))]

theorem headD_mem_splitNl (v : Str) : (splitNl v).headD [] ∈ splitNl v := by
  cases hsp : splitNl v with
  | nil => exact absurd hsp (splitNl_ne_nil v)
  | cons q qs => simp

theorem entryLines_no_nl {k v : Str} (hk : ∀ c ∈ k, c ≠ '\n') :
    ∀ l ∈ entryLines (k, v), '\n' ∉ l := by
  intro l hl
  rw [entryLines] at hl
  rcases List.mem_cons.mp hl with h1 | h1
  · subst h1
    intro hc
    rcases List.mem_append.mp hc with h2 | h2
    · exact hk _ h2 rfl
    · rcases List.mem_cons.mp h2 with h3 | h3
      · exact absurd h3 (by decide)
      · exact splitNl_no_nl (headD_mem_splitNl v) h3
  · obtain ⟨q, hq, heq⟩ := List.mem_map.mp h1
    subst heq
    intro hc
    rcases List.mem_cons.mp hc with h3 | h3
    · exact absurd h3 (by decide)
    · exact splitNl_no_nl (List.mem_of_mem_tail hq) h3

theorem sectionLines_no_nl {n : Str} {es : List (Str × Str)} (hn : '\n' ∉ n)
    (hes : ∀ e ∈ es, ∀ c ∈ e.1, c ≠ '\n') :
    ∀ l ∈ sectionLines n es, '\n' ∉ l := by
  intro l hl
  rw [sectionLines] at hl
  rcases List.mem_cons.mp hl with h1 | h1
  · subst h1
    intro hc
    rcases List.mem_cons.mp hc with h2 | h2
    · exact absurd h2 (by decide)
    · rcases List.mem_append.mp h2 with h3 | h3
      · exact hn h3
      · rcases List.mem_cons.mp h3 with h4 | h4
        · exact absurd h4 (by decide)
        · exact absurd h4 (List.not_mem_nil _)
  · rcases List.mem_append.mp h1 with h2 | h2
    · obtain ⟨el, hel, hlin⟩ := List.mem_flatten.mp h2
      obtain ⟨e, he, heq⟩ := List.mem_map.mp hel
      subst heq
      obtain ⟨k2, v2⟩ := e
      exact entryLines_no_nl (hes (k2, v2) he) l hlin
    · rcases List.mem_cons.mp h2 with h3 | h3
      · subst h3
        exact List.not_mem_nil _
      · exact absurd h3 (List.not_mem_nil _)

theorem saveLines_no_nl {cp : CP} (h : WFcp cp) : ∀ l ∈ saveLines cp, '\n' ∉ l := by
  obtain ⟨hnd, hsects, hdflt⟩ := h
  intro l hl
  rw [saveLines] at hl
  rcases List.mem_append.mp hl with h1 | h1
  · by_cases hd : cp.defaults = []
    · rw [if_pos hd] at h1
      exact absurd h1 (List.not_mem_nil _)
    · rw [if_neg hd] at h1
      refine sectionLines_no_nl (by decide) ?_ l h1
      intro e he c hc
      exact ((hdflt.2 e he).1.2.2.2 c hc).1
  · obtain ⟨el, hel, hlin⟩ := List.mem_flatten.mp h1
    obtain ⟨s, hs, heq⟩ := List.mem_map.mp hel
    subst heq
    refine sectionLines_no_nl (hsects s hs).2.1 ?_ l hlin
    intro e he c hc
    exact (((hsects s hs).2.2.2.2 e he).1.2.2.2 c hc).1

theorem sects_join_back (ss : List (Str × List (Str × Str)))
    (h : ∀ s ∈ ss, ∀ e ∈ s.2, rstrip e.2 = e.2) :
    (ss.map (fun s =>
       (s.1, appendBlankLast (s.2.map (fun e => (e.1, splitNl e.2)))))).map
      (fun s => (s.1, s.2.map (fun e => (e.1, joinPieces e.2)))) = ss := by
  induction ss with
  | nil => rfl
  | cons s rest ih =>
      simp only [List.map_cons]
      rw [appendBlankLast_join s.2 (fun e he => h s (by simp) e he)]
      rw [ih (fun s2 h2 e he => h s2 (by simp [h2]) e he)]

theorem loadCfg_save (cp : CP) (h : WFcp cp) :
    loadCfg (QBittorrentConfig.save cp) = .ok cp := by
  obtain ⟨df, ss⟩ := cp
  obtain ⟨hnd, hsects, hdflt⟩ := h
  have hWFss : ∀ s ∈ ss, s.1 ≠ [] ∧ s.1 ≠ "DEFAULT".toList ∧ WFentries s.2 :=
    fun s hs => ⟨(hsects s hs).1, (hsects s hs).2.2.1, (hsects s hs).2.2.2⟩
  have hrstr : ∀ s ∈ ss, ∀ e ∈ s.2, rstrip e.2 = e.2 :=
    fun s hs e he => (((hsects s hs).2.2.2).2 e he).2.1
  have hlines : fileLines (QBittorrentConfig.save ⟨df, ss⟩) = saveLines ⟨df, ss⟩ := by
    rw [save_eq_lines]
    exact fileLines_flatten (saveLines_no_nl ⟨hnd, hsects, hdflt⟩)
  show (readLines (fileLines (QBittorrentConfig.save ⟨df, ss⟩)) >>=
    fun rs => finishRead rs) = .ok ⟨df, ss⟩
  rw [hlines, readLines, saveLines]
  by_cases hd : df = []
  · subst hd
    rw [show (if ({ defaults := [], sections := ss } : CP).defaults = [] then ([] : List Str)
      else sectionLines "DEFAULT".toList ({ defaults := [], sections := ss } : CP).defaults)
        = [] from rfl]
    rw [List.nil_append]
    obtain ⟨c, sn, o, i, AS2, AO2, hfold, _⟩ :=
      readLine_fold_sections [] [] ss Cur.nothing [] [] 0 [] [] hWFss hnd
        (fun s _ => by simp) (fun s _ k => by simp)
    rw [show RS.init = (⟨[], [], Cur.nothing, [], [], 0, [], [], false⟩ : RS) from rfl]
    rw [show ({ defaults := [], sections := ss } : CP).sections = ss from rfl]
    rw [hfold, exceptOk_bind, finishRead]
    simp only [Bool.false_eq_true, if_false, List.map_nil, List.nil_append]
    rw [sects_join_back ss hrstr]
    rfl
  · rw [show (if ({ defaults := df, sections := ss } : CP).defaults = [] then ([] : List Str)
      else sectionLines "DEFAULT".toList ({ defaults := df, sections := ss } : CP).defaults)
        = sectionLines "DEFAULT".toList df from by
        rw [if_neg hd]]
    rw [List.foldlM_append, readLine_fold_section_dflt df hdflt, exceptOk_bind]
    have hAO0 : ∀ s ∈ ss, ∀ k,
        (s.1, k) ∉ df.map (fun e => ("DEFAULT".toList, e.1)) := by
      intro s hs k hc
      obtain ⟨e, he, heq⟩ := List.mem_map.mp hc
      have : s.1 = "DEFAULT".toList := (((Prod.mk.injEq _ _ _ _).mp heq).1).symm
      exact (hWFss s hs).2.1 this
    obtain ⟨c, sn, o, i, AS2, AO2, hfold, _⟩ :=
      readLine_fold_sections (appendBlankLast (df.map (fun e => (e.1, splitNl e.2))))
        [] ss Cur.dflt "DEFAULT".toList ((df.map Prod.fst).getLastD []) 0 []
        (df.map (fun e => ("DEFAULT".toList, e.1))) hWFss hnd
        (fun s _ => by simp) hAO0
    rw [show ({ defaults := df, sections := ss } : CP).sections = ss from rfl]
    rw [hfold, exceptOk_bind, finishRead]
    simp only [Bool.false_eq_true, if_false, List.nil_append]
    rw [sects_join_back ss hrstr,
      appendBlankLast_join df (fun e he => ((hdflt.2 e he).2).1)]
    rfl

theorem mem_of_mem_rstrip {l : Str} {c : Char} (h : c ∈ rstrip l) : c ∈ l :=
  (rstrip_isPrefix l).sublist.mem h

theorem mem_of_mem_lstrip {l : Str} {c : Char} (h : c ∈ lstrip l) : c ∈ l :=
  (List.dropWhile_sublist _).mem h

theorem mem_of_mem_pstrip {l : Str} {c : Char} (h : c ∈ pstrip l) : c ∈ l :=
  mem_of_mem_lstrip (mem_of_mem_rstrip h)

theorem rstrip_cons_not_space {b : Char} (l : Str) (hb : pyIsSpace b = false) :
    rstrip (b :: l) = b :: rstrip l := by
  rw [rstrip, rstrip, List.reverse_cons]
  cases hd : l.reverse.dropWhile pyIsSpace with
  | nil =>
      rw [List.dropWhile_append]
      simp only [hd]
      simp [List.dropWhile_cons, hb]
  | cons x xs =>
      rw [List.dropWhile_append]
      simp only [hd]
      simp

theorem beforeLast_none {l : Str} {c : Char} (h : c ∉ l) : beforeLast l c = none := by
  rw [beforeLast, if_neg]
  intro hc
  exact h (List.mem_of_elem_eq_true hc)

theorem beforeLast_cons_self {w : Str} {c : Char} (h : c ∉ w) :
    beforeLast (c :: w) c = some [] := by
  rw [beforeLast, if_pos]
  · rw [List.reverse_cons, dropWhile_append_all [c]
      (fun x hx => by
        have hxw : x ∈ w := List.mem_reverse.mp hx
        have hxc : x ≠ c := fun he => h (he ▸ hxw)
        simp [hxc])]
    rw [List.dropWhile_cons]
    simp
  · exact List.elem_eq_true_of_mem (by simp)

theorem beforeLast_eq_some_nil {l : Str} {c : Char}
    (h : beforeLast l c = some []) : ∃ w, l = c :: w ∧ c ∉ w := by
  rw [beforeLast] at h
  by_cases hc : l.contains c = true
  · rw [if_pos hc] at h
    have htl : (l.reverse.dropWhile (fun x => !(x == c))).tail.reverse = [] :=
      Option.some.inj h
    have hcm : c ∈ l.reverse := List.mem_reverse.mpr (List.mem_of_elem_eq_true hc)
    cases hvd : l.reverse.dropWhile (fun x => !(x == c)) with
    | nil =>
        rw [List.dropWhile_eq_nil_iff] at hvd
        have := hvd c hcm
        simp at this
    | cons h0 v2 =>
        have hh0 : (!(h0 == c)) = false :=
          dropWhile_head_false (p := fun x => !(x == c)) hvd
        have hh0c : h0 = c := by simpa using hh0
        rw [hvd, List.tail_cons] at htl
        have hv2 : v2 = [] := by simpa using htl
        have hdec := List.takeWhile_append_dropWhile (p := fun x => !(x == c))
          (l := l.reverse)
        rw [hvd, hv2, hh0c] at hdec
        refine ⟨(l.reverse.takeWhile (fun x => !(x == c))).reverse, ?_, ?_⟩
        · have h2 := congrArg List.reverse hdec
          rw [List.reverse_append, List.reverse_reverse] at h2
          simpa using h2.symm
        · intro hmem
          have := List.mem_takeWhile_imp (List.mem_reverse.mp hmem)
          simp at this
  · rw [if_neg hc] at h
    exact absurd h (by simp)

theorem beforeLast_eq_none {l : Str} {c : Char} (h : beforeLast l c = none) : c ∉ l := by
  intro hm
  rw [beforeLast, if_pos (List.elem_eq_true_of_mem hm)] at h
  exact absurd h (by simp)

theorem optMatch_some_elim {value k q0 : Str}
    (hom : optMatch value = some (k, q0)) :
    ∃ d rest, value.dropWhile (fun c => !(c == '=' || c == ':')) = d :: rest ∧
      k = rstrip (value.takeWhile (fun c => !(c == '=' || c == ':'))) ∧
      q0 = pstrip rest := by
  rw [optMatch] at hom
  cases hdw : value.dropWhile (fun c => !(c == '=' || c == ':')) with
  | nil => rw [hdw] at hom; exact absurd hom (by simp)
  | cons d rest =>
      rw [hdw] at hom
      simp only [Option.some.injEq, Prod.mk.injEq] at hom
      exact ⟨d, rest, rfl, hom.1.symm, hom.2.symm⟩

theorem optMatch_props {value k q0 : Str} (hps : pstrip value = value)
    (hnc : notCommentStart value = true) (hnl : '\n' ∉ value)
    (hom : optMatch value = some (k, q0)) (hkne : k ≠ []) :
    WFkey k ∧ pstrip q0 = q0 ∧ '\n' ∉ q0 := by
  obtain ⟨d, rest, hdw, hkeq, hqeq⟩ := optMatch_some_elim hom
  have hq0p : pstrip q0 = q0 := by rw [hqeq]; exact pstrip_idem rest
  have hq0nl : '\n' ∉ q0 := by
    intro hc
    refine hnl ?_
    have h1 : '\n' ∈ rest := mem_of_mem_pstrip (hqeq ▸ hc)
    have h2 : '\n' ∈ value.dropWhile (fun c => !(c == '=' || c == ':')) := by
      rw [hdw]; simp [h1]
    exact (List.dropWhile_sublist _).mem h2
  have hksub : ∀ c ∈ k, c ∈ value.takeWhile (fun c => !(c == '=' || c == ':')) := by
    intro c hc
    exact mem_of_mem_rstrip (hkeq ▸ hc)
  have hkdelim : ∀ c ∈ k, c ≠ '\n' ∧ c ≠ '=' ∧ c ≠ ':' := by
    intro c hc
    have htw := hksub c hc
    have hp := List.mem_takeWhile_imp htw
    have hcv : c ∈ value := (List.takeWhile_sublist _).mem htw
    refine ⟨fun hce => hnl (hce ▸ hcv), ?_, ?_⟩
    · intro hce; rw [hce] at hp; simp at hp
    · intro hce; rw [hce] at hp; simp at hp
  cases hv : value with
  | nil =>
      rw [hv] at hdw
      simp at hdw
  | cons c0 t =>
      have hc0s : pyIsSpace c0 = false := by
        have hls := (pstrip_eq_self_split hps).1
        rw [hv] at hls
        exact head_not_space_of_lstrip hls
      have hp0 : (fun c => !(c == '=' || c == ':')) c0 = true := by
        by_contra hp
        rw [hv, List.takeWhile_cons] at hkeq
        simp only [Bool.not_eq_true] at hp
        rw [hp] at hkeq
        simp only [Bool.false_eq_true, if_false] at hkeq
        exact hkne (by rw [hkeq]; rfl)
      have hk : k = c0 :: rstrip (t.takeWhile (fun c => !(c == '=' || c == ':'))) := by
        rw [hkeq, hv, List.takeWhile_cons, if_pos hp0, rstrip_cons_not_space _ hc0s]
      have hkps : pstrip k = k := by
        rw [hk, pstrip, lstrip_cons_of_not_space _ hc0s, ← hk, hkeq, rstrip_idem]
      have hknc : notCommentStart k = true := by
        rw [hk, notCommentStart]
        rw [hv, notCommentStart] at hnc
        exact hnc
      exact ⟨⟨hkne, hkps, hknc, hkdelim⟩, hq0p, hq0nl⟩

theorem sectMatch_reconstruct {value k q0 : Str} (hsm : sectMatch value = none)
    (hom : optMatch value = some (k, q0)) (hkne : k ≠ [])
    (hps : pstrip value = value) :
    sectMatch (k ++ '=' :: q0) = none := by
  obtain ⟨d, rest, hdw, hkeq, hqeq⟩ := optMatch_some_elim hom
  cases hv : value with
  | nil =>
      rw [hv] at hdw
      simp at hdw
  | cons c0 t =>
      have hc0s : pyIsSpace c0 = false := by
        have hls := (pstrip_eq_self_split hps).1
        rw [hv] at hls
        exact head_not_space_of_lstrip hls
      have hp0 : (fun c => !(c == '=' || c == ':')) c0 = true := by
        by_contra hp
        rw [hv, List.takeWhile_cons] at hkeq
        simp only [Bool.not_eq_true] at hp
        rw [hp] at hkeq
        simp only [Bool.false_eq_true, if_false] at hkeq
        exact hkne (by rw [hkeq]; rfl)
      have hk : k = c0 :: rstrip (t.takeWhile (fun c => !(c == '=' || c == ':'))) := by
        rw [hkeq, hv, List.takeWhile_cons, if_pos hp0, rstrip_cons_not_space _ hc0s]
      by_cases hc0 : c0 = '['
      · subst hc0
        rw [hv, sectMatch] at hsm
        rw [if_pos rfl] at hsm
        cases hbl : beforeLast t ']' with
        | none =>
            have hnt : ']' ∉ t := beforeLast_eq_none hbl
            have hnk2 : ']' ∉ rstrip (t.takeWhile (fun c => !(c == '=' || c == ':'))) := by
              intro hm
              exact hnt ((List.takeWhile_sublist _).mem (mem_of_mem_rstrip hm))
            have hnq0 : ']' ∉ q0 := by
              intro hm
              have h1 : ']' ∈ rest := mem_of_mem_pstrip (hqeq ▸ hm)
              have h2 : ']' ∈ value.dropWhile (fun c => !(c == '=' || c == ':')) := by
                rw [hdw]; simp [h1]
              have h3 : ']' ∈ value := (List.dropWhile_sublist _).mem h2
              rw [hv] at h3
              rcases List.mem_cons.mp h3 with h4 | h4
              · exact absurd h4 (by decide)
              · exact hnt h4
            rw [hk, List.cons_append, sectMatch, if_pos rfl]
            rw [beforeLast_none (fun hm => by
              rcases List.mem_append.mp hm with h4 | h4
              · exact hnk2 h4
              · rcases List.mem_cons.mp h4 with h5 | h5
                · exact absurd h5 (by decide)
                · exact hnq0 h5)]
        | some pre =>
            rw [hbl] at hsm
            have hpre : pre = [] := by
              cases pre with
              | nil => rfl
              | cons a b => exact absurd hsm (by simp)
            subst hpre
            obtain ⟨w, hw, hnw⟩ := beforeLast_eq_some_nil hbl
            subst hw
            have hpbr : (fun c => !(c == '=' || c == ':')) ']' = true := by decide
            have hk2 : k = '[' :: ']' :: rstrip
                (w.takeWhile (fun c => !(c == '=' || c == ':'))) := by
              rw [hk, List.takeWhile_cons, if_pos hpbr,
                rstrip_cons_not_space _ (by decide)]
            have hnk2 : ']' ∉ rstrip (w.takeWhile (fun c => !(c == '=' || c == ':'))) := by
              intro hm
              exact hnw ((List.takeWhile_sublist _).mem (mem_of_mem_rstrip hm))
            have hnq0 : ']' ∉ q0 := by
              intro hm
              have h1 : ']' ∈ rest := mem_of_mem_pstrip (hqeq ▸ hm)
              have h2 : ']' ∈ value.dropWhile (fun c => !(c == '=' || c == ':')) := by
                rw [hdw]; simp [h1]
              rw [hv, List.dropWhile_cons] at h2
              rw [if_pos (by decide)] at h2
              rw [List.dropWhile_cons, if_pos hpbr] at h2
              exact hnw ((List.dropWhile_sublist _).mem h2)
            rw [hk2, List.cons_append, List.cons_append, sectMatch, if_pos rfl]
            rw [beforeLast_cons_self (fun hm => by
              rcases List.mem_append.mp hm with h4 | h4
              · exact hnk2 h4
              · rcases List.mem_cons.mp h4 with h5 | h5
                · exact absurd h5 (by decide)
                · exact hnq0 h5)]
            simp
      · rw [hk, List.cons_append, sectMatch, if_neg hc0]

theorem map_fst_if {α : Type} (S : List (Str × α)) (f : Str × α → Str × α)
    (hf : ∀ p, (f p).1 = p.1) : (S.map f).map Prod.fst = S.map Prod.fst := by
  induction S with
  | nil => rfl
  | cons e rest ih =>
      simp only [List.map_cons, ih, hf e]

theorem tail_append_single {α : Type} {ps : List α} (q : α) (h : ps ≠ []) :
    (ps ++ [q]).tail = ps.tail ++ [q] := by
  cases ps with
  | nil => exact absurd rfl h
  | cons a b => rfl

theorem headD_append_single {α : Type} {ps : List α} (q d : α) (h : ps ≠ []) :
    (ps ++ [q]).headD d = ps.headD d := by
  cases ps with
  | nil => exact absurd rfl h
  | cons a b => rfl

theorem dAppend_map_fst (d : List (Str × List Str)) (k q : Str) :
    (dAppend d k q).map Prod.fst = d.map Prod.fst := by
  rw [dAppend]
  refine map_fst_if d _ ?_
  intro p
  by_cases hp : p.1 = k
  · rw [if_pos hp]
  · rw [if_neg hp]

theorem DictOK_dAppend {d : List (Str × List Str)} {k q : Str} (hd : DictOK d)
    (hq : pstrip q = q) (hnl : '\n' ∉ q) (hnc : notCommentStart q = true) :
    DictOK (dAppend d k q) := by
  obtain ⟨hnd, hent⟩ := hd
  refine ⟨?_, ?_⟩
  · rw [dAppend_map_fst]
    exact hnd
  · intro e2 he2
    rw [dAppend] at he2
    obtain ⟨e, he, heq⟩ := List.mem_map.mp he2
    by_cases hek : e.1 = k
    · rw [if_pos hek] at heq
      have hwk := (hent e he).1
      have hne := (hent e he).2.1
      have hmem := (hent e he).2.2.1
      have htl := (hent e he).2.2.2.1
      have hhd := (hent e he).2.2.2.2
      rw [← heq]
      refine ⟨hwk, ?_, ?_, ?_, ?_⟩
      · simp [hne]
      · intro q2 hq2
        rcases List.mem_append.mp hq2 with h1 | h1
        · exact hmem q2 h1
        · rcases List.mem_cons.mp h1 with h2 | h2
          · subst h2; exact ⟨hq, hnl⟩
          · exact absurd h2 (List.not_mem_nil _)
      · rw [tail_append_single q hne]
        intro q2 hq2
        rcases List.mem_append.mp hq2 with h1 | h1
        · exact htl q2 h1
        · rcases List.mem_cons.mp h1 with h2 | h2
          · subst h2; exact hnc
          · exact absurd h2 (List.not_mem_nil _)
      · rw [headD_append_single q [] hne]
        exact hhd
    · rw [if_neg hek] at heq
      rw [← heq]
      exact hent e he

theorem DictOK_dSet_fresh {d : List (Str × List Str)} {k : Str} {ps : List Str}
    (hd : DictOK d) (hk : WFkey k) (hps : PiecesOK k ps)
    (hmem : k ∉ d.map Prod.fst) : DictOK (dSet d k ps) := by
  obtain ⟨hnd, hent⟩ := hd
  rw [dSet_not_mem ps hmem]
  refine ⟨?_, ?_⟩
  · rw [List.map_append]
    simp only [List.map_cons, List.map_nil]
    rw [List.nodup_append]
    refine ⟨hnd, List.nodup_singleton _, ?_⟩
    intro a ha hb
    rcases List.mem_cons.mp hb with h1 | h1
    · subst h1; exact hmem ha
    · exact absurd h1 (List.not_mem_nil _)
  · intro e he
    rcases List.mem_append.mp he with h1 | h1
    · exact hent e h1
    · rcases List.mem_cons.mp h1 with h2 | h2
      · subst h2; exact ⟨hk, hps⟩
      · exact absurd h2 (List.not_mem_nil _)

theorem exceptOk_inj {ε α : Type} {a b : α} (h : (pure a : Except ε α) = .ok b) :
    a = b := Except.ok.inj h

theorem dAppend_mem_fst {d : List (Str × List Str)} {k q : Str} {e2 : Str × List Str}
    (h : e2 ∈ dAppend d k q) : ∃ e ∈ d, e2.1 = e.1 := by
  rw [dAppend] at h
  obtain ⟨e, he, heq⟩ := List.mem_map.mp h
  refine ⟨e, he, ?_⟩
  by_cases hek : e.1 = k
  · rw [if_pos hek] at heq
    rw [← heq]
  · rw [if_neg hek] at heq
    rw [← heq]

theorem RInv_curAppend {rs : RS} (hinv : RInv rs) {q : Str}
    (hq : pstrip q = q) (hnl : '\n' ∉ q) (hnc : notCommentStart q = true) :
    RInv (rs.curAppend q) := by
  obtain ⟨h1, h2, h3, h4, h5, h6, h7⟩ := hinv
  rw [RS.curAppend]
  cases hc : rs.cur with
  | nothing => exact ⟨h1, h2, h3, h4, h5, h6, h7⟩
  | dflt =>
      refine ⟨h1, h2, fun _ => h3 hc, fun n hn => h4 n (hc ▸ hn), ?_, h6, ?_⟩
      · intro e2 he2
        obtain ⟨e, he, heq⟩ := dAppend_mem_fst he2
        rw [heq]
        exact h5 e he
      · intro herr
        exact ⟨DictOK_dAppend (h7 herr).1 hq hnl hnc, (h7 herr).2⟩
  | sect n =>
      have hfst : ((rs.sects.map (fun p => if p.1 = n
          then (p.1, dAppend p.2 rs.optname q) else p)).map Prod.fst) =
          rs.sects.map Prod.fst :=
        map_fst_if rs.sects _ (fun p => by
          by_cases hp : p.1 = n
          · rw [if_pos hp]
          · rw [if_neg hp])
      refine ⟨?_, ?_, fun hd => h3 (hc ▸ hd), ?_, h5, ?_, ?_⟩
      · rw [hfst]; exact h1
      · intro s2 hs2
        obtain ⟨s, hs, heq⟩ := List.mem_map.mp hs2
        by_cases hsn : s.1 = n
        · rw [if_pos hsn] at heq
          rw [← heq]
          exact h2 s hs
        · rw [if_neg hsn] at heq
          rw [← heq]
          exact h2 s hs
      · intro n2 hn2
        have := h4 n2 (hc ▸ hn2)
        rw [hfst]
        exact this
      · intro s2 hs2 e2 he2
        obtain ⟨s, hs, heq⟩ := List.mem_map.mp hs2
        by_cases hsn : s.1 = n
        · rw [if_pos hsn] at heq
          rw [← heq] at he2
          obtain ⟨e, he, heq2⟩ := dAppend_mem_fst he2
          rw [← heq, heq2]
          exact h6 s hs e he
        · rw [if_neg hsn] at heq
          rw [← heq] at he2
          rw [← heq]
          exact h6 s hs e2 he2
      · intro herr
        refine ⟨(h7 herr).1, ?_⟩
        intro s2 hs2
        obtain ⟨s, hs, heq⟩ := List.mem_map.mp hs2
        by_cases hsn : s.1 = n
        · rw [if_pos hsn] at heq
          rw [← heq]
          exact DictOK_dAppend ((h7 herr).2 s hs) hq hnl hnc
        · rw [if_neg hsn] at heq
          rw [← heq]
          exact (h7 herr).2 s hs

theorem containsPair_eq_false_of_not_mem {l : List (Str × Str)} {s : Str × Str}
    (h : s ∉ l) : l.contains s = false := by
  cases hc : l.contains s
  · rfl
  · exact absurd (List.mem_of_elem_eq_true hc) h

theorem readLine_comment {rs : RS} {l : Str} (hcm : startsWithComment l = true) :
    readLine rs l = .ok rs := by
  rw [readLine, hcm]
  simp only [if_true, if_pos rfl]
  rw [if_neg (fun hc => hc.1 (by simp))]
  rfl

theorem readLine_blank_gen {rs : RS} {l : Str} (hcm : startsWithComment l = false)
    (hpv : pstrip l = []) :
    readLine rs l = .ok rs ∨ readLine rs l = .ok (rs.curAppend []) := by
  rw [readLine, hcm]
  simp only [Bool.false_eq_true, if_false]
  rw [hpv, if_pos rfl]
  by_cases hc : rs.cur ≠ Cur.nothing ∧ rs.optname ≠ []
  · right
    rw [if_pos ⟨fun hh => absurd hh (by simp), hc.1, hc.2⟩]
    rfl
  · left
    rw [if_neg (fun hh => hc ⟨hh.2.1, hh.2.2⟩)]
    rfl

theorem readLine_cont_gen {rs : RS} {l : Str} (hcm : startsWithComment l = false)
    (hpv : pstrip l ≠ [])
    (hcont : rs.cur ≠ Cur.nothing ∧ rs.optname ≠ [] ∧ rs.indent < indentOf l) :
    readLine rs l = .ok (rs.curAppend (pstrip l)) := by
  rw [readLine, hcm]
  simp only [Bool.false_eq_true, if_false]
  rw [if_neg hpv, if_pos hcont]
  rfl

theorem readLine_ok_header {rs rs2 : RS} {l header : Str}
    (hcm : startsWithComment l = false) (hpv : pstrip l ≠ [])
    (hncont : ¬(rs.cur ≠ Cur.nothing ∧ rs.optname ≠ [] ∧ rs.indent < indentOf l))
    (hsm : sectMatch (pstrip l) = some header)
    (h : readLine rs l = .ok rs2) :
    (header ∈ rs.sects.map Prod.fst ∧
      rs2 = { rs with
              cur := Cur.sect header
              sectname := header
              optname := []
              indent := indentOf l
              addedS := rs.addedS ++ [header] }) ∨
    (header ∉ rs.sects.map Prod.fst ∧ header = "DEFAULT".toList ∧
      rs2 = { rs with
              cur := Cur.dflt
              sectname := header
              optname := []
              indent := indentOf l }) ∨
    (header ∉ rs.sects.map Prod.fst ∧ header ≠ "DEFAULT".toList ∧
      rs2 = { rs with
              sects := rs.sects ++ [(header, [])]
              cur := Cur.sect header
              sectname := header
              optname := []
              indent := indentOf l
              addedS := rs.addedS ++ [header] }) := by
  rw [readLine, hcm] at h
  simp only [Bool.false_eq_true, if_false] at h
  rw [if_neg hpv, if_neg hncont] at h
  simp only [hsm] at h
  by_cases hmem : header ∈ rs.sects.map Prod.fst
  · rw [if_pos (List.elem_eq_true_of_mem hmem)] at h
    by_cases hadd : rs.addedS.contains header = true
    · rw [if_pos hadd] at h
      exact absurd h (by simp [throw, throwThe, MonadExceptOf.throw])
    · rw [if_neg hadd] at h
      exact Or.inl ⟨hmem, (exceptOk_inj h).symm⟩
  · rw [show (rs.sects.map Prod.fst).contains header = false from
      contains_eq_false_of_not_mem hmem] at h
    simp only [Bool.false_eq_true, if_false] at h
    by_cases hdef : header = "DEFAULT".toList
    · rw [if_pos hdef] at h
      exact Or.inr (Or.inl ⟨hmem, hdef, (exceptOk_inj h).symm⟩)
    · rw [if_neg hdef] at h
      exact Or.inr (Or.inr ⟨hmem, hdef, (exceptOk_inj h).symm⟩)

theorem readLine_ok_opt {rs rs2 : RS} {l k q0 : Str}
    (hcm : startsWithComment l = false) (hpv : pstrip l ≠ [])
    (hncont : ¬(rs.cur ≠ Cur.nothing ∧ rs.optname ≠ [] ∧ rs.indent < indentOf l))
    (hsm : sectMatch (pstrip l) = none) (hom : optMatch (pstrip l) = some (k, q0))
    (hcur : rs.cur ≠ Cur.nothing)
    (h : readLine rs l = .ok rs2) :
    (rs.sectname, k) ∉ rs.addedO ∧
    rs2 = ({ rs with
             indent := indentOf l
             err := (if k = [] then true else rs.err)
             addedO := rs.addedO ++ [(rs.sectname, k)]
             optname := k } : RS).curAssign k [q0] := by
  rw [readLine, hcm] at h
  simp only [Bool.false_eq_true, if_false] at h
  rw [if_neg hpv, if_neg hncont] at h
  simp only [hsm, hom] at h
  rw [if_neg (by simpa using hcur)] at h
  by_cases hk : k = []
  · rw [if_pos hk] at h
    by_cases hdup : (rs.sectname, k) ∈ rs.addedO
    · rw [if_pos (List.elem_eq_true_of_mem hdup)] at h
      exact absurd h (by simp [throw, throwThe, MonadExceptOf.throw])
    · rw [show (({ rs with
            indent := indentOf l
            err := true } : RS).addedO.contains
          (({ rs with
              indent := indentOf l
              err := true } : RS).sectname, k)) = false from
          containsPair_eq_false_of_not_mem hdup] at h
      simp only [Bool.false_eq_true, if_false] at h
      rw [if_pos hk]
      exact ⟨hdup, (exceptOk_inj h).symm⟩
  · rw [if_neg hk] at h
    by_cases hdup : (rs.sectname, k) ∈ rs.addedO
    · rw [if_pos (List.elem_eq_true_of_mem hdup)] at h
      exact absurd h (by simp [throw, throwThe, MonadExceptOf.throw])
    · rw [show (({ rs with
            indent := indentOf l } : RS).addedO.contains
          (({ rs with
              indent := indentOf l } : RS).sectname, k)) = false from
          containsPair_eq_false_of_not_mem hdup] at h
      simp only [Bool.false_eq_true, if_false] at h
      rw [if_neg hk]
      exact ⟨hdup, (exceptOk_inj h).symm⟩

theorem readLine_ok_nomatch {rs rs2 : RS} {l : Str}
    (hcm : startsWithComment l = false) (hpv : pstrip l ≠ [])
    (hncont : ¬(rs.cur ≠ Cur.nothing ∧ rs.optname ≠ [] ∧ rs.indent < indentOf l))
    (hsm : sectMatch (pstrip l) = none) (hom : optMatch (pstrip l) = none)
    (hcur : rs.cur ≠ Cur.nothing)
    (h : readLine rs l = .ok rs2) :
    rs2 = { rs with
            indent := indentOf l
            err := true } := by
  rw [readLine, hcm] at h
  simp only [Bool.false_eq_true, if_false] at h
  rw [if_neg hpv, if_neg hncont] at h
  simp only [hsm, hom] at h
  rw [if_neg (by simpa using hcur)] at h
  exact (exceptOk_inj h).symm

theorem readLine_nothing_throws {rs rs2 : RS} {l : Str}
    (hcm : startsWithComment l = false) (hpv : pstrip l ≠ [])
    (hncont : ¬(rs.cur ≠ Cur.nothing ∧ rs.optname ≠ [] ∧ rs.indent < indentOf l))
    (hsm : sectMatch (pstrip l) = none) (hcur : rs.cur = Cur.nothing)
    (h : readLine rs l = .ok rs2) : False := by
  rw [readLine, hcm] at h
  simp only [Bool.false_eq_true, if_false] at h
  rw [if_neg hpv, if_neg hncont] at h
  simp only [hsm] at h
  rw [if_pos (by simpa using hcur)] at h
  exact absurd h (by simp [throw, throwThe, MonadExceptOf.throw])

theorem notCommentStart_of_not_comment {l : Str} (h : startsWithComment l = false) :
    notCommentStart (pstrip l) = true := by
  rw [startsWithComment] at h
  cases hp : pstrip l with
  | nil => rfl
  | cons c t =>
      rw [hp] at h
      rw [notCommentStart]
      simpa using h

theorem dSet_mem_elim {α : Type} {d : List (Str × α)} {k : Str} {v : α}
    {e2 : Str × α} (h : e2 ∈ dSet d k v) : e2 = (k, v) ∨ e2 ∈ d := by
  induction d with
  | nil =>
      rw [dSet] at h
      rcases List.mem_cons.mp h with h1 | h1
      · exact Or.inl h1
      · exact absurd h1 (List.not_mem_nil _)
  | cons e rest ih =>
      rw [dSet] at h
      by_cases hek : e.1 = k
      · rw [if_pos hek] at h
        rcases List.mem_cons.mp h with h1 | h1
        · exact Or.inl h1
        · exact Or.inr (by simp [h1])
      · rw [if_neg hek] at h
        rcases List.mem_cons.mp h with h1 | h1
        · exact Or.inr (by simp [h1])
        · rcases ih h1 with h2 | h2
          · exact Or.inl h2
          · exact Or.inr (by simp [h2])

theorem sectMatch_some_props {l hd : Str} (hs : sectMatch l = some hd) :
    hd ≠ [] ∧ ∀ c ∈ hd, c ∈ l := by
  cases l with
  | nil => rw [sectMatch] at hs; exact absurd hs (by simp)
  | cons c0 t =>
      rw [sectMatch] at hs
      by_cases hc0 : c0 = '['
      · rw [if_pos hc0] at hs
        cases hbl : beforeLast t ']' with
        | none => rw [hbl] at hs; exact absurd hs (by simp)
        | some pre =>
            rw [hbl] at hs
            cases pre with
            | nil => exact absurd hs (by simp)
            | cons a b =>
              have hs2 : a :: b = hd := by simpa using hs
              subst hs2
              refine ⟨by simp, ?_⟩
              intro c hc
              have hct : t.contains ']' = true := by
                cases hct2 : t.contains ']'
                · rw [beforeLast, hct2] at hbl
                  exact absurd hbl (by simp)
                · rfl
              rw [beforeLast, if_pos hct] at hbl
              have hpre := Option.some.inj hbl
              rw [← hpre] at hc
              have h1 : c ∈ (t.reverse.dropWhile (fun x => !(x == ']'))).tail :=
                List.mem_reverse.mp hc
              have h2 : c ∈ t.reverse :=
                (List.tail_sublist _).mem h1 |> (List.dropWhile_sublist _).mem
              exact List.mem_cons_of_mem c0 (List.mem_reverse.mp h2)
      · rw [if_neg hc0] at hs
        exact absurd hs (by simp)

theorem readLine_inv {rs rs2 : RS} {l : Str} (hinv : RInv rs)
    (hnl : '\n' ∉ l) (h : readLine rs l = .ok rs2) : RInv rs2 := by
  by_cases hcm : startsWithComment l = true
  · rw [readLine_comment hcm] at h
    obtain rfl := Except.ok.inj h
    exact hinv
  · have hcm2 : startsWithComment l = false := by simpa using hcm
    by_cases hpv : pstrip l = []
    · rcases readLine_blank_gen hcm2 hpv with hb | hb
      · rw [hb] at h
        obtain rfl := Except.ok.inj h
        exact hinv
      · rw [hb] at h
        obtain rfl := Except.ok.inj h
        exact RInv_curAppend hinv rfl (by simp) rfl
    · by_cases hcont : rs.cur ≠ Cur.nothing ∧ rs.optname ≠ [] ∧ rs.indent < indentOf l
      · rw [readLine_cont_gen hcm2 hpv hcont] at h
        obtain rfl := Except.ok.inj h
        exact RInv_curAppend hinv (pstrip_idem l)
          (fun hc => hnl (mem_of_mem_pstrip hc))
          (notCommentStart_of_not_comment hcm2)
      · obtain ⟨h1, h2, h3, h4, h5, h6, h7⟩ := hinv
        cases hsm : sectMatch (pstrip l) with
        | some header =>
            have hhp := sectMatch_some_props hsm
            rcases readLine_ok_header hcm2 hpv hcont hsm h with
              ⟨hmem, rfl⟩ | ⟨hmem, hdef, rfl⟩ | ⟨hmem, hdef, rfl⟩
            · refine ⟨h1, h2, fun hd => Cur.noConfusion hd, ?_, h5, h6, h7⟩
              intro n hn
              have hne : header = n := by
                injection hn
              exact hne ▸ ⟨rfl, hmem⟩
            · exact ⟨h1, h2, fun _ => hdef, fun n hn => Cur.noConfusion hn, h5, h6, h7⟩
            · have hnlh : '\n' ∉ header :=
                fun hc => hnl (mem_of_mem_pstrip (hhp.2 _ hc))
              refine ⟨?_, ?_, fun hd => Cur.noConfusion hd, ?_, h5, ?_, ?_⟩
              · rw [List.map_append]
                simp only [List.map_cons, List.map_nil]
                rw [List.nodup_append]
                refine ⟨h1, List.nodup_singleton _, ?_⟩
                intro a ha hb
                rcases List.mem_cons.mp hb with hx | hx
                · subst hx; exact hmem ha
                · exact absurd hx (List.not_mem_nil _)
              · intro s hs
                rcases List.mem_append.mp hs with hx | hx
                · exact h2 s hx
                · rcases List.mem_cons.mp hx with hy | hy
                  · subst hy
                    exact ⟨hhp.1, hnlh, hdef⟩
                  · exact absurd hy (List.not_mem_nil _)
              · intro n hn
                have hne : header = n := by injection hn
                subst hne
                refine ⟨rfl, ?_⟩
                rw [List.map_append]
                simp
              · intro s hs e he
                rcases List.mem_append.mp hs with hx | hx
                · exact h6 s hx e he
                · rcases List.mem_cons.mp hx with hy | hy
                  · subst hy
                    exact absurd he (List.not_mem_nil _)
                  · exact absurd hy (List.not_mem_nil _)
              · intro herr
                refine ⟨(h7 herr).1, ?_⟩
                intro s hs
                rcases List.mem_append.mp hs with hx | hx
                · exact (h7 herr).2 s hx
                · rcases List.mem_cons.mp hx with hy | hy
                  · subst hy
                    exact ⟨List.nodup_nil, fun e he => absurd he (List.not_mem_nil _)⟩
                  · exact absurd hy (List.not_mem_nil _)
        | none =>
            by_cases hcur : rs.cur = Cur.nothing
            · exact absurd (readLine_nothing_throws hcm2 hpv hcont hsm hcur h) id
            · cases hom : optMatch (pstrip l) with
              | some kv =>
                  obtain ⟨k, q0⟩ := kv
                  obtain ⟨hdup, rfl⟩ := readLine_ok_opt hcm2 hpv hcont hsm hom hcur h
                  obtain ⟨D, S, c, sn, o, ind, AS, AO, E⟩ := rs
                  cases c with
                  | nothing => exact absurd rfl hcur
                  | dflt =>
                      have hsn : sn = "DEFAULT".toList := h3 rfl
                      show RInv (⟨dSet D k [q0], S, Cur.dflt, sn, k, indentOf l, AS,
                        AO ++ [(sn, k)], if k = [] then true else E⟩ : RS)
                      refine ⟨h1, h2, fun _ => hsn,
                        fun n hn => Cur.noConfusion hn, ?_, ?_, ?_⟩
                      · intro e he
                        rcases dSet_mem_elim he with hx | hx
                        · subst hx
                          rw [← hsn]
                          simp
                        · exact List.mem_append_left _ (h5 e hx)
                      · intro s hs e he
                        exact List.mem_append_left _ (h6 s hs e he)
                      · intro herr
                        by_cases hk : k = []
                        · rw [if_pos hk] at herr
                          exact absurd herr (by simp)
                        · rw [if_neg hk] at herr
                          have hov := optMatch_props (pstrip_idem l)
                            (notCommentStart_of_not_comment hcm2)
                            (fun hc => hnl (mem_of_mem_pstrip hc)) hom hk
                          have hfresh : k ∉ D.map Prod.fst := by
                            intro hc
                            obtain ⟨e, he, heq⟩ := List.mem_map.mp hc
                            refine hdup ?_
                            show (sn, k) ∈ AO
                            rw [hsn, ← heq]
                            exact h5 e he
                          refine ⟨DictOK_dSet_fresh ((h7 herr).1) hov.1 ?_ hfresh,
                            (h7 herr).2⟩
                          refine ⟨by simp, ?_, ?_, ?_⟩
                          · intro q hq
                            rcases List.mem_cons.mp hq with hx | hx
                            · subst hx; exact ⟨hov.2.1, hov.2.2⟩
                            · exact absurd hx (List.not_mem_nil _)
                          · intro q hq
                            exact absurd hq (List.not_mem_nil _)
                          · exact sectMatch_reconstruct hsm hom hk (pstrip_idem l)
                  | sect n =>
                      have hsn : sn = n ∧ n ∈ S.map Prod.fst := h4 n rfl
                      show RInv (⟨D,
                        S.map (fun p => if p.1 = n then (p.1, dSet p.2 k [q0]) else p),
                        Cur.sect n, sn, k, indentOf l, AS,
                        AO ++ [(sn, k)], if k = [] then true else E⟩ : RS)
                      have hfst : ((S.map (fun p => if p.1 = n
                          then (p.1, dSet p.2 k [q0]) else p)).map Prod.fst) =
                          S.map Prod.fst :=
                        map_fst_if S _ (fun p => by
                          by_cases hp : p.1 = n
                          · rw [if_pos hp]
                          · rw [if_neg hp])
                      refine ⟨?_, ?_, fun hd => Cur.noConfusion hd, ?_, ?_, ?_, ?_⟩
                      · rw [hfst]; exact h1
                      · intro s2 hs2
                        obtain ⟨s, hs, heq⟩ := List.mem_map.mp hs2
                        by_cases hsne : s.1 = n
                        · rw [if_pos hsne] at heq
                          rw [← heq]
                          exact h2 s hs
                        · rw [if_neg hsne] at heq
                          rw [← heq]
                          exact h2 s hs
                      · intro n2 hn2
                        have hne : n = n2 := by injection hn2
                        subst hne
                        rw [hfst]
                        exact ⟨hsn.1, hsn.2⟩
                      · intro e he
                        exact List.mem_append_left _ (h5 e he)
                      · intro s2 hs2 e he
                        obtain ⟨s, hs, heq⟩ := List.mem_map.mp hs2
                        by_cases hsne : s.1 = n
                        · rw [if_pos hsne] at heq
                          rw [← heq] at he
                          rcases dSet_mem_elim he with hx | hx
                          · subst hx
                            rw [← heq]
                            refine List.mem_append_right _ ?_
                            show ((s.1, (k, [q0]).1) : Str × Str) ∈ [(sn, k)]
                            rw [hsn.1, ← hsne]
                            simp
                          · rw [← heq]
                            exact List.mem_append_left _ (h6 s hs e hx)
                        · rw [if_neg hsne] at heq
                          rw [← heq] at he ⊢
                          exact List.mem_append_left _ (h6 s hs e he)
                      · intro herr
                        by_cases hk : k = []
                        · rw [if_pos hk] at herr
                          exact absurd herr (by simp)
                        · rw [if_neg hk] at herr
                          have hov := optMatch_props (pstrip_idem l)
                            (notCommentStart_of_not_comment hcm2)
                            (fun hc => hnl (mem_of_mem_pstrip hc)) hom hk
                          refine ⟨(h7 herr).1, ?_⟩
                          intro s2 hs2
                          obtain ⟨s, hs, heq⟩ := List.mem_map.mp hs2
                          by_cases hsne : s.1 = n
                          · rw [if_pos hsne] at heq
                            rw [← heq]
                            have hfresh : k ∉ s.2.map Prod.fst := by
                              intro hc
                              obtain ⟨e, he, heq2⟩ := List.mem_map.mp hc
                              refine hdup ?_
                              show (sn, k) ∈ AO
                              rw [hsn.1, ← hsne, ← heq2]
                              exact h6 s hs e he
                            refine DictOK_dSet_fresh ((h7 herr).2 s hs) hov.1 ?_ hfresh
                            refine ⟨by simp, ?_, ?_, ?_⟩
                            · intro q hq
                              rcases List.mem_cons.mp hq with hx | hx
                              · subst hx; exact ⟨hov.2.1, hov.2.2⟩
                              · exact absurd hx (List.not_mem_nil _)
                            · intro q hq
                              exact absurd hq (List.not_mem_nil _)
                            · exact sectMatch_reconstruct hsm hom hk (pstrip_idem l)
                          · rw [if_neg hsne] at heq
                            rw [← heq]
                            exact (h7 herr).2 s hs
              | none =>
                  rw [readLine_ok_nomatch hcm2 hpv hcont hsm hom hcur h]
                  exact ⟨h1, h2, h3, h4, h5, h6, fun herr => absurd herr (by simp)⟩

theorem rstrip_append_of_nil {b : Str} (a : Str) (hb : rstrip b = []) :
    rstrip (a ++ b) = rstrip a := by
  rw [rstrip, rstrip, List.reverse_append, List.dropWhile_append]
  rw [rstrip] at hb
  have hb2 : b.reverse.dropWhile pyIsSpace = [] := by
    have := congrArg List.reverse hb
    rw [List.reverse_reverse] at this
    simpa using this
  simp [hb2]

theorem rstrip_append_of_ne_nil {b : Str} (a : Str) (hb : rstrip b ≠ []) :
    rstrip (a ++ b) = a ++ rstrip b := by
  rw [rstrip, rstrip, List.reverse_append, List.dropWhile_append]
  rw [rstrip] at hb
  have hb2 : b.reverse.dropWhile pyIsSpace ≠ [] := by
    intro hc
    rw [hc] at hb
    simp at hb
  rw [if_neg (by simpa using hb2)]
  simp

theorem trimTrail_isPrefix (ps : List Str) : trimTrail ps <+: ps := by
  induction ps with
  | nil => simp [trimTrail]
  | cons p rest ih =>
      rw [trimTrail]
      by_cases ht : trimTrail rest = []
      · rw [if_pos ht]
        by_cases hp : p = []
        · rw [if_pos hp]
          exact List.nil_prefix
        · rw [if_neg hp]
          exact ⟨rest, rfl⟩
      · rw [if_neg ht]
        exact List.cons_prefix_cons.mpr ⟨rfl, ih⟩

theorem trimTrail_nil_all {ps : List Str} (h : trimTrail ps = []) :
    ∀ q ∈ ps, q = [] := by
  induction ps with
  | nil => intro q hq; exact absurd hq (List.not_mem_nil _)
  | cons p rest ih =>
      rw [trimTrail] at h
      by_cases ht : trimTrail rest = []
      · rw [if_pos ht] at h
        by_cases hp : p = []
        · intro q hq
          rcases List.mem_cons.mp hq with hx | hx
          · rw [hx, hp]
          · exact ih ht q hx
        · rw [if_neg hp] at h
          exact absurd h (by simp)
      · rw [if_neg ht] at h
        exact absurd h (by simp)

theorem joinNl_trimTrail_ne_nil {ps : List Str} (h : trimTrail ps ≠ []) :
    joinNl (trimTrail ps) ≠ [] := by
  induction ps with
  | nil => exact absurd (show trimTrail [] = [] from rfl) h
  | cons p rest ih =>
      rw [trimTrail] at h ⊢
      by_cases ht : trimTrail rest = []
      · rw [if_pos ht] at h ⊢
        by_cases hp : p = []
        · rw [if_pos hp] at h
          exact absurd rfl h
        · rw [if_neg hp]
          exact hp
      · rw [if_neg ht] at h ⊢
        rw [joinNl_cons p ht]
        intro hc
        exact absurd (List.append_eq_nil.mp hc).2 (by simp)

theorem rstrip_joinNl_trimTrail {ps : List Str}
    (hr : ∀ q ∈ ps, rstrip q = q) :
    rstrip (joinNl ps) = joinNl (trimTrail ps) := by
  induction ps with
  | nil => rfl
  | cons p rest ih =>
      by_cases hrest : rest = []
      · subst hrest
        rw [trimTrail]
        rw [if_pos (show trimTrail ([] : List Str) = [] from rfl)]
        by_cases hp : p = []
        · rw [if_pos hp, hp]
          rfl
        · rw [if_neg hp]
          show rstrip (joinNl [p]) = joinNl [p]
          rw [joinNl]
          exact hr p (by simp)
      · rw [joinNl_cons p hrest]
        have ihr := ih (fun q hq => hr q (by simp [hq]))
        by_cases ht : trimTrail rest = []
        · rw [ht] at ihr
          have hjr : rstrip ('\n' :: joinNl rest) = [] := by
            rw [show ('\n' :: joinNl rest : Str) = ['\n'] ++ joinNl rest by simp]
            rw [rstrip_append_of_nil ['\n'] (by rw [ihr]; rfl)]
            rfl
          rw [rstrip_append_of_nil p hjr]
          rw [trimTrail, if_pos ht]
          by_cases hp : p = []
          · rw [if_pos hp, hp]
            rfl
          · rw [if_neg hp]
            show rstrip p = joinNl [p]
            rw [joinNl]
            exact hr p (by simp)
        · have hjr : rstrip ('\n' :: joinNl rest) = '\n' :: joinNl (trimTrail rest) := by
            rw [show ('\n' :: joinNl rest : Str) = ['\n'] ++ joinNl rest by simp]
            rw [rstrip_append_of_ne_nil ['\n'] (by
              rw [ihr]
              exact joinNl_trimTrail_ne_nil ht)]
            rw [ihr]
            rfl
          rw [rstrip_append_of_ne_nil p (by
            rw [hjr]
            simp)]
          rw [hjr, trimTrail, if_neg ht, joinNl_cons p ht]

theorem map_fst_map {α β : Type} (S : List (Str × α)) (f : Str × α → Str × β)
    (hf : ∀ p, (f p).1 = p.1) : (S.map f).map Prod.fst = S.map Prod.fst := by
  induction S with
  | nil => rfl
  | cons e rest ih =>
      simp only [List.map_cons, ih, hf e]

theorem WFval_of_PiecesOK {k : Str} {ps : List Str} (hps : PiecesOK k ps) :
    WFval k (joinPieces ps) := by
  obtain ⟨hne, hmem, htl, hhd⟩ := hps
  have hr : ∀ q ∈ ps, rstrip q = q := fun q hq => (pstrip_eq_self_split (hmem q hq).1).2
  have hnlq : ∀ q ∈ ps, '\n' ∉ q := fun q hq => (hmem q hq).2
  have hjt : joinPieces ps = joinNl (trimTrail ps) := by
    rw [joinPieces, rstrip_joinNl_trimTrail hr]
  by_cases ht : trimTrail ps = []
  · have hall := trimTrail_nil_all ht
    have hv : joinPieces ps = [] := by rw [hjt, ht]; rfl
    rw [hv]
    refine ⟨rfl, ?_, ?_, ?_⟩
    · intro q hq
      have hq2 : q = [] := by
        rw [show splitNl ([] : Str) = [[]] from rfl] at hq
        simpa using hq
      rw [hq2]; rfl
    · intro q hq
      rw [show splitNl ([] : Str) = [[]] from rfl] at hq
      exact absurd hq (List.not_mem_nil _)
    · have hh : ps.headD [] = [] := by
        cases ps with
        | nil => rfl
        | cons a b => exact hall a (by simp)
      rw [show (splitNl ([] : Str)).headD [] = [] from rfl]
      rw [hh] at hhd
      exact hhd
  · have hsplit : splitNl (joinPieces ps) = trimTrail ps := by
      rw [hjt]
      exact splitNl_joinNl ht (fun q hq => hnlq q ((trimTrail_isPrefix ps).sublist.mem hq))
    obtain ⟨rest2, hdec⟩ := trimTrail_isPrefix ps
    refine ⟨?_, ?_, ?_, ?_⟩
    · rw [joinPieces, rstrip_idem]
    · intro q hq
      rw [hsplit] at hq
      exact (hmem q ((trimTrail_isPrefix ps).sublist.mem hq)).1
    · intro q hq
      rw [hsplit] at hq
      cases htt : trimTrail ps with
      | nil => exact absurd htt ht
      | cons a b =>
          rw [htt] at hq
          have htla : ps.tail = b ++ rest2 := by
            rw [← hdec, htt]
            rfl
          refine htl q ?_
          rw [htla]
          exact List.mem_append_left _ (by simpa using hq)
    · rw [hsplit]
      cases htt : trimTrail ps with
      | nil => exact absurd htt ht
      | cons a b =>
          have hh : ps.headD [] = a := by
            rw [← hdec, htt]
            rfl
          rw [List.headD_cons, ← hh]
          exact hhd

theorem RInv_init : RInv RS.init := by
  refine ⟨List.nodup_nil, ?_, ?_, ?_, ?_, ?_, ?_⟩
  · intro s hs; exact absurd hs (List.not_mem_nil _)
  · intro hd; exact Cur.noConfusion hd
  · intro n hn; exact Cur.noConfusion hn
  · intro e he; exact absurd he (List.not_mem_nil _)
  · intro s hs; exact absurd hs (List.not_mem_nil _)
  · intro _
    exact ⟨⟨List.nodup_nil, fun e he => absurd he (List.not_mem_nil _)⟩,
      fun s hs => absurd hs (List.not_mem_nil _)⟩

theorem foldlM_readLine_inv {lines : List Str} {rs0 rs : RS}
    (hinv : RInv rs0) (hnl : ∀ l ∈ lines, '\n' ∉ l)
    (h : lines.foldlM readLine rs0 = .ok rs) : RInv rs := by
  induction lines generalizing rs0 with
  | nil =>
      rw [List.foldlM_nil] at h
      obtain rfl := Except.ok.inj h
      exact hinv
  | cons l rest ih =>
      rw [List.foldlM_cons] at h
      cases hstep : readLine rs0 l with
      | error e =>
          rw [hstep] at h
          exact absurd h (by simp [Bind.bind, Except.bind])
      | ok rs1 =>
          rw [hstep, exceptOk_bind] at h
          exact ih (readLine_inv hinv (hnl l (by simp)) hstep)
            (fun l2 h2 => hnl l2 (by simp [h2])) h

theorem fileLines_no_nl (s : Str) : ∀ l ∈ fileLines s, '\n' ∉ l := by
  intro l hl
  rw [fileLines] at hl
  by_cases hs : s = []
  · rw [if_pos hs] at hl
    exact absurd hl (List.not_mem_nil _)
  · rw [if_neg hs] at hl
    by_cases hlast : (splitNl s).getLastD [] = []
    · rw [if_pos hlast] at hl
      exact splitNl_no_nl (List.dropLast_sublist _ |>.mem hl)
    · rw [if_neg hlast] at hl
      exact splitNl_no_nl hl

theorem loadCfg_wf {s : Str} {cp : CP} (h : loadCfg s = .ok cp) : WFcp cp := by
  have h2 : (readLines (fileLines s) >>= fun rs => finishRead rs) = .ok cp := h
  cases hrl : readLines (fileLines s) with
  | error e =>
      rw [hrl] at h2
      exact absurd h2 (by simp [Bind.bind, Except.bind])
  | ok rs =>
      rw [hrl, exceptOk_bind] at h2
      have hinv : RInv rs := foldlM_readLine_inv RInv_init (fileLines_no_nl s) hrl
      obtain ⟨h1, hnames, h3, h4, h5, h6, h7⟩ := hinv
      rw [finishRead] at h2
      cases herr : rs.err with
      | true =>
          rw [herr] at h2
          exact absurd h2 (by simp [throw, throwThe, MonadExceptOf.throw])
      | false =>
          rw [herr] at h2
          simp only [Bool.false_eq_true, if_false] at h2
          obtain rfl := exceptOk_inj h2
          obtain ⟨hdd, hds⟩ := h7 herr
          refine ⟨?_, ?_, ?_⟩
          · rw [map_fst_map rs.sects
              (fun s0 => (s0.1, s0.2.map (fun e => (e.1, joinPieces e.2))))
              (fun p => rfl)]
            exact h1
          · intro s2 hs2
            obtain ⟨s0, hs0, heq⟩ := List.mem_map.mp hs2
            rw [← heq]
            have hn := hnames s0 hs0
            refine ⟨hn.1, hn.2.1, hn.2.2, ?_, ?_⟩
            · rw [map_fst_map s0.2 (fun e => (e.1, joinPieces e.2)) (fun p => rfl)]
              exact (hds s0 hs0).1
            · intro e2 he2
              obtain ⟨e0, he0, heq2⟩ := List.mem_map.mp he2
              rw [← heq2]
              exact ⟨((hds s0 hs0).2 e0 he0).1,
                WFval_of_PiecesOK ((hds s0 hs0).2 e0 he0).2⟩
          · refine ⟨?_, ?_⟩
            · rw [map_fst_map rs.dflts (fun e => (e.1, joinPieces e.2)) (fun p => rfl)]
              exact hdd.1
            · intro e2 he2
              obtain ⟨e0, he0, heq2⟩ := List.mem_map.mp he2
              rw [← heq2]
              exact ⟨(hdd.2 e0 he0).1, WFval_of_PiecesOK (hdd.2 e0 he0).2⟩

/-- C3: for every document that parses successfully, saving it unchanged
(truncating the backing file) and loading the result yields the same
document, with all sections, keys and values (and their order) preserved:
`load(save(load(X))) = load(X)`. -/
theorem claim_C3_roundtrip (x prior : Str) (d : CP) (h : loadCfg x = .ok d) :
    loadCfg (QBittorrentConfig.saveToFile prior d) = .ok d := by
  rw [QBittorrentConfig.saveToFile, fileWrite]
  exact loadCfg_save d (loadCfg_wf h)

/-- Witness for C3 on a concrete two-section document with a DEFAULT block. -/
theorem claim_C3_roundtrip_witness :
    loadCfg "[DEFAULT]\nd=1\n[A]\nPort=8080\nport=x\n".toList =
      .ok ⟨[("d".toList, "1".toList)],
           [("A".toList, [("Port".toList, "8080".toList),
                          ("port".toList, "x".toList)])]⟩ ∧
    loadCfg (QBittorrentConfig.saveToFile "stale".toList
        ⟨[("d".toList, "1".toList)],
         [("A".toList, [("Port".toList, "8080".toList),
                        ("port".toList, "x".toList)])]⟩) =
      .ok ⟨[("d".toList, "1".toList)],
           [("A".toList, [("Port".toList, "8080".toList),
                          ("port".toList, "x".toList)])]⟩ :=
  ⟨by decide,
   claim_C3_roundtrip "[DEFAULT]\nd=1\n[A]\nPort=8080\nport=x\n".toList
     "stale".toList _ (by decide)⟩

/-- Counterexample to C4 as stated: the claim quantifies over every section,
but for the section name `DEFAULT` the setter raises `ValueError` from
`add_section` instead of producing two entries. -/
theorem claim_C4_counterexample :
    QBittorrentConfig.set CP.empty "DEFAULT".toList "Port".toList "1".toList =
      .error PyErr.invalidSectionName := by decide

/-- C4 (amended): for every section name other than `DEFAULT` and `""` (and
free of newlines), setting `Port` and then `port` in that section produces
two distinct entries in order, the saved output serializes both, and a
subsequent load returns exactly the same document with both keys intact. -/
theorem claim_C4_case_sensitive (s v1 v2 : Str)
    (hs0 : s ≠ []) (hsD : s ≠ "DEFAULT".toList) (hsnl : '\n' ∉ s)
    (hv1 : v1 = [] ∨ beforeSetOk v1 = true) (hv2 : v2 = [] ∨ beforeSetOk v2 = true)
    (hw1 : WFval "Port".toList v1) (hw2 : WFval "port".toList v2) :
    (QBittorrentConfig.set CP.empty s "Port".toList v1 >>=
      fun c1 => QBittorrentConfig.set c1 s "port".toList v2) =
      .ok (⟨[], [(s, [("Port".toList, v1), ("port".toList, v2)])]⟩ : CP) ∧
    loadCfg (QBittorrentConfig.save
        (⟨[], [(s, [("Port".toList, v1), ("port".toList, v2)])]⟩ : CP)) =
      .ok (⟨[], [(s, [("Port".toList, v1), ("port".toList, v2)])]⟩ : CP) := by
  have hstep1 : QBittorrentConfig.set CP.empty s "Port".toList v1 =
      .ok (⟨[], [(s, [("Port".toList, v1)])]⟩ : CP) := by
    have h0 : QBittorrentConfig.set CP.empty s "Port".toList v1 =
        .ok ⟨CP.empty.defaults, CP.empty.sections ++ [(s, [("Port".toList, v1)])]⟩ :=
      set_eq_new_section hv1 hs0 hsD (by simp [CP.empty])
    simpa [CP.empty] using h0
  have hupd : sectUpdate [(s, [("Port".toList, v1)])] s "port".toList v2 =
      [(s, [("Port".toList, v1), ("port".toList, v2)])] := by
    rw [sectUpdate_cons, if_pos rfl]
    rw [show dSet [("Port".toList, v1)] "port".toList v2 =
        [("Port".toList, v1), ("port".toList, v2)] from by
      rw [dSet, if_neg (by decide)]
      rfl]
    rfl
  have hstep2 : QBittorrentConfig.set (⟨[], [(s, [("Port".toList, v1)])]⟩ : CP)
      s "port".toList v2 =
      .ok (⟨[], [(s, [("Port".toList, v1), ("port".toList, v2)])]⟩ : CP) := by
    have hg : dGet [(s, [("Port".toList, v1)])] s = some [("Port".toList, v1)] := by
      rw [dGet, if_pos rfl]
    have h0 : QBittorrentConfig.set (⟨[], [(s, [("Port".toList, v1)])]⟩ : CP)
        s "port".toList v2 =
        .ok ⟨[], sectUpdate [(s, [("Port".toList, v1)])] s "port".toList v2⟩ :=
      set_eq_existing hv2 hs0 hsD hg (by simp)
    rw [h0, hupd]
  refine ⟨?_, ?_⟩
  · rw [hstep1, exceptOk_bind, hstep2]
  · refine loadCfg_save _ ⟨?_, ?_, ?_⟩
    · simp
    · intro s2 hs2
      rcases List.mem_cons.mp hs2 with hx | hx
      · subst hx
        refine ⟨hs0, hsnl, hsD, ?_, ?_⟩
        · simp [List.nodup_cons]
        · intro e he
          rcases List.mem_cons.mp he with hy | hy
          · subst hy
            exact ⟨(⟨by decide, by decide, by decide, by decide⟩ :
              WFkey "Port".toList), hw1⟩
          · rcases List.mem_cons.mp hy with hz | hz
            · subst hz
              exact ⟨(⟨by decide, by decide, by decide, by decide⟩ :
                WFkey "port".toList), hw2⟩
            · exact absurd hz (List.not_mem_nil _)
      · exact absurd hx (List.not_mem_nil _)
    · exact ⟨List.nodup_nil, fun e he => absurd he (List.not_mem_nil _)⟩

/-- Witness for the amended C4 at a concrete section and values. -/
theorem claim_C4_case_sensitive_witness :
    (QBittorrentConfig.set CP.empty "S".toList "Port".toList "1".toList >>=
      fun c1 => QBittorrentConfig.set c1 "S".toList "port".toList "2".toList) =
      .ok (⟨[], [("S".toList, [("Port".toList, "1".toList),
                              ("port".toList, "2".toList)])]⟩ : CP) ∧
    loadCfg (QBittorrentConfig.save
        (⟨[], [("S".toList, [("Port".toList, "1".toList),
                             ("port".toList, "2".toList)])]⟩ : CP)) =
      .ok (⟨[], [("S".toList, [("Port".toList, "1".toList),
                               ("port".toList, "2".toList)])]⟩ : CP) :=
  claim_C4_case_sensitive "S".toList "1".toList "2".toList (by decide) (by decide)
    (by decide) (Or.inr (by decide)) (Or.inr (by decide))
    ⟨by decide, by decide, by decide, by decide⟩
    ⟨by decide, by decide, by decide, by decide⟩
